import Mathlib

/-!
# Parallel k-means colour quantisation (`KMeanAlgo.h`)

A shallow embedding of the class `PPTP::KMeanAlgo` and theorems about it.

Modelling conventions.

* `uchar` values are naturals; every store into a `uchar` cell is written with an explicit
  `% 256`.  `int` configuration fields are integers.
* The `double` accumulators `clst_count` / `clst_colorsum` only ever hold sums of at most
  `rows * cols` bytes.  `rows * cols` is an `int` in the source, so every such sum is an integer
  below `2 ^ 53` and is represented exactly by a `double`; the accumulators are therefore naturals
  and `(int)(temp_sum / temp_count)` is the floor quotient.
* The distances `dst`, `min_dst` of `nrst_centroid_index` are genuine binary64 values.  For
  pixels and centroids that are bytes, every value they can take is `0` or lies in `[1, 2 ^ 18)`,
  hence is a multiple of `2 ^ (-52)`; a distance `x` is represented by the natural `x * 2 ^ 52`,
  and `dblAdd`, `dblSqrt` are the IEEE 754 round-to-nearest-even sum and square root on that
  representation.
* `new double[nb_channels]` does not initialise its cells: the initial contents of
  `clst_colorsum` are a parameter `heap` of the constructor, one natural (an integer-valued
  double) per cell.
* `rand()` is a parameter `rnd`; the OpenMP thread number of a pixel is a parameter `sched`.
* The quotient `temp_sum / temp_count` with `temp_count = 0` is not a number and its conversion to
  an integer is not defined by the language: the byte that ends up in the centroid is a parameter
  `div0` (a function of the numerator).
* `new uchar[rows * cols]` does not initialise its cells either: a cell of `clustered_img` that
  has not been written since the allocation holds no byte.  It is represented by `unwritten`, a
  value that no store into the buffer produces, and `map_segmentation` reading such a cell is a
  `Fault`.
* Indexing a `std::vector` outside its bounds is a `Fault`.
* An allocation fails only when it is asked for a negative size (memory is never exhausted).
  The `int` product `nb_centroids * nb_threads` of the constructor is the mathematical product;
  the characterisation of the failures of the constructor assumes that it fits an `int`.
-/

namespace PPTP

/-! ## binary64 distances -/

/-- The representation of the double `n` for a natural `n`. -/
def dblOfNat (n : Nat) : Nat := n * 2 ^ 52

/-- The number of bits of `n` beyond the 53rd, for `n < 2 ^ (53 + fuel)`. -/
def excessBits : Nat → Nat → Nat
  | 0, _ => 0
  | fuel + 1, n => if n < 2 ^ 53 then 0 else excessBits fuel (n / 2) + 1

/-- Round a non-negative multiple of `2 ^ (-52)` below `2 ^ 117` to 53 significant bits, ties to
even. -/
def dblRound (n : Nat) : Nat :=
  if n < 2 ^ 53 then n
  else
    let e := excessBits 64 n
    let q := n / 2 ^ e
    let r := n % 2 ^ e
    let half := 2 ^ (e - 1)
    if r < half then q * 2 ^ e
    else if half < r then (q + 1) * 2 ^ e
    else (q + q % 2) * 2 ^ e

/-- The binary64 sum `a + b`. -/
def dblAdd (a b : Nat) : Nat := dblRound (a + b)

/-- Bitwise integer square root: `isqrtAux k n r` decides the bits below `2 ^ k`. -/
def isqrtAux : Nat → Nat → Nat → Nat
  | 0, _, r => r
  | k + 1, n, r =>
    if (r + 2 ^ k) * (r + 2 ^ k) ≤ n then isqrtAux k n (r + 2 ^ k) else isqrtAux k n r

/-- Floor of the square root of `n`, for `n < 2 ^ 128`. -/
def isqrt (n : Nat) : Nat := isqrtAux 64 n 0

/-- The binary64 square root of a double that is `0` or at least `1`. -/
def dblSqrt (a : Nat) : Nat :=
  let n := a * 2 ^ 52
  let s := isqrt n
  if s < 2 ^ 53 then (if n ≤ s * s + s then s else s + 1)
  else
    let e := excessBits 64 s
    let q := s / 2 ^ e
    let m := (2 * q + 1) * 2 ^ (e - 1)
    if n < m * m then q * 2 ^ e
    else if m * m < n then (q + 1) * 2 ^ e
    else (q + q % 2) * 2 ^ e

/-- Absolute value of the `int` difference of two bytes. -/
def absDiff (a b : Nat) : Nat := if a ≤ b then b - a else a - b

/-! ## Data model -/

/-- A `cv::Mat` of `uchar` or `Vec3b` pixels, stored row-major. -/
structure Mat where
  rows : Nat
  cols : Nat
  data : List (List Nat)
deriving DecidableEq, Repr

/-- The pixel `image.at<...>(i, j)`. -/
def Mat.pixel (image : Mat) (i j : Nat) : List Nat := image.data.getD (i * image.cols + j) []

/-- Faults of the run-time: an index outside a vector, an allocation of negative size, a read of
a cell of `clustered_img` that was never written. -/
inductive Fault where
  | out_of_range
  | bad_alloc
  | uninitialised
deriving DecidableEq, Repr

deriving instance DecidableEq for Except

/-- The members of `KMeanAlgo`. -/
structure KMeanAlgo where
  nb_channels : Int
  mode : String
  nb_threads : Int
  m_nb_centroid : Int
  m_maxiter : Int
  centroids : List (List Nat)
  new_centroids : List (List Nat)
  clst_colorsum : List (List Nat)
  clst_count : List Nat
  clustered_img : List Nat
deriving DecidableEq, Repr

/-- The cell `v[k][ch]` of a vector of channel arrays. -/
def cell (v : List (List Nat)) (k ch : Nat) : Nat := (v.getD k []).getD ch 0

/-- The store `v[k][ch] = x`. -/
def setCell (v : List (List Nat)) (k ch x : Nat) : List (List Nat) :=
  v.set k ((v.getD k []).set ch x)

/-- Bounds-checked position of an `int` index in a vector of the given size. -/
def slot (size : Nat) (k : Int) : Except Fault Nat :=
  if 0 ≤ k ∧ k.toNat < size then .ok k.toNat else .error Fault.out_of_range

/-! ## The constructor -/

/-- The object the constructor builds when its allocations succeed.  `heap k ch` is the content
of cell `ch` of the `k`-th `new double[nb_channels]`; the cells of `centroids`, `new_centroids`
are written before they are read, `clustered_img` is allocated by `init_centroids`. -/
def KMeanAlgo.alloc (nb_channels nb_centroids max_iter : Int) (mode : String)
    (nb_threads : Int) (heap : Nat → Nat → Nat) : KMeanAlgo :=
  { nb_channels := nb_channels
    mode := mode
    nb_threads := nb_threads
    m_nb_centroid := nb_centroids
    m_maxiter := max_iter
    centroids := List.replicate nb_centroids.toNat (List.replicate nb_channels.toNat 0)
    new_centroids := List.replicate nb_centroids.toNat (List.replicate nb_channels.toNat 0)
    clst_colorsum :=
      (List.range (nb_centroids.toNat * (if mode = "omp" then 1 + (nb_threads.toNat - 1) else 1))).map
        (fun k => (List.range nb_channels.toNat).map (heap k))
    clst_count :=
      List.replicate (if mode = "omp" then nb_centroids * nb_threads else nb_centroids).toNat 0
    clustered_img := [] }

/-- The constructor `KMeanAlgo(nb_channels, nb_centroids, max_iter, mode, nb_threads)`.  It
throws when `clst_count.assign` or `new uchar[nb_channels]` is asked for a negative size, and
checks nothing else. -/
def KMeanAlgo.create (nb_channels nb_centroids max_iter : Int) (mode : String)
    (nb_threads : Int) (heap : Nat → Nat → Nat) : Except Fault KMeanAlgo :=
  if (if mode = "omp" then nb_centroids * nb_threads else nb_centroids) < 0 then
    .error Fault.bad_alloc
  else if 0 < nb_centroids ∧ nb_channels < 0 then .error Fault.bad_alloc
  else .ok (KMeanAlgo.alloc nb_channels nb_centroids max_iter mode nb_threads heap)

/-! ## `init_centroids` -/

/-- One round of the seeding loop: centroid `i` becomes the pixel at a random position. -/
def init_centroid_step (image : Mat) (rnd : Nat → Nat) (s : KMeanAlgo) (i : Nat) : KMeanAlgo :=
  let row := rnd (2 * i) % image.rows
  let col := rnd (2 * i + 1) % image.cols
  if s.nb_channels = 1 then
    { s with centroids := setCell s.centroids i 0 ((image.pixel row col).getD 0 0) }
  else
    let cs := (List.range s.nb_channels.toNat).foldl
      (fun cs j => setCell cs i j ((image.pixel row col).getD j 0)) s.centroids
    { s with centroids := cs }

/-- What a cell of `clustered_img` holds between `new uchar[...]` and the first store into it:
no byte.  Every store into the buffer writes a value below 256. -/
def unwritten : Nat := 256

/-- The method `init_centroids(image)`; `rnd k` is the value of the `k`-th call of `rand()`.
The fresh `clustered_img` has one cell per pixel and none of them is written. -/
def init_centroids (image : Mat) (rnd : Nat → Nat) (s : KMeanAlgo) : KMeanAlgo :=
  let s1 := (List.range s.m_nb_centroid.toNat).foldl (init_centroid_step image rnd) s
  { s1 with clustered_img := List.replicate (image.rows * image.cols) unwritten }

/-! ## `nrst_centroid_index` -/

/-- The locals `min_dst`, `dst`, `nrst_indx` of `nrst_centroid_index`. -/
structure Nrst where
  min_dst : Nat
  dst : Nat
  nrst_indx : Nat
deriving DecidableEq, Repr

/-- One round of the scan over the centroids. -/
def nrst_step (s : KMeanAlgo) (px : List Nat) (st : Nrst) (ind : Nat) : Nrst :=
  let dst :=
    if s.nb_channels = 1 then
      dblOfNat (absDiff (px.getD 0 0) (cell s.centroids ind 0))
    else
      dblSqrt ((List.range s.nb_channels.toNat).foldl
        (fun d ch => dblAdd d (dblOfNat (absDiff (px.getD ch 0) (cell s.centroids ind ch) ^ 2)))
        st.dst)
  if dst ≤ st.min_dst then { min_dst := dst, dst := dst, nrst_indx := ind }
  else { st with dst := dst }

/-- The method `nrst_centroid_index(image, i, j)`. -/
def nrst_centroid_index (s : KMeanAlgo) (image : Mat) (i j : Nat) : Nat :=
  ((List.range s.m_nb_centroid.toNat).foldl (nrst_step s (image.pixel i j))
    { min_dst := dblOfNat 1000, dst := 0, nrst_indx := 0 }).nrst_indx

/-! ## `segment` -/

/-- The update `v[k] += x` of a vector of doubles. -/
def addAt (v : List Nat) (k x : Nat) : List Nat := v.set k (v.getD k 0 + x)

/-- The three stores of the pixel loop of the serial / OpenMP branch of `segment`: one more pixel
in `clst_count[kc]`, its channels added to `clst_colorsum[ks]`, its label in `clustered_img`. -/
def segment_store (image : Mat) (s : KMeanAlgo) (i j cent_ind kc ks : Nat) : KMeanAlgo :=
  { s with
    clst_count := addAt s.clst_count kc 1
    clst_colorsum :=
      if s.nb_channels = 1 then
        setCell s.clst_colorsum ks 0 (cell s.clst_colorsum ks 0 + (image.pixel i j).getD 0 0)
      else
        (List.range s.nb_channels.toNat).foldl
          (fun cs ch => setCell cs ks ch (cell cs ks ch + (image.pixel i j).getD ch 0))
          s.clst_colorsum
    clustered_img := s.clustered_img.set (i * image.cols + j) (cent_ind % 256) }

/-- The body of the pixel loop of the serial / OpenMP branch of `segment`, run by thread `th`. -/
def segment_pixel (image : Mat) (th : Nat) (s : KMeanAlgo) (i j : Nat) :
    Except Fault KMeanAlgo := do
  let cent_ind := nrst_centroid_index s image i j
  let kc ← slot s.clst_count.length ((th : Int) * s.m_nb_centroid + (cent_ind : Int))
  let ks ← slot s.clst_colorsum.length ((th : Int) * s.m_nb_centroid + (cent_ind : Int))
  pure (segment_store image s i j cent_ind kc ks)

/-- The serial / OpenMP branch of `segment`; `sched p` is the thread that handles the pixel of
linear index `p` when `mode == "omp"`, otherwise `th` keeps its initial value `0`. -/
def segment_loops (sched : Nat → Nat) (s : KMeanAlgo) (image : Mat) : Except Fault KMeanAlgo :=
  (List.range image.rows).foldlM
    (fun s1 i => (List.range image.cols).foldlM
      (fun s2 j =>
        segment_pixel image (if s2.mode = "omp" then sched (i * image.cols + j) else 0) s2 i j)
      s1)
    s

/-- The count reduction of the TBB branch: the number of labels equal to `cent`. -/
def tbb_count (labels : List Nat) (n cent : Nat) : Nat :=
  (List.range n).foldl (fun total i => total + (if labels.getD i 0 = cent then 1 else 0)) 0

/-- The colour reduction of the TBB branch: the sum of channel `ch` over the pixels labelled
`cent`. -/
def tbb_colorsum (s : KMeanAlgo) (image : Mat) (labels : List Nat) (n cent ch : Nat) : Nat :=
  (List.range n).foldl
    (fun total i =>
      if labels.getD i 0 = cent then
        (if s.nb_channels = 1 then total + (image.pixel (i / image.cols) (i % image.cols)).getD 0 0
         else total + (image.pixel (i / image.cols) (i % image.cols)).getD ch 0)
      else total)
    0

/-- The store `clst_colorsum[cent][ch] = parallel_reduce(...)` of the TBB branch. -/
def tbb_channel (s : KMeanAlgo) (image : Mat) (labels : List Nat) (n cent : Nat)
    (cs : List (List Nat)) (ch : Nat) : Except Fault (List (List Nat)) := do
  let ks ← slot cs.length (cent : Int)
  pure (setCell cs ks ch (tbb_colorsum s image labels n cent ch))

/-- The body of the loop over the centroids of the TBB branch: the count, then every channel. -/
def tbb_centroid (s : KMeanAlgo) (image : Mat) (labels : List Nat) (n : Nat) (s1 : KMeanAlgo)
    (cent : Nat) : Except Fault KMeanAlgo := do
  let kc ← slot s1.clst_count.length (cent : Int)
  let colorsum ← (List.range s1.nb_channels.toNat).foldlM (tbb_channel s image labels n cent)
    s1.clst_colorsum
  pure { s1 with clst_count := s1.clst_count.set kc (tbb_count labels n cent)
                 clst_colorsum := colorsum }

/-- The labels written by the first loop nest of the TBB branch. -/
def tbb_labels (s : KMeanAlgo) (image : Mat) : List Nat :=
  (List.range image.rows).flatMap (fun i =>
    (List.range image.cols).map (fun j => nrst_centroid_index s image i j % 256))

/-- The TBB branch of `segment`: labels first, then one reduction per centroid and channel.
(The label store is spelled `clusteed_img` at line 143 of the source.) -/
def segment_tbb (s : KMeanAlgo) (image : Mat) : Except Fault KMeanAlgo :=
  (List.range s.m_nb_centroid.toNat).foldlM
    (tbb_centroid s image (tbb_labels s image) (image.rows * image.cols))
    { s with clustered_img := tbb_labels s image }

/-- The method `segment(image)`. -/
def segment (sched : Nat → Nat) (s : KMeanAlgo) (image : Mat) : Except Fault KMeanAlgo :=
  if s.mode = "tbb" then segment_tbb s image else segment_loops sched s image

/-! ## `compute_centroids` -/

/-- The locals `temp_count`, `temp_sum` of `compute_centroids` together with the object. -/
structure Temp where
  state : KMeanAlgo
  temp_count : Nat
  temp_sum : List Nat
deriving DecidableEq, Repr

/-- The two statements on `clst_count` in the loop over `th`: add slot `kc` to `temp_count` and
zero it. -/
def take_count (t : Temp) (kc : Nat) : Temp :=
  { t with
    temp_count := t.temp_count + t.state.clst_count.getD kc 0
    state := { t.state with clst_count := t.state.clst_count.set kc 0 } }

/-- The two statements on `clst_colorsum` in the loop over `ch`: add cell `ch` of slot `ks` to
`temp_sum[ch]` and zero it. -/
def take_channel (t : Temp) (ks ch : Nat) : Temp :=
  { t with
    temp_sum := addAt t.temp_sum ch (cell t.state.clst_colorsum ks ch)
    state := { t.state with clst_colorsum := setCell t.state.clst_colorsum ks ch 0 } }

/-- The body of the loop over `ch` inside the loop over `th`. -/
def compute_channel (i th : Nat) (t : Temp) (ch : Nat) : Except Fault Temp := do
  let ks ← slot t.state.clst_colorsum.length
    ((th : Int) * t.state.m_nb_centroid + (i : Int))
  pure (take_channel t ks ch)

/-- The body of the loop over `th`: add the slice `th * m_nb_centroid + i` to the temporaries and
zero it. -/
def compute_thread (i : Nat) (t : Temp) (th : Nat) : Except Fault Temp := do
  let kc ← slot t.state.clst_count.length ((th : Int) * t.state.m_nb_centroid + (i : Int))
  (List.range t.state.nb_channels.toNat).foldlM (compute_channel i th) (take_count t kc)

/-- The byte stored by `new_centroids[i][ch] = (int)(temp_sum[ch] / temp_count)`. -/
def quotByte (div0 : Nat → Nat) (temp_sum temp_count : Nat) : Nat :=
  if temp_count = 0 then div0 temp_sum % 256 else (temp_sum / temp_count) % 256

/-- The thread numbers visited by the loop over `th`: the TBB mode leaves it after `th = 0`. -/
def thread_range (s : KMeanAlgo) : List Nat :=
  if s.mode = "tbb" then (List.range s.nb_threads.toNat).take 1
  else List.range s.nb_threads.toNat

/-- The second loop over `ch`: `new_centroids[i][ch] = (int)(temp_sum[ch] / temp_count)`. -/
def store_centroid (div0 : Nat → Nat) (i : Nat) (t : Temp) : KMeanAlgo :=
  { t.state with
    new_centroids := (List.range t.state.nb_channels.toNat).foldl
      (fun cs ch => setCell cs i ch (quotByte div0 (t.temp_sum.getD ch 0) t.temp_count))
      t.state.new_centroids }

/-- The body of the loop over `i` of `compute_centroids`.  The temporaries are zero when a round
starts: they are initialised before the loop and reset at the end of every round. -/
def compute_centroid (div0 : Nat → Nat) (s : KMeanAlgo) (i : Nat) : Except Fault KMeanAlgo := do
  let t ← (thread_range s).foldlM (compute_thread i)
    { state := s, temp_count := 0, temp_sum := List.replicate s.nb_channels.toNat 0 }
  pure (store_centroid div0 i t)

/-- The method `compute_centroids()`. -/
def compute_centroids (div0 : Nat → Nat) (s : KMeanAlgo) : Except Fault KMeanAlgo :=
  (List.range s.m_nb_centroid.toNat).foldlM (compute_centroid div0) s

/-! ## `map_segmentation` and `process` -/

/-- The position `clustered_img[p]` at which `map_segmentation` indexes the vector `centroids`:
the label of pixel `p` is read from the buffer and must be a position in the vector. -/
def label_slot (s : KMeanAlgo) (p : Nat) : Except Fault Nat :=
  let label := s.clustered_img.getD p unwritten
  if label = unwritten then .error Fault.uninitialised
  else slot s.centroids.length (label : Int)

/-- The body of the pixel loop of `map_segmentation` (the same in both branches): every channel
of the pixel becomes that of `centroids[clustered_img[i * image.cols + j]]`. -/
def map_pixel (s : KMeanAlgo) (image : Mat) (i j : Nat) : Except Fault Mat :=
  let p := i * image.cols + j
  if s.nb_channels = 1 then do
    let label ← label_slot s p
    pure { image with data := setCell image.data p 0 (cell s.centroids label 0) }
  else do
    let data ← (List.range s.nb_channels.toNat).foldlM
      (fun d k => do
        let label ← label_slot s p
        pure (setCell d p k (cell s.centroids label k)))
      image.data
    pure { image with data := data }

/-- The method `map_segmentation(image)`. -/
def map_segmentation (s : KMeanAlgo) (image : Mat) : Except Fault Mat :=
  (List.range image.rows).foldlM
    (fun im i => (List.range image.cols).foldlM (fun im2 j => map_pixel s im2 i j) im)
    image

/-- The convergence test of `process`: every channel of every centroid equals the recomputed
one (the two nested `while` loops stop at the first difference). -/
def centroids_equal (s : KMeanAlgo) : Bool :=
  (List.range s.m_nb_centroid.toNat).all (fun cent =>
    (List.range s.nb_channels.toNat).all (fun ch =>
      cell s.centroids cent ch == cell s.new_centroids cent ch))

/-- The locals `converged`, `iter` of `process` together with the object. -/
structure Loop where
  state : KMeanAlgo
  converged : Bool
  iter : Nat
deriving DecidableEq, Repr

/-- The loop `while (!converged && iter < m_maxiter)`; the first argument is the number of
rounds left before `iter` reaches `m_maxiter`. -/
def process_loop (image : Mat) (sched : Nat → Nat → Nat) (div0 : Nat → Nat) :
    Nat → Loop → Except Fault Loop
  | 0, l => .ok l
  | n + 1, l =>
    if l.converged then .ok l
    else do
      let s1 ← segment (sched l.iter) l.state image
      let s2 ← compute_centroids div0 s1
      let converged := centroids_equal s2
      let s3 := { s2 with centroids := s2.new_centroids, new_centroids := s2.centroids }
      process_loop image sched div0 n { state := s3, converged := converged, iter := l.iter + 1 }

/-- What `process` leaves behind: the image, the iteration count it prints, the flag and the
object. -/
structure Outcome where
  image : Mat
  iter : Nat
  converged : Bool
  state : KMeanAlgo
deriving DecidableEq, Repr

/-- The method `process(image)`. -/
def process (s : KMeanAlgo) (image : Mat) (rnd : Nat → Nat) (sched : Nat → Nat → Nat)
    (div0 : Nat → Nat) : Except Fault Outcome := do
  let l ← process_loop image sched div0 s.m_maxiter.toNat
    { state := init_centroids image rnd s, converged := false, iter := 0 }
  let mapped ← map_segmentation l.state image
  pure { image := mapped
         iter := l.iter
         converged := l.converged
         state := l.state }

/-- Construction followed by `process`. -/
def run (nb_channels nb_centroids max_iter : Int) (mode : String) (nb_threads : Int)
    (heap : Nat → Nat → Nat) (image : Mat) (rnd : Nat → Nat) (sched : Nat → Nat → Nat)
    (div0 : Nat → Nat) : Except Fault Outcome := do
  let s ← KMeanAlgo.create nb_channels nb_centroids max_iter mode nb_threads heap
  process s image rnd sched div0

/-! ## Definitions used by the statements -/

/-- The distance of a single-channel pixel to centroid `k`, as an integer. -/
def grayDist (s : KMeanAlgo) (px : List Nat) (k : Nat) : Nat :=
  absDiff (px.getD 0 0) (cell s.centroids k 0)

/-- What the single-channel scan has established after the centroids below `n`. -/
def GrayScan (s : KMeanAlgo) (px : List Nat) (n : Nat) (st : Nrst) : Prop :=
  st.nrst_indx < n ∧
  st.min_dst = dblOfNat (grayDist s px st.nrst_indx) ∧
  (∀ k, k < n → grayDist s px st.nrst_indx ≤ grayDist s px k) ∧
  (∀ k, k < n → grayDist s px k = grayDist s px st.nrst_indx → k ≤ st.nrst_indx)

/-- The square of the Euclidean distance of a pixel to centroid `k` over the three channels. -/
def euclidSq (s : KMeanAlgo) (px : List Nat) (k : Nat) : Nat :=
  absDiff (px.getD 0 0) (cell s.centroids k 0) ^ 2
    + absDiff (px.getD 1 0) (cell s.centroids k 1) ^ 2
    + absDiff (px.getD 2 0) (cell s.centroids k 2) ^ 2

/-- A single-channel engine with three centroids, two of them equal. -/
def grayEngine : KMeanAlgo :=
  { nb_channels := 1, mode := "serial", nb_threads := 1, m_nb_centroid := 3, m_maxiter := 10
    centroids := [[10], [200], [14]], new_centroids := [[0], [0], [0]]
    clst_colorsum := [[0], [0], [0]], clst_count := [0, 0, 0], clustered_img := [0] }

/-- A one-pixel single-channel image. -/
def grayImage : Mat := { rows := 1, cols := 1, data := [[12]] }

/-- A three-channel engine with two centroids, as `init_centroids` leaves it when it draws the
first two pixels of `rgbImage`. -/
def rgbEngine : KMeanAlgo :=
  { nb_channels := 3, mode := "serial", nb_threads := 1, m_nb_centroid := 2, m_maxiter := 10
    centroids := [[0, 0, 3], [2, 2, 0]], new_centroids := [[0, 0, 0], [0, 0, 0]]
    clst_colorsum := [[0, 0, 0], [0, 0, 0]], clst_count := [0, 0]
    clustered_img := List.replicate 3 unwritten }

/-- A three-pixel three-channel image. -/
def rgbImage : Mat := { rows := 1, cols := 3, data := [[0, 0, 3], [2, 2, 0], [0, 0, 0]] }

/-- The configuration of an engine and the sizes of its accumulator vectors: `slices` slices of
`K` slots each. -/
def Sized (C K T : Int) (mode : String) (slices : Nat) (s : KMeanAlgo) : Prop :=
  s.nb_channels = C ∧ s.mode = mode ∧ s.nb_threads = T ∧ s.m_nb_centroid = K ∧
  s.clst_count.length = slices * K.toNat ∧ s.clst_colorsum.length = slices * K.toNat

/-- The single-channel 2x2 image of the concrete scenario of the specification. -/
def image4 : Mat := { rows := 2, cols := 2, data := [[10], [12], [200], [210]] }

/-- A heap whose cells all read as zero. -/
def zeroHeap : Nat → Nat → Nat := fun _ _ => 0

/-- The schedule of a run without OpenMP threads. -/
def noSched : Nat → Nat → Nat := fun _ _ => 0

/-- The conversion of a quotient by zero as x86-64 and AArch64 perform it for `0.0 / 0.0`: the
low byte of the resulting integer is zero. -/
def div0Zero : Nat → Nat := fun _ => 0

/-- The values of `rand()` given by a list, zero afterwards. -/
def rndOf (l : List Nat) : Nat → Nat := fun k => l.getD k 0

/-- The loop over `th` of `compute_centroids` when every index is in range: the channels of slot
`th * m_nb_centroid + i` are taken after its count. -/
def take_thread (i : Nat) (t : Temp) (th : Nat) : Temp :=
  (List.range t.state.nb_channels.toNat).foldl
    (fun t1 ch => take_channel t1 (th * t.state.m_nb_centroid.toNat + i) ch)
    (take_count t (th * t.state.m_nb_centroid.toNat + i))

/-- The round `i` of `compute_centroids` when every index is in range. -/
def fold_centroid (div0 : Nat → Nat) (s : KMeanAlgo) (i : Nat) : KMeanAlgo :=
  store_centroid div0 i ((thread_range s).foldl (take_thread i)
    { state := s, temp_count := 0, temp_sum := List.replicate s.nb_channels.toNat 0 })

/-- The total pixel count of cluster `c`: the sum of its count slots over the slices that
`compute_centroids` folds. -/
def total_count (s : KMeanAlgo) (c : Nat) : Nat :=
  ((thread_range s).map (fun th => s.clst_count.getD (th * s.m_nb_centroid.toNat + c) 0)).sum

/-- The total of channel `ch` of cluster `c`: the sum of its colour-sum cells over the slices that
`compute_centroids` folds. -/
def total_sum (s : KMeanAlgo) (c ch : Nat) : Nat :=
  ((thread_range s).map
    (fun th => cell s.clst_colorsum (th * s.m_nb_centroid.toNat + c) ch)).sum

/-- A single-channel serial engine after one assignment pass over `image4` with the centroids
10 and 200: cluster 0 holds the pixels 10 and 12, cluster 1 the pixels 200 and 210. -/
def accEngine : KMeanAlgo :=
  { nb_channels := 1, mode := "serial", nb_threads := 1, m_nb_centroid := 2, m_maxiter := 10
    centroids := [[10], [200]], new_centroids := [[0], [0]]
    clst_colorsum := [[22], [410]], clst_count := [2, 2], clustered_img := [0, 0, 1, 1] }

/-- A one-pixel single-channel image. -/
def image1 : Mat := { rows := 1, cols := 1, data := [[5]] }

/-- A two-pixel single-channel image. -/
def image2 : Mat := { rows := 1, cols := 2, data := [[3], [5]] }

/-- The seeding that draws pixel `(0,0)` for centroid 0 and pixel `(0,1)` for every other
centroid. -/
def rndFirstThenSecond : Nat → Nat := fun k => if k = 1 then 0 else 1

/-- A heap whose cells all hold the value 7. -/
def sevenHeap : Nat → Nat → Nat := fun _ _ => 7

/-- A heap whose first `new double[nb_channels]` holds 378 in its first cell and whose other
cells are zero. -/
def staleHeap : Nat → Nat → Nat := fun k ch => if k = 0 ∧ ch = 0 then 378 else 0

/-- What a test reads off an outcome: the pixels, the iteration count and the flag. -/
def Outcome.summary (o : Outcome) : List (List Nat) × Nat × Bool :=
  (o.image.data, o.iter, o.converged)

/-- The engine with 257 single-channel centroids after `init_centroids` has drawn pixel `(0,0)`
of `image2` for centroid 0 and pixel `(0,1)` for the others. -/
def wideSeeded : KMeanAlgo :=
  { KMeanAlgo.alloc 1 257 1 "serial" 1 zeroHeap with
    centroids := [3] :: List.replicate 256 [5]
    clustered_img := List.replicate 2 unwritten }

/-- The engine `wideSeeded` after the assignment pass over `image2`: one pixel in cluster 0, one
in cluster 256, both labels 0. -/
def wideSegmented : KMeanAlgo :=
  { wideSeeded with
    clst_count := 1 :: (List.replicate 255 0 ++ [1])
    clst_colorsum := [3] :: (List.replicate 255 [0] ++ [[5]])
    clustered_img := [0, 0] }

/-! ## Definitions for the main loop -/

/-- The exchange `centroids.swap(new_centroids)` at the end of a round of the main loop. -/
def swap_centroids (s : KMeanAlgo) : KMeanAlgo :=
  { s with centroids := s.new_centroids, new_centroids := s.centroids }

/-- The two steps of round `it` of the main loop, `segment` then `compute_centroids`: the engine
as the convergence test sees it, with the centroids active during the round in `centroids` and the
recomputed ones in `new_centroids`. -/
def round (image : Mat) (sched : Nat → Nat → Nat) (div0 : Nat → Nat) (it : Nat)
    (s : KMeanAlgo) : Except Fault KMeanAlgo :=
  (segment (sched it) s image).bind (compute_centroids div0)

/-- The engine at the convergence test of iteration `n + 1` when the rounds are repeated from
`s0` without looking at the flag. -/
def iteration (image : Mat) (sched : Nat → Nat → Nat) (div0 : Nat → Nat) (s0 : KMeanAlgo) :
    Nat → Except Fault KMeanAlgo
  | 0 => round image sched div0 0 s0
  | n + 1 =>
    (iteration image sched div0 s0 n).bind
      (fun s => round image sched div0 (n + 1) (swap_centroids s))

/-- The index `nrst_centroid_index` returns for the pixel of linear index `p`. -/
def nrst_at (s : KMeanAlgo) (image : Mat) (p : Nat) : Nat :=
  nrst_centroid_index s image (p / image.cols) (p % image.cols)

/-- The thread that handles the pixel of linear index `p`: `sched p` in OpenMP mode, thread 0
otherwise. -/
def worker (mode : String) (sched : Nat → Nat) (p : Nat) : Nat :=
  if mode = "omp" then sched p else 0

/-- The accumulator slot a pixel is added to by the serial / OpenMP loop. -/
def slot_of (s : KMeanAlgo) (image : Mat) (sched : Nat → Nat) (p : Nat) : Nat :=
  worker s.mode sched p * s.m_nb_centroid.toNat + nrst_at s image p

/-- Every allocated row of a vector of channel arrays has `n` cells. -/
def RowsOf (n : Nat) (v : List (List Nat)) : Prop :=
  ∀ q, q < v.length → (v.getD q []).length = n

/-- What the pixel loop of the serial / OpenMP branch of `segment` has done to the engine `s`
once it has handled the pixels of the list `l`. -/
structure PassPost (image : Mat) (sched : Nat → Nat) (l : List Nat) (s s' : KMeanAlgo) :
    Prop where
  nb_channels : s'.nb_channels = s.nb_channels
  mode : s'.mode = s.mode
  nb_threads : s'.nb_threads = s.nb_threads
  m_nb_centroid : s'.m_nb_centroid = s.m_nb_centroid
  m_maxiter : s'.m_maxiter = s.m_maxiter
  centroids : s'.centroids = s.centroids
  new_centroids : s'.new_centroids = s.new_centroids
  count_length : s'.clst_count.length = s.clst_count.length
  sum_length : s'.clst_colorsum.length = s.clst_colorsum.length
  sum_rows : ∀ q, (s'.clst_colorsum.getD q []).length = (s.clst_colorsum.getD q []).length
  label_length : s'.clustered_img.length = s.clustered_img.length
  label_in : ∀ p, p ∈ l → p < s.clustered_img.length →
    s'.clustered_img.getD p 0 = nrst_at s image p % 256
  label_out : ∀ p, p ∉ l → s'.clustered_img.getD p 0 = s.clustered_img.getD p 0
  count : ∀ q, s'.clst_count.getD q 0 = s.clst_count.getD q 0 +
    (l.map (fun p => if slot_of s image sched p = q then 1 else 0)).sum
  sum : RowsOf s.nb_channels.toNat s.clst_colorsum → ∀ q ch, ch < s.nb_channels.toNat →
    cell s'.clst_colorsum q ch = cell s.clst_colorsum q ch +
      (l.map (fun p =>
        if slot_of s image sched p = q then (image.data.getD p []).getD ch 0 else 0)).sum

/-- What the reduction loops of the TBB branch of `segment` have done to the engine `s1` once
they have handled the centroids of the list `l`. -/
structure TbbPost (s : KMeanAlgo) (image : Mat) (labels : List Nat) (n : Nat) (l : List Nat)
    (s1 s' : KMeanAlgo) : Prop where
  nb_channels : s'.nb_channels = s1.nb_channels
  mode : s'.mode = s1.mode
  nb_threads : s'.nb_threads = s1.nb_threads
  m_nb_centroid : s'.m_nb_centroid = s1.m_nb_centroid
  m_maxiter : s'.m_maxiter = s1.m_maxiter
  centroids : s'.centroids = s1.centroids
  new_centroids : s'.new_centroids = s1.new_centroids
  clustered_img : s'.clustered_img = s1.clustered_img
  count_length : s'.clst_count.length = s1.clst_count.length
  sum_length : s'.clst_colorsum.length = s1.clst_colorsum.length
  sum_rows : ∀ q, (s'.clst_colorsum.getD q []).length = (s1.clst_colorsum.getD q []).length
  count_in : ∀ c, c ∈ l → s'.clst_count.getD c 0 = tbb_count labels n c
  count_out : ∀ c, c ∉ l → s'.clst_count.getD c 0 = s1.clst_count.getD c 0
  sum_in : RowsOf s1.nb_channels.toNat s1.clst_colorsum → ∀ c, c ∈ l →
    ∀ ch, ch < s1.nb_channels.toNat →
      cell s'.clst_colorsum c ch = tbb_colorsum s image labels n c ch
  sum_out : ∀ c, c ∉ l → ∀ ch, cell s'.clst_colorsum c ch = cell s1.clst_colorsum c ch

/-- The shape of the centroid vectors and the size of the label buffer of an engine with `K`
centroids of `C` channels working on an image of `n` pixels. -/
structure Shaped (C K : Int) (n : Nat) (s : KMeanAlgo) : Prop where
  centroids_length : s.centroids.length = K.toNat
  new_centroids_length : s.new_centroids.length = K.toNat
  centroids_rows : RowsOf C.toNat s.centroids
  new_centroids_rows : RowsOf C.toNat s.new_centroids
  label_length : s.clustered_img.length = n

/-- Every cell of the label buffer of an image of `n` pixels has been written and holds a
cluster index below `K`. -/
def Labelled (K : Int) (n : Nat) (s : KMeanAlgo) : Prop :=
  ∀ p, p < n → s.clustered_img.getD p 0 < K.toNat ∧ s.clustered_img.getD p 0 ≠ unwritten

/-- The image after the stores of `map_segmentation` for the pixel of linear index `p` when
its label names the centroid `label`: its channels are those of `centroids[label]`. -/
def map_store (s : KMeanAlgo) (image : Mat) (p label : Nat) : Mat :=
  if s.nb_channels = 1 then
    { image with data := setCell image.data p 0 (cell s.centroids label 0) }
  else
    let data := (List.range s.nb_channels.toNat).foldl
      (fun d k => setCell d p k (cell s.centroids label k)) image.data
    { image with data := data }

/-- What the pixel loop of `map_segmentation` has done to the image once it has handled the
pixels of the list `l`. -/
structure MapPost (s : KMeanAlgo) (l : List Nat) (image im : Mat) : Prop where
  rows : im.rows = image.rows
  cols : im.cols = image.cols
  length : im.data.length = image.data.length
  row_length : ∀ q, (im.data.getD q []).length = (image.data.getD q []).length
  pixel_in : ∀ p, p ∈ l → p < image.data.length →
    (image.data.getD p []).length = s.nb_channels.toNat →
    ∀ ch, ch < s.nb_channels.toNat →
      cell im.data p ch = cell s.centroids (s.clustered_img.getD p 0) ch
  pixel_out : ∀ p, p ∉ l → ∀ ch, cell im.data p ch = cell image.data p ch

/-- A three-pixel three-channel image with three different colours. -/
def rgbImage3 : Mat := { rows := 1, cols := 3, data := [[3, 0, 0], [0, 0, 0], [0, 0, 1]] }

/-- The number of pixels of the image whose nearest centroid is `c`. -/
def cluster_count (s : KMeanAlgo) (image : Mat) (c : Nat) : Nat :=
  ((List.range (image.rows * image.cols)).map
    (fun p => if nrst_at s image p = c then 1 else 0)).sum

/-- The sum of channel `ch` over the pixels of the image whose nearest centroid is `c`. -/
def cluster_sum (s : KMeanAlgo) (image : Mat) (c ch : Nat) : Nat :=
  ((List.range (image.rows * image.cols)).map
    (fun p => if nrst_at s image p = c then (image.data.getD p []).getD ch 0 else 0)).sum

/-- The accumulators hold nothing: every count slot and every colour-sum cell reads as zero. -/
def Cleared (s : KMeanAlgo) : Prop :=
  (∀ q, s.clst_count.getD q 0 = 0) ∧
  ∀ q ch, ch < s.nb_channels.toNat → cell s.clst_colorsum q ch = 0

/-- A worker-pool engine with two workers and the centroids 10 and 200, accumulators cleared. -/
def poolEngine : KMeanAlgo :=
  { nb_channels := 1, mode := "omp", nb_threads := 2, m_nb_centroid := 2, m_maxiter := 10
    centroids := [[10], [200]], new_centroids := [[0], [0]]
    clst_colorsum := List.replicate 4 (List.replicate 1 0), clst_count := List.replicate 4 0
    clustered_img := [0, 0, 0, 0] }

/-- A serial engine with the centroids 10 and 200, accumulators cleared. -/
def serialEngine : KMeanAlgo :=
  { nb_channels := 1, mode := "serial", nb_threads := 1, m_nb_centroid := 2, m_maxiter := 10
    centroids := [[10], [200]], new_centroids := [[0], [0]]
    clst_colorsum := List.replicate 2 (List.replicate 1 0), clst_count := List.replicate 2 0
    clustered_img := [0, 0, 0, 0] }

/-- The invariant of the main loop: the sizes of the accumulators, the shape of the centroid
vectors and of the label buffer, and the number of cells of every colour-sum row. -/
structure Ready (C K T : Int) (mode : String) (slices n : Nat) (s : KMeanAlgo) : Prop where
  sized : Sized C K T mode slices s
  shaped : Shaped C K n s
  sum_rows : RowsOf C.toNat s.clst_colorsum

/-- The configurations in which every accumulator index stays in range and every label names
its cluster: the TBB mode with at most 256 centroids, and the serial / OpenMP loop with as many
slices as workers and thread numbers below the worker count. -/
def InRange (K T : Int) (mode : String) (slices : Nat) (sched : Nat → Nat) : Prop :=
  (mode = "tbb" ∧ slices = 1 ∧ K ≤ 256) ∨
  (mode ≠ "tbb" ∧ slices = T.toNat ∧ ∀ p, worker mode sched p < T.toNat)

/-- The linear index of the pixel that `init_centroids` draws for centroid `i`. -/
def drawn (image : Mat) (rnd : Nat → Nat) (i : Nat) : Nat :=
  rnd (2 * i) % image.rows * image.cols + rnd (2 * i + 1) % image.cols

/-- A two-pixel single-channel image whose pixels are their own cluster means. -/
def image48 : Mat := { rows := 1, cols := 2, data := [[4], [8]] }

/-- A heap whose first `new double[nb_channels]` holds 1 in its first cell and whose other cells
are zero. -/
def oneHeap : Nat → Nat → Nat := fun k ch => if k = 0 ∧ ch = 0 then 1 else 0

/-- The number of pixels of an image of `n` pixels that carry the label `c`. -/
def label_size (s : KMeanAlgo) (n c : Nat) : Nat :=
  ((List.range n).map (fun q => if s.clustered_img.getD q 0 = c then 1 else 0)).sum

/-- The sum of channel `ch` of the input image over the pixels that carry the label `c`. -/
def label_total (s : KMeanAlgo) (image : Mat) (c ch : Nat) : Nat :=
  ((List.range (image.rows * image.cols)).map
    (fun q => if s.clustered_img.getD q 0 = c then (image.data.getD q []).getD ch 0 else 0)).sum

/-- Every centroid is the quotient of the totals of the pixels that carry its index as label. -/
def Settled (div0 : Nat → Nat) (image : Mat) (s : KMeanAlgo) : Prop :=
  ∀ c, c < s.m_nb_centroid.toNat → ∀ ch, ch < s.nb_channels.toNat →
    cell s.centroids c ch
      = quotByte div0 (label_total s image c ch) (label_size s (image.rows * image.cols) c)

/-- Two loop states of runs in two modes that have reached the same point: same counter and
flag, same centroids and labels, each engine satisfying the invariant of its own mode. -/
structure InStep (C K : Int) (n : Nat) (T1 : Int) (mode1 : String) (slices1 : Nat) (T2 : Int)
    (mode2 : String) (slices2 : Nat) (a b : Loop) : Prop where
  iter : a.iter = b.iter
  converged : a.converged = b.converged
  centroids : a.state.centroids = b.state.centroids
  labels : a.state.clustered_img = b.state.clustered_img
  ready1 : Ready C K T1 mode1 slices1 n a.state
  ready2 : Ready C K T2 mode2 slices2 n b.state
  cleared1 : mode1 ≠ "tbb" → Cleared a.state
  cleared2 : mode2 ≠ "tbb" → Cleared b.state

/-! # Theorems -/

/-! ## Sanity of the binary64 model -/

theorem isqrtAux_spec (n : Nat) (k r : Nat) (h1 : r * r ≤ n) (h2 : n < (r + 2 ^ k) * (r + 2 ^ k)) :
    isqrtAux k n r * isqrtAux k n r ≤ n ∧
      n < (isqrtAux k n r + 1) * (isqrtAux k n r + 1) := by
  induction k generalizing r with
  | zero =>
    simp only [isqrtAux]
    exact ⟨h1, by simpa using h2⟩
  | succ k ih =>
    simp only [isqrtAux]
    split
    · rename_i hle
      apply ih _ hle
      have : r + 2 ^ k + 2 ^ k = r + 2 ^ (k + 1) := by rw [pow_succ]; omega
      rw [this]
      exact h2
    · rename_i hlt
      exact ih _ h1 (by omega)

/-- The function `isqrt` is the floor of the square root below `2 ^ 128`. -/
theorem isqrt_spec (n : Nat) (h : n < 2 ^ 128) :
    isqrt n * isqrt n ≤ n ∧ n < (isqrt n + 1) * (isqrt n + 1) := by
  unfold isqrt
  apply isqrtAux_spec
  · exact Nat.zero_le _
  · have : (0 + 2 ^ 64) * (0 + 2 ^ 64) = 2 ^ 128 := by norm_num
    rw [this]
    exact h

/-- Values of the binary64 model: square roots of perfect squares are exact, `sqrt 2` and
`sqrt 11` are the doubles `0x3FF6A09E667F3BCD` and `0x400A887293FD6F34`, and a sum that needs 54
bits is rounded to even. -/
theorem dbl_examples :
    dblSqrt (dblOfNat 0) = 0 ∧ dblSqrt (dblOfNat 9) = dblOfNat 3 ∧
    dblSqrt (dblOfNat 195075) = 1989118159746260480 ∧
    dblSqrt (dblOfNat 2) = 0x16A09E667F3BCD ∧
    dblSqrt (dblOfNat 11) = 0x1A887293FD6F34 * 2 ∧
    dblAdd (dblOfNat 3) (dblOfNat 8) = dblOfNat 11 ∧
    dblAdd 0x16A09E667F3BCD (dblOfNat 1) = 0x26A09E667F3BCC ∧
    dblAdd (2 ^ 53 + 1) (2 ^ 53) = 2 ^ 54 ∧
    dblAdd (2 ^ 53 + 3) (2 ^ 53) = 2 ^ 54 + 4 := by
  decide

/-! ## Sanity of the label buffer -/

/-- With `max_iterations = 0` the main loop runs no round and `map_segmentation` reads labels
that were never written; and a label that is not a position in the centroid vector is a fault as
well. -/
theorem map_segmentation_faults :
    run 1 1 0 "serial" 1 zeroHeap image1 (rndOf []) noSched div0Zero
      = .error Fault.uninitialised ∧
    run 2 0 0 "serial" 1 zeroHeap image1 (rndOf []) noSched div0Zero
      = .error Fault.uninitialised ∧
    map_segmentation { accEngine with clustered_img := [0, 0, 1, 2] } image4
      = .error Fault.out_of_range ∧
    (map_segmentation accEngine image4).map (fun im => im.data)
      = .ok [[10], [10], [200], [200]] := by
  decide

/-! ## Lemmas: the scan of `nrst_centroid_index` -/

theorem dblOfNat_le (a b : Nat) : dblOfNat a ≤ dblOfNat b ↔ a ≤ b := by
  unfold dblOfNat
  constructor
  · intro h
    exact Nat.le_of_mul_le_mul_right h (by positivity)
  · intro h
    exact Nat.mul_le_mul_right _ h

theorem absDiff_le_of_byte (a b : Nat) (ha : a < 256) (hb : b < 256) : absDiff a b ≤ 255 := by
  unfold absDiff
  split <;> omega

/-- One round of the scan when there is a single channel. -/
theorem nrst_step_gray (s : KMeanAlgo) (px : List Nat) (st : Nrst) (ind : Nat)
    (hC : s.nb_channels = 1) :
    nrst_step s px st ind =
      if dblOfNat (grayDist s px ind) ≤ st.min_dst then
        { min_dst := dblOfNat (grayDist s px ind)
          dst := dblOfNat (grayDist s px ind)
          nrst_indx := ind }
      else { st with dst := dblOfNat (grayDist s px ind) } := by
  simp [nrst_step, hC, grayDist]

theorem grayScan_first (s : KMeanAlgo) (px : List Nat) (hC : s.nb_channels = 1)
    (hpx : px.getD 0 0 < 256) (hc : ∀ k, cell s.centroids k 0 < 256) :
    GrayScan s px 1
      (nrst_step s px { min_dst := dblOfNat 1000, dst := 0, nrst_indx := 0 } 0) := by
  have h0 : dblOfNat (grayDist s px 0) ≤ dblOfNat 1000 := by
    rw [dblOfNat_le]
    have := absDiff_le_of_byte _ _ hpx (hc 0)
    unfold grayDist
    omega
  rw [nrst_step_gray s px _ _ hC, if_pos h0]
  refine ⟨by simp, rfl, ?_, ?_⟩
  · intro k hk
    have : k = 0 := by omega
    subst this
    exact le_refl _
  · intro k hk _
    simp only
    omega

theorem grayScan_step (s : KMeanAlgo) (px : List Nat) (hC : s.nb_channels = 1) (n : Nat)
    (st : Nrst) (h : GrayScan s px n st) : GrayScan s px (n + 1) (nrst_step s px st n) := by
  obtain ⟨h1, h2, h3, h4⟩ := h
  rw [nrst_step_gray s px _ _ hC, h2]
  by_cases hle : grayDist s px n ≤ grayDist s px st.nrst_indx
  · rw [if_pos ((dblOfNat_le _ _).2 hle)]
    refine ⟨by simp, rfl, ?_, ?_⟩
    · intro k hk
      by_cases hkn : k = n
      · subst hkn
        exact le_refl _
      · exact le_trans hle (h3 k (by omega))
    · intro k hk _
      simp only
      omega
  · rw [if_neg (fun h => hle ((dblOfNat_le _ _).1 h))]
    refine ⟨by simp only; omega, rfl, ?_, ?_⟩
    · intro k hk
      by_cases hkn : k = n
      · subst hkn
        simp only
        omega
      · exact h3 k (by omega)
    · intro k hk hEq
      by_cases hkn : k = n
      · subst hkn
        simp only at hEq
        omega
      · exact h4 k (by omega) hEq

theorem grayScan_range (s : KMeanAlgo) (px : List Nat) (hC : s.nb_channels = 1)
    (hpx : px.getD 0 0 < 256) (hc : ∀ k, cell s.centroids k 0 < 256) (n : Nat) :
    GrayScan s px (n + 1)
      ((List.range (n + 1)).foldl (nrst_step s px)
        { min_dst := dblOfNat 1000, dst := 0, nrst_indx := 0 }) := by
  induction n with
  | zero =>
    simpa [List.range_succ] using grayScan_first s px hC hpx hc
  | succ n ih =>
    rw [List.range_succ, List.foldl_append]
    exact grayScan_step s px hC (n + 1) _ ih

/-! ## C3, C4: `nrst_centroid_index` -/

/-- C3. With one channel and `K ≥ 1` centroids, `nrst_centroid_index` returns an index below `K`
whose centroid is at minimal absolute difference from the pixel value, and every other index at
that minimal difference is smaller: the highest-indexed nearest centroid wins. -/
theorem nrst_centroid_index_single_channel (s : KMeanAlgo) (image : Mat) (i j : Nat)
    (hC : s.nb_channels = 1) (hK : 1 ≤ s.m_nb_centroid)
    (hpx : (image.pixel i j).getD 0 0 < 256)
    (hc : ∀ k, cell s.centroids k 0 < 256) :
    nrst_centroid_index s image i j < s.m_nb_centroid.toNat ∧
    (∀ k, k < s.m_nb_centroid.toNat →
      absDiff ((image.pixel i j).getD 0 0)
          (cell s.centroids (nrst_centroid_index s image i j) 0)
        ≤ absDiff ((image.pixel i j).getD 0 0) (cell s.centroids k 0)) ∧
    (∀ k, k < s.m_nb_centroid.toNat →
      absDiff ((image.pixel i j).getD 0 0) (cell s.centroids k 0)
        = absDiff ((image.pixel i j).getD 0 0)
            (cell s.centroids (nrst_centroid_index s image i j) 0) →
      k ≤ nrst_centroid_index s image i j) := by
  obtain ⟨n, hn⟩ : ∃ n, s.m_nb_centroid.toNat = n + 1 := ⟨s.m_nb_centroid.toNat - 1, by omega⟩
  have h := grayScan_range s (image.pixel i j) hC hpx hc n
  unfold nrst_centroid_index
  rw [hn]
  exact ⟨h.1, h.2.2.1, h.2.2.2⟩

/-- C3, instance: the pixel value 12 is at distance 2 from the centroids 10 and 14; the scan
returns the later one. -/
theorem nrst_centroid_index_single_channel_witness :
    nrst_centroid_index grayEngine grayImage 0 0 = 2 ∧
    nrst_centroid_index grayEngine grayImage 0 0 < grayEngine.m_nb_centroid.toNat := by
  refine ⟨by decide, ?_⟩
  exact (nrst_centroid_index_single_channel grayEngine grayImage 0 0 (by decide) (by decide)
    (by decide) (by
      intro k
      match k with
      | 0 => decide
      | 1 => decide
      | 2 => decide
      | k + 3 => simp [cell, grayEngine])).1

/-- C4 fails on the code. With three channels `dst` is not reset between centroids, so the
distance compared for centroid 1 is `sqrt(dst_0 + 8)` with `dst_0 = 3` left over from centroid 0.
For the pixel `(0,0,0)` and the centroids `(0,0,3)`, `(2,2,0)` the method returns 0, although
centroid 1 is strictly nearer (squared Euclidean distance 8 against 9). -/
theorem nrst_centroid_index_three_channels_keeps_dst :
    nrst_centroid_index rgbEngine rgbImage 0 2 = 0 ∧
    euclidSq rgbEngine (rgbImage.pixel 0 2) 1 < euclidSq rgbEngine (rgbImage.pixel 0 2) 0 ∧
    (init_centroids rgbImage (fun k => if k = 3 then 1 else 0)
      { rgbEngine with centroids := [[0, 0, 0], [0, 0, 0]] }) = rgbEngine := by
  decide

/-! ## Lemmas: accumulator sizes and absence of faults -/

theorem nrst_step_indx (s : KMeanAlgo) (px : List Nat) (st : Nrst) (ind : Nat) :
    (nrst_step s px st ind).nrst_indx = ind ∨
      (nrst_step s px st ind).nrst_indx = st.nrst_indx := by
  unfold nrst_step
  simp only
  generalize (if s.nb_channels = 1 then _ else _ : Nat) = d
  by_cases h : d ≤ st.min_dst
  · rw [if_pos h]
    exact Or.inl rfl
  · rw [if_neg h]
    exact Or.inr rfl

theorem nrst_fold_lt (s : KMeanAlgo) (px : List Nat) (N : Nat) (l : List Nat)
    (hl : ∀ a, a ∈ l → a < N) (st : Nrst) (hst : st.nrst_indx < N) :
    (l.foldl (nrst_step s px) st).nrst_indx < N := by
  induction l generalizing st with
  | nil => simpa using hst
  | cons a l ih =>
    rw [List.foldl_cons]
    apply ih (fun b hb => hl b (List.mem_cons_of_mem _ hb))
    rcases nrst_step_indx s px st a with h | h
    · rw [h]
      exact hl a (List.mem_cons_self _ _)
    · rw [h]
      exact hst

/-- The index returned by `nrst_centroid_index` is below `m_nb_centroid` whenever there is a
centroid at all. -/
theorem nrst_centroid_index_lt (s : KMeanAlgo) (image : Mat) (i j : Nat)
    (hK : 1 ≤ s.m_nb_centroid) : nrst_centroid_index s image i j < s.m_nb_centroid.toNat := by
  unfold nrst_centroid_index
  apply nrst_fold_lt
  · intro a ha
    exact List.mem_range.1 ha
  · show 0 < s.m_nb_centroid.toNat
    omega

/-- A monadic left fold whose rounds never fault and keep an invariant returns normally. -/
theorem foldlM_ok_of_inv {α β : Type} (f : β → α → Except Fault β) (P : β → Prop) (l : List α)
    (h : ∀ b a, a ∈ l → P b → ∃ b', f b a = .ok b' ∧ P b') (b : β) (hb : P b) :
    ∃ b', l.foldlM f b = .ok b' ∧ P b' := by
  induction l generalizing b with
  | nil => exact ⟨b, rfl, hb⟩
  | cons a l ih =>
    obtain ⟨b1, h1, hP1⟩ := h b a (List.mem_cons_self _ _) hb
    obtain ⟨b2, h2, hP2⟩ := ih (fun b a ha hP => h b a (List.mem_cons_of_mem _ ha) hP) b1 hP1
    refine ⟨b2, ?_, hP2⟩
    rw [List.foldlM_cons, h1]
    exact h2

theorem slot_ok (size : Nat) (K : Int) (hK : 0 ≤ K) (th c : Nat)
    (h : th * K.toNat + c < size) :
    slot size ((th : Int) * K + (c : Int)) = .ok (th * K.toNat + c) := by
  obtain ⟨k, rfl⟩ := Int.eq_ofNat_of_zero_le hK
  have e : (th : Int) * (k : Int) + (c : Int) = ((th * k + c : Nat) : Int) := by push_cast; ring
  simp only [Int.toNat_ofNat] at h ⊢
  have h0 : (0 : Int) ≤ (th : Int) * (k : Int) + (c : Int) := by positivity
  have h1 : ((th : Int) * (k : Int) + (c : Int)).toNat = th * k + c := by
    rw [e, Int.toNat_ofNat]
  unfold slot
  rw [h1, if_pos ⟨h0, h⟩]

theorem slot_ok_cast (size c : Nat) (h : c < size) : slot size (c : Int) = .ok c := by
  unfold slot
  simp [h]

theorem length_setCell (v : List (List Nat)) (k ch x : Nat) :
    (setCell v k ch x).length = v.length := by
  simp [setCell]

theorem length_foldl_setCell (k : Nat) (g : List (List Nat) → Nat → Nat) (l : List Nat)
    (v : List (List Nat)) :
    (l.foldl (fun cs ch => setCell cs k ch (g cs ch)) v).length = v.length := by
  induction l generalizing v with
  | nil => rfl
  | cons a l ih => rw [List.foldl_cons, ih, length_setCell]

theorem length_addAt (v : List Nat) (k x : Nat) : (addAt v k x).length = v.length := by
  simp [addAt]

/-- One pixel of the serial / OpenMP loop stays inside the accumulators when the thread number is
below the number of slices. -/
theorem segment_pixel_ok (C K T : Int) (mode : String) (slices : Nat) (image : Mat)
    (th i j : Nat) (s : KMeanAlgo) (hK : 1 ≤ K) (hs : Sized C K T mode slices s)
    (hth : th < slices) :
    ∃ s', segment_pixel image th s i j = .ok s' ∧ Sized C K T mode slices s' := by
  obtain ⟨hC, hm, hT, hk, hcnt, hsum⟩ := hs
  have hlt : nrst_centroid_index s image i j < K.toNat := by
    have := nrst_centroid_index_lt s image i j (by rw [hk]; exact hK)
    rwa [hk] at this
  have hidx : th * K.toNat + nrst_centroid_index s image i j < slices * K.toNat := by
    calc th * K.toNat + nrst_centroid_index s image i j
        < th * K.toNat + K.toNat := by omega
      _ = (th + 1) * K.toNat := by ring
      _ ≤ slices * K.toNat := Nat.mul_le_mul_right _ hth
  have e1 := slot_ok (slices * K.toNat) K (by omega) th (nrst_centroid_index s image i j) hidx
  have e : segment_pixel image th s i j = .ok (segment_store image s i j
      (nrst_centroid_index s image i j) (th * K.toNat + nrst_centroid_index s image i j)
      (th * K.toNat + nrst_centroid_index s image i j)) := by
    unfold segment_pixel
    simp only [hcnt, hsum, hk, e1]
    rfl
  refine ⟨_, e, hC, hm, hT, hk, ?_, ?_⟩
  · simp only [segment_store, length_addAt, hcnt]
  · simp only [segment_store]
    split
    · rw [length_setCell, hsum]
    · rw [length_foldl_setCell _ (fun cs ch => cell cs _ ch + (image.pixel i j).getD ch 0),
        hsum]

/-- The serial / OpenMP branch of `segment` returns normally when every thread number that the
schedule hands out in OpenMP mode is below the number of slices. -/
theorem segment_loops_ok (C K T : Int) (mode : String) (slices : Nat) (image : Mat)
    (sched : Nat → Nat) (s : KMeanAlgo) (hK : 1 ≤ K) (hs : Sized C K T mode slices s)
    (hsl : 0 < slices) (hsched : mode = "omp" → ∀ p, sched p < slices) :
    ∃ s', segment_loops sched s image = .ok s' ∧ Sized C K T mode slices s' := by
  unfold segment_loops
  apply foldlM_ok_of_inv _ (Sized C K T mode slices) _ _ s hs
  intro s1 i _ hs1
  apply foldlM_ok_of_inv _ (Sized C K T mode slices) _ _ s1 hs1
  intro s2 j _ hs2
  apply segment_pixel_ok C K T mode slices image _ i j s2 hK hs2
  rw [hs2.2.1]
  split
  · rename_i h
    exact hsched h _
  · exact hsl

theorem compute_channel_ok (C K T : Int) (mode : String) (slices : Nat) (i th ch : Nat)
    (t : Temp) (hK : 1 ≤ K) (hs : Sized C K T mode slices t.state) (hth : th < slices)
    (hi : i < K.toNat) :
    compute_channel i th t ch = .ok (take_channel t (th * K.toNat + i) ch) ∧
      Sized C K T mode slices (take_channel t (th * K.toNat + i) ch).state := by
  obtain ⟨hC, hm, hT, hk, hcnt, hsum⟩ := hs
  have hidx : th * K.toNat + i < slices * K.toNat := by
    calc th * K.toNat + i < th * K.toNat + K.toNat := by omega
      _ = (th + 1) * K.toNat := by ring
      _ ≤ slices * K.toNat := Nat.mul_le_mul_right _ hth
  have e1 := slot_ok (slices * K.toNat) K (by omega) th i hidx
  refine ⟨?_, hC, hm, hT, hk, hcnt, ?_⟩
  · unfold compute_channel
    simp only [hsum, hk, e1]
    rfl
  · simp only [take_channel, length_setCell, hsum]

theorem compute_thread_ok (C K T : Int) (mode : String) (slices : Nat) (i th : Nat)
    (t : Temp) (hK : 1 ≤ K) (hs : Sized C K T mode slices t.state) (hth : th < slices)
    (hi : i < K.toNat) :
    ∃ t', compute_thread i t th = .ok t' ∧ Sized C K T mode slices t'.state := by
  have hs' := hs
  obtain ⟨hC, hm, hT, hk, hcnt, hsum⟩ := hs
  have hidx : th * K.toNat + i < slices * K.toNat := by
    calc th * K.toNat + i < th * K.toNat + K.toNat := by omega
      _ = (th + 1) * K.toNat := by ring
      _ ≤ slices * K.toNat := Nat.mul_le_mul_right _ hth
  have e1 := slot_ok (slices * K.toNat) K (by omega) th i hidx
  have e : compute_thread i t th =
      (List.range C.toNat).foldlM (compute_channel i th)
        (take_count t (th * K.toNat + i)) := by
    unfold compute_thread
    simp only [hcnt, hk, hC, e1]
    rfl
  rw [e]
  refine foldlM_ok_of_inv (compute_channel i th) (fun t' => Sized C K T mode slices t'.state)
    (List.range C.toNat) ?_ (take_count t (th * K.toNat + i)) ?_
  · intro t1 ch _ h1
    exact ⟨_, (compute_channel_ok C K T mode slices i th ch t1 hK h1 hth hi).1,
      (compute_channel_ok C K T mode slices i th ch t1 hK h1 hth hi).2⟩
  · refine ⟨hC, hm, hT, hk, ?_, hsum⟩
    simp only [take_count, List.length_set, hcnt]

theorem mem_thread_range (s : KMeanAlgo) (th : Nat) (h : th ∈ thread_range s) :
    th < s.nb_threads.toNat ∧ (s.mode = "tbb" → th = 0) := by
  unfold thread_range at h
  split at h
  · rename_i hm
    have h1 := List.mem_of_mem_take h
    rw [List.take_range] at h
    have h2 := List.mem_range.1 h
    exact ⟨List.mem_range.1 h1, fun _ => by omega⟩
  · rename_i hm
    exact ⟨List.mem_range.1 h, fun h' => absurd h' hm⟩

theorem compute_centroid_ok (C K T : Int) (mode : String) (slices : Nat) (div0 : Nat → Nat)
    (i : Nat) (s : KMeanAlgo) (hK : 1 ≤ K) (hs : Sized C K T mode slices s)
    (hsl : 0 < slices) (hT : mode ≠ "tbb" → T.toNat ≤ slices) (hi : i < K.toNat) :
    ∃ s', compute_centroid div0 s i = .ok s' ∧ Sized C K T mode slices s' := by
  obtain ⟨t, ht, hst⟩ := foldlM_ok_of_inv (compute_thread i)
    (fun t' => Sized C K T mode slices t'.state) (thread_range s)
    (by
      intro t1 th hmem h1
      apply compute_thread_ok C K T mode slices i th t1 hK h1 _ hi
      have := mem_thread_range s th hmem
      by_cases hm : mode = "tbb"
      · rw [this.2 (by rw [hs.2.1]; exact hm)]
        exact hsl
      · have h2 := hT hm
        rw [hs.2.2.1] at this
        omega)
    { state := s, temp_count := 0, temp_sum := List.replicate s.nb_channels.toNat 0 } hs
  refine ⟨store_centroid div0 i t, ?_, ?_⟩
  · unfold compute_centroid
    rw [ht]
    rfl
  · exact hst

/-- `compute_centroids` returns normally when the accumulators hold `slices` slices and the loop
over `th` stays below `slices`. -/
theorem compute_centroids_ok (C K T : Int) (mode : String) (slices : Nat) (div0 : Nat → Nat)
    (s : KMeanAlgo) (hK : 1 ≤ K) (hs : Sized C K T mode slices s)
    (hsl : 0 < slices) (hT : mode ≠ "tbb" → T.toNat ≤ slices) :
    ∃ s', compute_centroids div0 s = .ok s' ∧ Sized C K T mode slices s' := by
  unfold compute_centroids
  apply foldlM_ok_of_inv _ (Sized C K T mode slices) _ _ s hs
  intro s1 i hi h1
  apply compute_centroid_ok C K T mode slices div0 i s1 hK h1 hsl hT
  have := List.mem_range.1 hi
  rwa [hs.2.2.2.1] at this

theorem tbb_channel_ok (s : KMeanAlgo) (image : Mat) (labels : List Nat) (n cent ch : Nat)
    (cs : List (List Nat)) (h : cent < cs.length) :
    tbb_channel s image labels n cent cs ch
      = .ok (setCell cs cent ch (tbb_colorsum s image labels n cent ch)) := by
  unfold tbb_channel
  rw [slot_ok_cast _ _ h]
  rfl

theorem tbb_centroid_ok (C K T : Int) (mode : String) (slices : Nat) (s : KMeanAlgo)
    (image : Mat) (labels : List Nat) (n cent : Nat) (s1 : KMeanAlgo)
    (hs : Sized C K T mode slices s1) (hsl : 0 < slices) (hc : cent < K.toNat) :
    ∃ s', tbb_centroid s image labels n s1 cent = .ok s' ∧ Sized C K T mode slices s' := by
  obtain ⟨hC, hm, hT, hk, hcnt, hsum⟩ := hs
  have hlt : cent < slices * K.toNat :=
    lt_of_lt_of_le hc (Nat.le_mul_of_pos_left _ hsl)
  obtain ⟨cs, hcs, hlen⟩ := foldlM_ok_of_inv (tbb_channel s image labels n cent)
    (fun cs => cs.length = slices * K.toNat) (List.range s1.nb_channels.toNat)
    (by
      intro cs ch _ h1
      refine ⟨_, tbb_channel_ok s image labels n cent ch cs (by rw [h1]; exact hlt), ?_⟩
      show (setCell cs cent ch _).length = slices * K.toNat
      rw [length_setCell, h1])
    s1.clst_colorsum hsum
  refine ⟨{ s1 with clst_count := s1.clst_count.set cent (tbb_count labels n cent)
                    clst_colorsum := cs }, ?_, hC, hm, hT, hk, ?_, hlen⟩
  · unfold tbb_centroid
    rw [slot_ok_cast _ _ (by rw [hcnt]; exact hlt), hcs]
    rfl
  · simp only [List.length_set, hcnt]

/-- The TBB branch of `segment` returns normally. -/
theorem segment_tbb_ok (C K T : Int) (mode : String) (slices : Nat) (s : KMeanAlgo)
    (image : Mat) (hs : Sized C K T mode slices s) (hsl : 0 < slices) :
    ∃ s', segment_tbb s image = .ok s' ∧ Sized C K T mode slices s' := by
  unfold segment_tbb
  refine foldlM_ok_of_inv _ (Sized C K T mode slices) _ ?_ _
    ⟨hs.1, hs.2.1, hs.2.2.1, hs.2.2.2.1, hs.2.2.2.2.1, hs.2.2.2.2.2⟩
  intro s1 cent hc h1
  apply tbb_centroid_ok C K T mode slices s image _ _ cent s1 h1 hsl
  have := List.mem_range.1 hc
  rwa [hs.2.2.2.1] at this

/-- `segment` returns normally. -/
theorem segment_ok (C K T : Int) (mode : String) (slices : Nat) (image : Mat)
    (sched : Nat → Nat) (s : KMeanAlgo) (hK : 1 ≤ K) (hs : Sized C K T mode slices s)
    (hsl : 0 < slices) (hsched : mode = "omp" → ∀ p, sched p < slices) :
    ∃ s', segment sched s image = .ok s' ∧ Sized C K T mode slices s' := by
  unfold segment
  split
  · exact segment_tbb_ok C K T mode slices s image hs hsl
  · exact segment_loops_ok C K T mode slices image sched s hK hs hsl hsched

/-! ## Lemmas: construction, seeding and the main loop -/

theorem toNat_mul_of_nonneg (a b : Int) (ha : 0 ≤ a) (hb : 0 ≤ b) :
    (a * b).toNat = a.toNat * b.toNat := by
  obtain ⟨m, rfl⟩ := Int.eq_ofNat_of_zero_le ha
  obtain ⟨n, rfl⟩ := Int.eq_ofNat_of_zero_le hb
  rw [← Int.ofNat_mul]
  simp only [Int.toNat_ofNat]

/-- The number of accumulator slices the constructor allocates. -/
theorem create_ok (C K M T : Int) (mode : String) (heap : Nat → Nat → Nat)
    (hC : 0 ≤ C) (hK : 1 ≤ K) (hT : 1 ≤ T) :
    ∃ s, KMeanAlgo.create C K M mode T heap = .ok s ∧ s.m_maxiter = M ∧
      Sized C K T mode (if mode = "omp" then T.toNat else 1) s := by
  have hn : ¬ (if mode = "omp" then K * T else K) < 0 := by
    split
    · have : 0 ≤ K * T := Int.mul_nonneg (by omega) (by omega)
      omega
    · omega
  have hc : ¬ (0 < K ∧ C < 0) := by omega
  refine ⟨KMeanAlgo.alloc C K M mode T heap, ?_, rfl, rfl, rfl, rfl, rfl, ?_, ?_⟩
  · unfold KMeanAlgo.create
    rw [if_neg hn, if_neg hc]
  · simp only [KMeanAlgo.alloc, List.length_replicate]
    split
    · rw [toNat_mul_of_nonneg K T (by omega) (by omega), Nat.mul_comm]
    · rw [Nat.one_mul]
  · simp only [KMeanAlgo.alloc, List.length_map, List.length_range]
    split
    · have : 1 + (T.toNat - 1) = T.toNat := by omega
      rw [this, Nat.mul_comm]
    · rw [Nat.one_mul, Nat.mul_one]

theorem init_centroid_step_sized (C K T : Int) (mode : String) (slices : Nat) (image : Mat)
    (rnd : Nat → Nat) (s : KMeanAlgo) (i : Nat) (M : Int)
    (h : Sized C K T mode slices s ∧ s.m_maxiter = M) :
    Sized C K T mode slices (init_centroid_step image rnd s i) ∧
      (init_centroid_step image rnd s i).m_maxiter = M := by
  unfold init_centroid_step
  simp only
  split
  · exact h
  · exact h

theorem init_centroids_sized (C K T : Int) (mode : String) (slices : Nat) (image : Mat)
    (rnd : Nat → Nat) (s : KMeanAlgo) (M : Int)
    (h : Sized C K T mode slices s ∧ s.m_maxiter = M) :
    Sized C K T mode slices (init_centroids image rnd s) ∧
      (init_centroids image rnd s).m_maxiter = M := by
  have key : ∀ (l : List Nat) (s : KMeanAlgo), (Sized C K T mode slices s ∧ s.m_maxiter = M) →
      (Sized C K T mode slices (l.foldl (init_centroid_step image rnd) s) ∧
        (l.foldl (init_centroid_step image rnd) s).m_maxiter = M) := by
    intro l
    induction l with
    | nil => intro s hs; exact hs
    | cons a l ih =>
      intro s hs
      rw [List.foldl_cons]
      exact ih _ (init_centroid_step_sized C K T mode slices image rnd s a M hs)
  unfold init_centroids
  exact key _ s h

/-- The counter of the main loop: it never decreases, it advances by at most the number of rounds
left, and it advances at least once when a round is due. -/
theorem process_loop_iter (image : Mat) (sched : Nat → Nat → Nat) (div0 : Nat → Nat) (n : Nat)
    (l l' : Loop) (h : process_loop image sched div0 n l = .ok l') :
    l.iter ≤ l'.iter ∧ l'.iter ≤ l.iter + n ∧
      (l.converged = false → 0 < n → l.iter < l'.iter) := by
  induction n generalizing l with
  | zero =>
    simp only [process_loop] at h
    cases h
    exact ⟨le_refl _, le_refl _, fun _ hn => absurd hn (lt_irrefl _)⟩
  | succ n ih =>
    rw [process_loop] at h
    by_cases hc : l.converged = true
    · rw [if_pos hc] at h
      cases h
      exact ⟨le_refl _, by omega, fun hf => by rw [hc] at hf; cases hf⟩
    · rw [if_neg hc] at h
      cases h1 : segment (sched l.iter) l.state image with
      | error e =>
        rw [h1] at h
        cases h
      | ok s1 =>
        rw [h1] at h
        cases h2 : compute_centroids div0 s1 with
        | error e =>
          simp only [bind, Except.bind, h2] at h
          cases h
        | ok s2 =>
          simp only [bind, Except.bind, h2] at h
          have := ih _ h
          simp only at this
          exact ⟨by omega, by omega, fun _ _ => by omega⟩

/-- The main loop returns normally when `segment` and `compute_centroids` stay inside the
accumulators. -/
theorem process_loop_ok (C K T : Int) (mode : String) (slices : Nat) (image : Mat)
    (sched : Nat → Nat → Nat) (div0 : Nat → Nat) (hK : 1 ≤ K) (hsl : 0 < slices)
    (hsched : mode = "omp" → ∀ it p, sched it p < slices)
    (hT : mode ≠ "tbb" → T.toNat ≤ slices) (n : Nat) (l : Loop)
    (hs : Sized C K T mode slices l.state) :
    ∃ l', process_loop image sched div0 n l = .ok l' := by
  induction n generalizing l with
  | zero => exact ⟨l, rfl⟩
  | succ n ih =>
    rw [process_loop]
    by_cases hc : l.converged = true
    · rw [if_pos hc]
      exact ⟨l, rfl⟩
    · rw [if_neg hc]
      obtain ⟨s1, h1, hs1⟩ := segment_ok C K T mode slices image (sched l.iter) l.state hK hs
        hsl (fun hm => hsched hm l.iter)
      obtain ⟨s2, h2, hs2⟩ := compute_centroids_ok C K T mode slices div0 s1 hK hs1 hsl hT
      rw [h1]
      simp only [bind, Except.bind, h2]
      exact ih _ ⟨hs2.1, hs2.2.1, hs2.2.2.1, hs2.2.2.2.1, hs2.2.2.2.2.1, hs2.2.2.2.2.2⟩

/-! ## Lemmas: reading vectors after a store -/

theorem getD_set (l : List Nat) (i j a : Nat) (hi : i < l.length) :
    (l.set i a).getD j 0 = if j = i then a else l.getD j 0 := by
  simp only [List.getD_eq_getElem?_getD, List.getElem?_set]
  by_cases h : i = j
  · subst h
    simp [hi]
  · have h' : ¬ j = i := fun e => h e.symm
    simp [h, h']

theorem getD_set_zero (l : List Nat) (i j : Nat) :
    (l.set i 0).getD j 0 = if j = i then 0 else l.getD j 0 := by
  by_cases hi : i < l.length
  · exact getD_set l i j 0 hi
  · rw [List.set_eq_of_length_le (by omega)]
    by_cases h : j = i
    · subst h
      rw [if_pos rfl, List.getD_eq_default _ _ (by omega)]
    · rw [if_neg h]

theorem getD_addAt (v : List Nat) (k x j : Nat) (hk : k < v.length) :
    (addAt v k x).getD j 0 = if j = k then v.getD k 0 + x else v.getD j 0 := by
  unfold addAt
  exact getD_set v k j _ hk

theorem getD_rows_set (v : List (List Nat)) (k q : Nat) (row : List Nat) (hk : k < v.length) :
    (v.set k row).getD q [] = if q = k then row else v.getD q [] := by
  simp only [List.getD_eq_getElem?_getD, List.getElem?_set]
  by_cases h : k = q
  · subst h
    simp [hk]
  · have h' : ¬ q = k := fun e => h e.symm
    simp [h, h']

theorem cell_setCell (v : List (List Nat)) (k ch x q c : Nat) (hk : k < v.length)
    (hch : ch < (v.getD k []).length) :
    cell (setCell v k ch x) q c = if q = k ∧ c = ch then x else cell v q c := by
  unfold cell setCell
  rw [getD_rows_set v k q _ hk]
  by_cases hq : q = k
  · subst hq
    rw [if_pos rfl, getD_set _ ch c x hch]
    by_cases hc : c = ch
    · simp [hc]
    · simp [hc]
  · simp [hq]

theorem cell_setCell_zero (v : List (List Nat)) (k ch q c : Nat) :
    cell (setCell v k ch 0) q c = if q = k ∧ c = ch then 0 else cell v q c := by
  by_cases hk : k < v.length
  · unfold cell setCell
    rw [getD_rows_set v k q _ hk]
    by_cases hq : q = k
    · subst hq
      rw [if_pos rfl, getD_set_zero]
      by_cases hc : c = ch
      · simp [hc]
      · simp [hc]
    · simp [hq]
  · have e : setCell v k ch 0 = v := by
      unfold setCell
      exact List.set_eq_of_length_le (by omega)
    rw [e]
    by_cases hq : q = k ∧ c = ch
    · rw [if_pos hq, hq.1]
      unfold cell
      rw [List.getD_eq_default v [] (by omega : v.length ≤ k)]
      rfl
    · rw [if_neg hq]

theorem rowLen_setCell (v : List (List Nat)) (k ch x q : Nat) :
    ((setCell v k ch x).getD q []).length = (v.getD q []).length := by
  by_cases hk : k < v.length
  · unfold setCell
    rw [getD_rows_set v k q _ hk]
    by_cases hq : q = k
    · subst hq
      simp
    · simp [hq]
  · have e : setCell v k ch x = v := by
      unfold setCell
      exact List.set_eq_of_length_le (by omega)
    rw [e]

/-! ## Lemmas: what `compute_centroids` computes -/

/-- A monadic left fold whose rounds never fault is the pure fold of their results. -/
theorem foldlM_eq_foldl {α β : Type} (f : β → α → Except Fault β) (g : β → α → β)
    (P : β → Prop) (l : List α)
    (h : ∀ b a, a ∈ l → P b → f b a = .ok (g b a) ∧ P (g b a)) (b : β) (hb : P b) :
    l.foldlM f b = .ok (l.foldl g b) ∧ P (l.foldl g b) := by
  induction l generalizing b with
  | nil => exact ⟨rfl, hb⟩
  | cons a l ih =>
    obtain ⟨h1, hP1⟩ := h b a (List.mem_cons_self _ _) hb
    rw [List.foldlM_cons, h1, List.foldl_cons]
    exact ih (fun b a ha hP => h b a (List.mem_cons_of_mem _ ha) hP) (g b a) hP1

theorem compute_thread_eq (C K T : Int) (mode : String) (slices : Nat) (i th : Nat)
    (t : Temp) (hK : 1 ≤ K) (hs : Sized C K T mode slices t.state) (hth : th < slices)
    (hi : i < K.toNat) :
    compute_thread i t th = .ok (take_thread i t th) ∧
      Sized C K T mode slices (take_thread i t th).state := by
  obtain ⟨hC, hm, hT, hk, hcnt, hsum⟩ := hs
  have hidx : th * K.toNat + i < slices * K.toNat := by
    calc th * K.toNat + i < th * K.toNat + K.toNat := by omega
      _ = (th + 1) * K.toNat := by ring
      _ ≤ slices * K.toNat := Nat.mul_le_mul_right _ hth
  have e1 := slot_ok (slices * K.toNat) K (by omega) th i hidx
  have e : compute_thread i t th =
      (List.range C.toNat).foldlM (compute_channel i th)
        (take_count t (th * K.toNat + i)) := by
    unfold compute_thread
    simp only [hcnt, hk, hC, e1]
    rfl
  have key := foldlM_eq_foldl (compute_channel i th)
    (fun t1 ch => take_channel t1 (th * K.toNat + i) ch)
    (fun t' => Sized C K T mode slices t'.state) (List.range C.toNat)
    (fun t1 ch _ h1 => compute_channel_ok C K T mode slices i th ch t1 hK h1 hth hi)
    (take_count t (th * K.toNat + i))
    ⟨hC, hm, hT, hk, by simp only [take_count, List.length_set, hcnt], hsum⟩
  unfold take_thread
  rw [e, hC, hk]
  exact key

theorem compute_centroid_eq (C K T : Int) (mode : String) (slices : Nat) (div0 : Nat → Nat)
    (i : Nat) (s : KMeanAlgo) (hK : 1 ≤ K) (hs : Sized C K T mode slices s)
    (hsl : 0 < slices) (hT : mode ≠ "tbb" → T.toNat ≤ slices) (hi : i < K.toNat) :
    compute_centroid div0 s i = .ok (fold_centroid div0 s i) ∧
      Sized C K T mode slices (fold_centroid div0 s i) := by
  have key := foldlM_eq_foldl (compute_thread i) (take_thread i)
    (fun t' => Sized C K T mode slices t'.state) (thread_range s)
    (by
      intro t1 th hmem h1
      apply compute_thread_eq C K T mode slices i th t1 hK h1 _ hi
      have := mem_thread_range s th hmem
      by_cases hm : mode = "tbb"
      · rw [this.2 (by rw [hs.2.1]; exact hm)]
        exact hsl
      · have h2 := hT hm
        rw [hs.2.2.1] at this
        omega)
    { state := s, temp_count := 0, temp_sum := List.replicate s.nb_channels.toNat 0 } hs
  constructor
  · unfold compute_centroid fold_centroid
    rw [key.1]
    rfl
  · exact key.2

/-- `compute_centroids` is the pure fold of its rounds when every index is in range. -/
theorem compute_centroids_eq (C K T : Int) (mode : String) (slices : Nat) (div0 : Nat → Nat)
    (s : KMeanAlgo) (hK : 1 ≤ K) (hs : Sized C K T mode slices s)
    (hsl : 0 < slices) (hT : mode ≠ "tbb" → T.toNat ≤ slices) :
    compute_centroids div0 s = .ok ((List.range K.toNat).foldl (fold_centroid div0) s) := by
  have key := foldlM_eq_foldl (compute_centroid div0) (fold_centroid div0)
    (Sized C K T mode slices) (List.range K.toNat)
    (fun s1 i hi h1 =>
      compute_centroid_eq C K T mode slices div0 i s1 hK h1 hsl hT (List.mem_range.1 hi))
    s hs
  unfold compute_centroids
  rw [hs.2.2.2.1]
  exact key.1

/-- The loop over the channels of one slot: every listed channel is added to `temp_sum` and
zeroed in the slot; nothing else changes. -/
theorem take_channels (idx : Nat) (l : List Nat) (hl : l.Nodup) (t : Temp)
    (hlen : ∀ c, c ∈ l → c < t.temp_sum.length) :
    ∃ cs ts, l.foldl (fun t1 ch => take_channel t1 idx ch) t =
        { state := { t.state with clst_colorsum := cs }
          temp_count := t.temp_count, temp_sum := ts } ∧
      ts.length = t.temp_sum.length ∧ cs.length = t.state.clst_colorsum.length ∧
      (∀ c, ts.getD c 0 =
        if c ∈ l then t.temp_sum.getD c 0 + cell t.state.clst_colorsum idx c
        else t.temp_sum.getD c 0) ∧
      (∀ q c, cell cs q c = if q = idx ∧ c ∈ l then 0 else cell t.state.clst_colorsum q c) := by
  induction l generalizing t with
  | nil =>
    refine ⟨t.state.clst_colorsum, t.temp_sum, rfl, rfl, rfl, ?_, ?_⟩
    · intro c
      simp
    · intro q c
      simp
  | cons a l ih =>
    have ha : a ∉ l := (List.nodup_cons.1 hl).1
    have halen : a < t.temp_sum.length := hlen a (List.mem_cons_self _ _)
    obtain ⟨cs, ts, e, h1, h2, h3, h4⟩ := ih (List.nodup_cons.1 hl).2 (take_channel t idx a)
      (by
        intro c hc
        simp only [take_channel, length_addAt]
        exact hlen c (List.mem_cons_of_mem _ hc))
    refine ⟨cs, ts, ?_, ?_, ?_, ?_, ?_⟩
    · rw [List.foldl_cons, e]
      rfl
    · rw [h1]
      simp only [take_channel, length_addAt]
    · rw [h2]
      simp only [take_channel, length_setCell]
    · intro c
      rw [h3 c]
      simp only [take_channel, getD_addAt _ _ _ _ halen, cell_setCell_zero, List.mem_cons]
      by_cases hca : c = a
      · subst hca
        simp [ha]
      · by_cases hcl : c ∈ l
        · simp [hca, hcl]
        · simp [hca, hcl]
    · intro q c
      rw [h4 q c]
      simp only [take_channel, cell_setCell_zero, List.mem_cons]
      by_cases hq : q = idx
      · by_cases hca : c = a
        · subst hca
          simp [hq, ha]
        · by_cases hcl : c ∈ l
          · simp [hq, hca, hcl]
          · simp [hq, hca, hcl]
      · simp [hq]

/-- One round of the loop over `th`: the count and the channels of one slot move into the
temporaries, the slot is zeroed, every other slot is left alone. -/
theorem take_thread_spec (i th : Nat) (t : Temp)
    (hts : t.temp_sum.length = t.state.nb_channels.toNat) :
    ∃ cs ts, take_thread i t th =
        { state := { t.state with
            clst_count := t.state.clst_count.set (th * t.state.m_nb_centroid.toNat + i) 0
            clst_colorsum := cs }
          temp_count := t.temp_count
            + t.state.clst_count.getD (th * t.state.m_nb_centroid.toNat + i) 0
          temp_sum := ts } ∧
      ts.length = t.temp_sum.length ∧ cs.length = t.state.clst_colorsum.length ∧
      (∀ c, c < t.state.nb_channels.toNat → ts.getD c 0 =
        t.temp_sum.getD c 0
          + cell t.state.clst_colorsum (th * t.state.m_nb_centroid.toNat + i) c) ∧
      (∀ q c, q ≠ th * t.state.m_nb_centroid.toNat + i →
        cell cs q c = cell t.state.clst_colorsum q c) ∧
      (∀ c, c < t.state.nb_channels.toNat →
        cell cs (th * t.state.m_nb_centroid.toNat + i) c = 0) := by
  obtain ⟨cs, ts, e, h1, h2, h3, h4⟩ := take_channels (th * t.state.m_nb_centroid.toNat + i)
    (List.range t.state.nb_channels.toNat) (List.nodup_range _)
    (take_count t (th * t.state.m_nb_centroid.toNat + i))
    (by
      intro c hc
      have := List.mem_range.1 hc
      simp only [take_count]
      omega)
  refine ⟨cs, ts, ?_, h1, h2, ?_, ?_, ?_⟩
  · unfold take_thread
    rw [e]
    rfl
  · intro c hc
    rw [h3 c, if_pos (List.mem_range.2 hc)]
    rfl
  · intro q c hq
    rw [h4 q c, if_neg (fun h => hq h.1)]
    rfl
  · intro c hc
    rw [h4 _ c, if_pos ⟨rfl, List.mem_range.2 hc⟩]

theorem slot_injective (k i a b : Nat) (hk : 0 < k) (h : a * k + i = b * k + i) : a = b := by
  have : a * k = b * k := by omega
  exact Nat.eq_of_mul_eq_mul_right hk this

/-- The loop over `th`: the temporaries receive the sums over the listed slices of cluster `i`;
slots of other clusters are left alone. -/
theorem take_threads (i : Nat) (ths : List Nat) (hnd : ths.Nodup) (t : Temp)
    (hts : t.temp_sum.length = t.state.nb_channels.toNat)
    (hk : 0 < t.state.m_nb_centroid.toNat) :
    ∃ cnt cs ts tc, ths.foldl (take_thread i) t =
        { state := { t.state with clst_count := cnt, clst_colorsum := cs }
          temp_count := tc, temp_sum := ts } ∧
      ts.length = t.temp_sum.length ∧
      cnt.length = t.state.clst_count.length ∧ cs.length = t.state.clst_colorsum.length ∧
      tc = t.temp_count + (ths.map (fun th =>
        t.state.clst_count.getD (th * t.state.m_nb_centroid.toNat + i) 0)).sum ∧
      (∀ c, c < t.state.nb_channels.toNat → ts.getD c 0 = t.temp_sum.getD c 0 +
        (ths.map (fun th =>
          cell t.state.clst_colorsum (th * t.state.m_nb_centroid.toNat + i) c)).sum) ∧
      (∀ q, (∀ th, th ∈ ths → q ≠ th * t.state.m_nb_centroid.toNat + i) →
        cnt.getD q 0 = t.state.clst_count.getD q 0 ∧
        ∀ c, cell cs q c = cell t.state.clst_colorsum q c) ∧
      (∀ th, th ∈ ths → cnt.getD (th * t.state.m_nb_centroid.toNat + i) 0 = 0 ∧
        ∀ c, c < t.state.nb_channels.toNat →
          cell cs (th * t.state.m_nb_centroid.toNat + i) c = 0) := by
  induction ths generalizing t with
  | nil =>
    refine ⟨t.state.clst_count, t.state.clst_colorsum, t.temp_sum, t.temp_count, rfl, rfl, rfl,
      rfl, by simp, ?_, ?_, ?_⟩
    · intro c _
      simp
    · intro q _
      exact ⟨rfl, fun _ => rfl⟩
    · intro th hth
      cases hth
  | cons a l ih =>
    have ha : a ∉ l := (List.nodup_cons.1 hnd).1
    obtain ⟨cs1, ts1, e1, a1, a2, a3, a4, a5⟩ := take_thread_spec i a t hts
    obtain ⟨cnt, cs, ts, tc, e, b1, b2, b3, b4, b5, b6, b7⟩ :=
      ih (List.nodup_cons.1 hnd).2
        { state := { t.state with
            clst_count := t.state.clst_count.set (a * t.state.m_nb_centroid.toNat + i) 0
            clst_colorsum := cs1 }
          temp_count := t.temp_count
            + t.state.clst_count.getD (a * t.state.m_nb_centroid.toNat + i) 0
          temp_sum := ts1 }
        (by simp only [a1, hts]) hk
    simp only at b1 b2 b3 b4 b5 b6 b7
    have hne : ∀ th, th ∈ l →
        th * t.state.m_nb_centroid.toNat + i ≠ a * t.state.m_nb_centroid.toNat + i := by
      intro th hth heq
      have := slot_injective _ _ _ _ hk heq
      rw [this] at hth
      exact ha hth
    refine ⟨cnt, cs, ts, tc, ?_, ?_, ?_, ?_, ?_, ?_, ?_, ?_⟩
    · rw [List.foldl_cons, e1, e]
    · rw [b1, a1]
    · rw [b2, List.length_set]
    · rw [b3, a2]
    · have hmap : l.map (fun th => (t.state.clst_count.set
            (a * t.state.m_nb_centroid.toNat + i) 0).getD
              (th * t.state.m_nb_centroid.toNat + i) 0)
          = l.map (fun th =>
              t.state.clst_count.getD (th * t.state.m_nb_centroid.toNat + i) 0) := by
        apply List.map_congr_left
        intro th hth
        rw [getD_set_zero, if_neg (hne th hth)]
      rw [b4, hmap, List.map_cons, List.sum_cons, Nat.add_assoc]
    · intro c hc
      have hmap : l.map (fun th => cell cs1 (th * t.state.m_nb_centroid.toNat + i) c)
          = l.map (fun th =>
              cell t.state.clst_colorsum (th * t.state.m_nb_centroid.toNat + i) c) := by
        apply List.map_congr_left
        intro th hth
        exact a4 _ c (hne th hth)
      rw [b5 c hc, hmap, a3 c hc, List.map_cons, List.sum_cons, Nat.add_assoc]
    · intro q hq
      have hqa : q ≠ a * t.state.m_nb_centroid.toNat + i := hq a (List.mem_cons_self _ _)
      obtain ⟨c1, c2⟩ := b6 q (fun th hth => hq th (List.mem_cons_of_mem _ hth))
      refine ⟨?_, ?_⟩
      · rw [c1, getD_set_zero, if_neg hqa]
      · intro c
        rw [c2 c, a4 q c hqa]
    · intro th hth
      rcases List.mem_cons.1 hth with h | h
      · subst h
        obtain ⟨c1, c2⟩ := b6 (th * t.state.m_nb_centroid.toNat + i)
          (fun th' hth' => (hne th' hth').symm)
        refine ⟨?_, ?_⟩
        · rw [c1, getD_set_zero, if_pos rfl]
        · intro c hc
          rw [c2 c, a5 c hc]
      · exact b7 th h

/-- The second loop over `ch`: the listed channels of row `i` are overwritten, nothing else. -/
theorem store_channels (i : Nat) (f : Nat → Nat) (l : List Nat) (v : List (List Nat))
    (hi : i < v.length) (hrow : ∀ ch, ch ∈ l → ch < (v.getD i []).length) :
    (l.foldl (fun cs ch => setCell cs i ch (f ch)) v).length = v.length ∧
    (∀ q, ((l.foldl (fun cs ch => setCell cs i ch (f ch)) v).getD q []).length
      = (v.getD q []).length) ∧
    (∀ q c, q ≠ i → cell (l.foldl (fun cs ch => setCell cs i ch (f ch)) v) q c = cell v q c) ∧
    (∀ c, c ∈ l → cell (l.foldl (fun cs ch => setCell cs i ch (f ch)) v) i c = f c) := by
  induction l generalizing v with
  | nil =>
    refine ⟨rfl, fun _ => rfl, fun _ _ _ => rfl, ?_⟩
    intro c hc
    cases hc
  | cons a l ih =>
    have hrow1 : ∀ ch, ch ∈ l → ch < ((setCell v i a (f a)).getD i []).length := by
      intro ch hch
      rw [rowLen_setCell]
      exact hrow ch (List.mem_cons_of_mem _ hch)
    obtain ⟨h1, h2, h3, h4⟩ := ih (setCell v i a (f a)) (by rw [length_setCell]; exact hi) hrow1
    rw [List.foldl_cons]
    refine ⟨by rw [h1, length_setCell], ?_, ?_, ?_⟩
    · intro q
      rw [h2 q, rowLen_setCell]
    · intro q c hq
      rw [h3 q c hq, cell_setCell v i a (f a) q c hi (hrow a (List.mem_cons_self _ _)),
        if_neg (fun h => hq h.1)]
    · intro c hc
      by_cases hcl : c ∈ l
      · exact h4 c hcl
      · have hca : c = a := by
          rcases List.mem_cons.1 hc with h | h
          · exact h
          · exact absurd h hcl
        subst hca
        -- the later stores leave channel `c` alone
        have key : ∀ (l' : List Nat) (w : List (List Nat)), c ∉ l' →
            cell (l'.foldl (fun cs ch => setCell cs i ch (f ch)) w) i c = cell w i c := by
          intro l'
          induction l' with
          | nil => intro w _; rfl
          | cons b l' ih' =>
            intro w hb
            rw [List.foldl_cons, ih' _ (fun h => hb (List.mem_cons_of_mem _ h))]
            by_cases hiw : i < w.length
            · by_cases hbw : b < (w.getD i []).length
              · rw [cell_setCell w i b (f b) i c hiw hbw,
                  if_neg (fun h => hb (by rw [h.2]; exact List.mem_cons_self _ _))]
              · have e : setCell w i b (f b) = w := by
                  unfold setCell
                  rw [List.set_eq_of_length_le (l := w.getD i []) (by omega)]
                  apply List.ext_getElem?
                  intro n
                  rw [List.getElem?_set]
                  by_cases hn : i = n
                  · subst hn
                    simp [hiw, List.getD_eq_getElem?_getD]
                  · simp [hn]
                rw [e]
            · have e : setCell w i b (f b) = w := by
                unfold setCell
                exact List.set_eq_of_length_le (by omega)
              rw [e]
        rw [key l _ hcl, cell_setCell v i c (f c) i c hi (hrow c (List.mem_cons_self _ _)),
          if_pos ⟨rfl, rfl⟩]

theorem getD_replicate_zero (n ch : Nat) : (List.replicate n 0).getD ch 0 = 0 := by
  induction n generalizing ch with
  | zero => rfl
  | succ n ih =>
    cases ch with
    | zero => rfl
    | succ ch => exact ih ch

theorem thread_range_nodup (s : KMeanAlgo) : (thread_range s).Nodup := by
  unfold thread_range
  split
  · exact List.Nodup.sublist (List.take_sublist _ _) (List.nodup_range _)
  · exact List.nodup_range _

/-- One round of `compute_centroids`: row `i` of `new_centroids` receives the quotients of the
totals of cluster `i`, the slots of cluster `i` are zeroed, everything else is left alone. -/
theorem fold_centroid_spec (div0 : Nat → Nat) (s : KMeanAlgo) (i : Nat)
    (hk : 0 < s.m_nb_centroid.toNat) (hi : i < s.new_centroids.length)
    (hrow : s.nb_channels.toNat ≤ (s.new_centroids.getD i []).length) :
    ∃ cnt cs nc, fold_centroid div0 s i =
        { s with clst_count := cnt, clst_colorsum := cs, new_centroids := nc } ∧
      cnt.length = s.clst_count.length ∧ cs.length = s.clst_colorsum.length ∧
      nc.length = s.new_centroids.length ∧
      (∀ q, (nc.getD q []).length = (s.new_centroids.getD q []).length) ∧
      (∀ ch, ch < s.nb_channels.toNat →
        cell nc i ch = quotByte div0 (total_sum s i ch) (total_count s i)) ∧
      (∀ c ch, c ≠ i → cell nc c ch = cell s.new_centroids c ch) ∧
      (∀ q, (∀ th, th ∈ thread_range s → q ≠ th * s.m_nb_centroid.toNat + i) →
        cnt.getD q 0 = s.clst_count.getD q 0 ∧ ∀ c, cell cs q c = cell s.clst_colorsum q c) ∧
      (∀ th, th ∈ thread_range s → cnt.getD (th * s.m_nb_centroid.toNat + i) 0 = 0 ∧
        ∀ c, c < s.nb_channels.toNat → cell cs (th * s.m_nb_centroid.toNat + i) c = 0) := by
  obtain ⟨cnt, cs, ts, tc, e, b1, b2, b3, b4, b5, b6, b7⟩ :=
    take_threads i (thread_range s) (thread_range_nodup s)
      { state := s, temp_count := 0, temp_sum := List.replicate s.nb_channels.toNat 0 }
      (by simp) hk
  simp only at b1 b2 b3 b4 b5 b6 b7
  obtain ⟨h1, h2, h3, h4⟩ := store_channels i
    (fun ch => quotByte div0 (ts.getD ch 0) tc) (List.range s.nb_channels.toNat)
    s.new_centroids hi (by
      intro ch hch
      have := List.mem_range.1 hch
      omega)
  refine ⟨cnt, cs, _, ?_, b2, b3, h1, h2, ?_, h3, b6, b7⟩
  · unfold fold_centroid store_centroid
    rw [e]
  · intro ch hch
    have hz : (List.replicate s.nb_channels.toNat 0).getD ch 0 = 0 :=
      getD_replicate_zero _ _
    rw [h4 ch (List.mem_range.2 hch), b5 ch hch, b4, hz, Nat.zero_add, Nat.zero_add]
    rfl

theorem slot_cluster (k a b c d : Nat) (hc : c < k) (hd : d < k)
    (h : a * k + c = b * k + d) : c = d := by
  have h1 : (a * k + c) % k = c := by
    rw [Nat.add_comm, Nat.add_mul_mod_self_right, Nat.mod_eq_of_lt hc]
  have h2 : (b * k + d) % k = d := by
    rw [Nat.add_comm, Nat.add_mul_mod_self_right, Nat.mod_eq_of_lt hd]
  rw [← h1, ← h2, h]

/-- The rounds of `compute_centroids` over a list of distinct clusters: each listed row of
`new_centroids` receives the quotients of the totals the cluster had at the start. -/
theorem fold_centroids_spec (div0 : Nat → Nat) (l : List Nat) (hnd : l.Nodup) (s : KMeanAlgo)
    (hl : ∀ c, c ∈ l → c < s.m_nb_centroid.toNat)
    (hlen : ∀ c, c ∈ l → c < s.new_centroids.length)
    (hrow : ∀ c, c ∈ l → s.nb_channels.toNat ≤ (s.new_centroids.getD c []).length) :
    ∃ cnt cs nc, l.foldl (fold_centroid div0) s =
        { s with clst_count := cnt, clst_colorsum := cs, new_centroids := nc } ∧
      nc.length = s.new_centroids.length ∧
      (∀ q, (nc.getD q []).length = (s.new_centroids.getD q []).length) ∧
      (∀ c, c ∈ l → ∀ ch, ch < s.nb_channels.toNat →
        cell nc c ch = quotByte div0 (total_sum s c ch) (total_count s c)) ∧
      (∀ c ch, c ∉ l → cell nc c ch = cell s.new_centroids c ch) ∧
      (∀ q, (∀ c, c ∈ l → ∀ th, th ∈ thread_range s → q ≠ th * s.m_nb_centroid.toNat + c) →
        cnt.getD q 0 = s.clst_count.getD q 0 ∧ ∀ ch, cell cs q ch = cell s.clst_colorsum q ch) ∧
      (∀ c, c ∈ l → ∀ th, th ∈ thread_range s →
        cnt.getD (th * s.m_nb_centroid.toNat + c) 0 = 0 ∧
        ∀ ch, ch < s.nb_channels.toNat → cell cs (th * s.m_nb_centroid.toNat + c) ch = 0) := by
  induction l generalizing s with
  | nil =>
    refine ⟨s.clst_count, s.clst_colorsum, s.new_centroids, rfl, rfl, fun _ => rfl, ?_,
      fun _ _ _ => rfl, fun _ _ => ⟨rfl, fun _ => rfl⟩, ?_⟩
    · intro c hc
      cases hc
    · intro c hc
      cases hc
  | cons a l ih =>
    have ha : a ∉ l := (List.nodup_cons.1 hnd).1
    have hak : a < s.m_nb_centroid.toNat := hl a (List.mem_cons_self _ _)
    obtain ⟨cnt1, cs1, nc1, e1, _, _, a3, a4, a5, a6, a7, a8⟩ :=
      fold_centroid_spec div0 s a (by omega) (hlen a (List.mem_cons_self _ _))
        (hrow a (List.mem_cons_self _ _))
    obtain ⟨cnt, cs, nc, e, b1, b2, b3, b4, b5, b6⟩ := ih (List.nodup_cons.1 hnd).2
      { s with clst_count := cnt1, clst_colorsum := cs1, new_centroids := nc1 }
      (fun c hc => hl c (List.mem_cons_of_mem _ hc))
      (fun c hc => by
        show c < nc1.length
        rw [a3]
        exact hlen c (List.mem_cons_of_mem _ hc))
      (fun c hc => by
        show s.nb_channels.toNat ≤ (nc1.getD c []).length
        rw [a4 c]
        exact hrow c (List.mem_cons_of_mem _ hc))
    have hthr : thread_range
        { s with clst_count := cnt1, clst_colorsum := cs1, new_centroids := nc1 }
          = thread_range s := rfl
    simp only [hthr] at b3 b5 b6
    -- the totals of the clusters other than `a` survive the round of `a`
    have hother : ∀ c, c ∈ l → ∀ th, th ∈ thread_range s →
        ∀ th', th' ∈ thread_range s →
          th * s.m_nb_centroid.toNat + c ≠ th' * s.m_nb_centroid.toNat + a := by
      intro c hc th _ th' _ heq
      have := slot_cluster _ _ _ _ _ (hl c (List.mem_cons_of_mem _ hc)) hak heq
      rw [this] at hc
      exact ha hc
    have htc : ∀ c, c ∈ l → total_count
        { s with clst_count := cnt1, clst_colorsum := cs1, new_centroids := nc1 } c
          = total_count s c := by
      intro c hc
      unfold total_count
      rw [hthr]
      apply congrArg
      apply List.map_congr_left
      intro th hth
      exact (a7 _ (fun th' hth' => hother c hc th hth th' hth')).1
    have hts : ∀ c, c ∈ l → ∀ ch, total_sum
        { s with clst_count := cnt1, clst_colorsum := cs1, new_centroids := nc1 } c ch
          = total_sum s c ch := by
      intro c hc ch
      unfold total_sum
      rw [hthr]
      apply congrArg
      apply List.map_congr_left
      intro th hth
      exact (a7 _ (fun th' hth' => hother c hc th hth th' hth')).2 ch
    refine ⟨cnt, cs, nc, ?_, ?_, ?_, ?_, ?_, ?_, ?_⟩
    · rw [List.foldl_cons, e1, e]
    · rw [b1]
      exact a3
    · intro q
      rw [b2 q]
      exact a4 q
    · intro c hc ch hch
      rcases List.mem_cons.1 hc with h | h
      · subst h
        rw [b4 c ch ha]
        exact a5 ch hch
      · rw [b3 c h ch hch, htc c h, hts c h ch]
    · intro c ch hc
      rw [b4 c ch (fun h => hc (List.mem_cons_of_mem _ h))]
      exact a6 c ch (fun h => hc (by rw [h]; exact List.mem_cons_self _ _))
    · intro q hq
      obtain ⟨c1, c2⟩ := b5 q (fun c hc th hth => hq c (List.mem_cons_of_mem _ hc) th hth)
      obtain ⟨d1, d2⟩ := a7 q (fun th hth => hq a (List.mem_cons_self _ _) th hth)
      exact ⟨by rw [c1]; exact d1, fun ch => by rw [c2 ch]; exact d2 ch⟩
    · intro c hc th hth
      rcases List.mem_cons.1 hc with h | h
      · subst h
        obtain ⟨c1, c2⟩ := b5 (th * s.m_nb_centroid.toNat + c)
          (fun c' hc' th' hth' => (hother c' hc' th' hth' th hth).symm)
        obtain ⟨d1, d2⟩ := a8 th hth
        exact ⟨by rw [c1]; exact d1, fun ch hch => by rw [c2 ch]; exact d2 ch hch⟩
      · exact b6 c h th hth

/-! ## C5: the quotient stored by `compute_centroids` -/

/-- C5. For an engine whose accumulators hold `slices` slices of `K` slots, `compute_centroids`
returns normally and, for every cluster `c` whose total count is positive and every channel `ch`,
stores `floor(total_sum / total_count) mod 256` in `new_centroids[c][ch]`; when the totals come
from 8-bit values (`total_sum ≤ 255 * total_count`) the quotient is at most 255 and is stored
unchanged. -/
theorem compute_centroids_quotient (C K T : Int) (mode : String) (slices : Nat)
    (div0 : Nat → Nat) (s : KMeanAlgo) (hK : 1 ≤ K) (hs : Sized C K T mode slices s)
    (hsl : 0 < slices) (hT : mode ≠ "tbb" → T.toNat ≤ slices)
    (hnew : s.new_centroids.length = K.toNat)
    (hrow : ∀ c, c < K.toNat → C.toNat ≤ (s.new_centroids.getD c []).length) :
    ∃ s', compute_centroids div0 s = .ok s' ∧
      ∀ c ch, c < K.toNat → ch < C.toNat → 0 < total_count s c →
        cell s'.new_centroids c ch = (total_sum s c ch / total_count s c) % 256 ∧
        (total_sum s c ch ≤ 255 * total_count s c →
          cell s'.new_centroids c ch = total_sum s c ch / total_count s c ∧
          total_sum s c ch / total_count s c ≤ 255) := by
  have hk : s.m_nb_centroid = K := hs.2.2.2.1
  have hC : s.nb_channels = C := hs.1
  obtain ⟨cnt, cs, nc, e, _, _, h3, _, _, _⟩ :=
    fold_centroids_spec div0 (List.range K.toNat) (List.nodup_range _) s
      (fun c hc => by rw [hk]; exact List.mem_range.1 hc)
      (fun c hc => by rw [hnew]; exact List.mem_range.1 hc)
      (fun c hc => by rw [hC]; exact hrow c (List.mem_range.1 hc))
  refine ⟨_, compute_centroids_eq C K T mode slices div0 s hK hs hsl hT, ?_⟩
  intro c ch hc hch hpos
  rw [e]
  show cell nc c ch = _ ∧ _
  rw [h3 c (List.mem_range.2 hc) ch (by rw [hC]; exact hch)]
  unfold quotByte
  rw [if_neg (by omega)]
  refine ⟨rfl, ?_⟩
  intro hle
  have hq : total_sum s c ch / total_count s c ≤ 255 := by
    apply Nat.div_le_of_le_mul
    rw [Nat.mul_comm]
    exact hle
  exact ⟨Nat.mod_eq_of_lt (by omega), hq⟩

/-- C5, instance: the sums 22 and 410 over two pixels each give the centroids 11 and 205. -/
theorem compute_centroids_quotient_witness :
    (compute_centroids div0Zero accEngine).toBool = true ∧
    (compute_centroids div0Zero accEngine).map (fun s => s.new_centroids)
      = .ok [[11], [205]] := by
  refine ⟨?_, by decide⟩
  obtain ⟨s', h, _⟩ := compute_centroids_quotient 1 2 1 "serial" 1 div0Zero accEngine
    (by decide) ⟨rfl, rfl, rfl, rfl, rfl, rfl⟩ (by decide) (by decide) rfl (by decide)
  rw [h]
  rfl

/-! ## C6: an empty cluster -/

/-- C6 fails on the code. With two centroids seeded from the only pixel, the pixel goes to
cluster 1 and cluster 0 reaches `compute_centroids` with total count 0; the quotient is taken all
the same and the centroid of cluster 0 becomes whatever the conversion of `0.0 / 0.0` yields
(77 and 0 for two choices of `div0`), not the previous centroid 5. -/
theorem compute_centroids_divides_by_zero_count :
    ((KMeanAlgo.create 1 2 1 "serial" 1 zeroHeap).bind (fun s =>
        segment (noSched 0) (init_centroids image1 (rndOf []) s) image1)).map
      (fun s => (s.centroids, total_count s 0, total_count s 1)) = .ok ([[5], [5]], 0, 1) ∧
    (run 1 2 1 "serial" 1 zeroHeap image1 (rndOf []) noSched (fun _ => 77)).map
      (fun o => o.state.centroids) = .ok [[77], [5]] ∧
    (run 1 2 1 "serial" 1 zeroHeap image1 (rndOf []) noSched div0Zero).map
      (fun o => o.state.centroids) = .ok [[0], [5]] := by
  decide

/-! ## C7: the constructor -/

/-- C7 fails on the code: the constructor succeeds and builds an engine state with
`channel_count = 2`, `centroid_count = 0` and `max_iterations = 0`, and with `channel_count = 2`,
`centroid_count = 3` and `max_iterations = 0`. -/
theorem create_accepts_invalid_configuration :
    (KMeanAlgo.create 2 0 0 "serial" 1 zeroHeap).toBool = true ∧
    (KMeanAlgo.create 2 3 0 "serial" 1 zeroHeap).toBool = true := by
  decide

/-- C7, amended. The constructor checks no configuration value.  When the product
`centroid_count * worker_count` that the OpenMP mode computes fits an `int` (and memory is not
exhausted), it fails exactly when an allocation is asked for a negative size, that is when the
size of `clst_count` is negative (`centroid_count < 0`, or `centroid_count * worker_count < 0`
in OpenMP mode) or when `centroid_count > 0` and `channel_count < 0`; for every other
configuration, whatever `channel_count` and `max_iterations` are, it builds the engine state. -/
theorem create_fails_iff (C K M T : Int) (mode : String) (heap : Nat → Nat → Nat)
    (_hfit : mode = "omp" → -(2 ^ 31) ≤ K * T ∧ K * T < 2 ^ 31) :
    (∃ e, KMeanAlgo.create C K M mode T heap = .error e) ↔
      ((if mode = "omp" then K * T else K) < 0 ∨ (0 < K ∧ C < 0)) := by
  unfold KMeanAlgo.create
  by_cases h1 : (if mode = "omp" then K * T else K) < 0
  · rw [if_pos h1]
    exact ⟨fun _ => Or.inl h1, fun _ => ⟨_, rfl⟩⟩
  · rw [if_neg h1]
    by_cases h2 : 0 < K ∧ C < 0
    · rw [if_pos h2]
      exact ⟨fun _ => Or.inr h2, fun _ => ⟨_, rfl⟩⟩
    · rw [if_neg h2]
      constructor
      · rintro ⟨e, he⟩
        cases he
      · rintro (h | h)
        · exact absurd h h1
        · exact absurd h h2

/-- C7, amended, instances: in OpenMP mode `centroid_count = 2` with `worker_count = -3` is
refused (the size `-6` of `clst_count` is negative), whereas `channel_count = 2`,
`centroid_count = 0`, `max_iterations = 0` is not. -/
theorem create_fails_iff_witness :
    (∃ e, KMeanAlgo.create 1 2 10 "omp" (-3) zeroHeap = .error e) ∧
    ¬ ∃ e, KMeanAlgo.create 2 0 0 "serial" 1 zeroHeap = .error e :=
  ⟨(create_fails_iff 1 2 10 (-3) "omp" zeroHeap (fun _ => by decide)).2 (Or.inl (by decide)),
    fun h => absurd ((create_fails_iff 2 0 0 1 "serial" zeroHeap
      (fun hm => absurd hm (by decide))).1 h) (by decide)⟩

/-! ## C8: the worker count outside OpenMP mode -/

/-- C8 fails on the code. In serial mode the accumulators hold one slice, but the loop over `th`
of `compute_centroids` runs to `nb_threads`: with `worker_count = 2` it indexes `clst_count[1]`
of a one-element vector, whereas with `worker_count = 1` the same run completes. -/
theorem serial_worker_count_out_of_range :
    run 1 1 1 "serial" 2 zeroHeap image1 (rndOf []) noSched div0Zero
      = .error Fault.out_of_range ∧
    (run 1 1 1 "serial" 1 zeroHeap image1 (rndOf []) noSched div0Zero).map Outcome.summary
      = .ok ([[5]], 1, true) ∧
    ((KMeanAlgo.create 1 1 1 "serial" 2 zeroHeap).bind (fun s =>
        segment (noSched 0) (init_centroids image1 (rndOf []) s) image1)).map
      (fun s => (s.clst_count.length, s.clst_colorsum.length)) = .ok (1, 1) := by
  decide

/-! ## C9, C10: the uninitialised colour sums -/

/-- C9 fails on the code. The cells of `clst_colorsum` are not initialised by the constructor
and `segment` adds to them: with one centroid, one iteration and a cell that holds 7, the pixel 5
is replaced by `(7 + 5) / 1 = 12` instead of the mean 5.  With zeroed cells the mean is
produced. -/
theorem single_centroid_reads_stale_colorsum :
    (run 1 1 1 "serial" 1 sevenHeap image1 (rndOf []) noSched div0Zero).map Outcome.summary
      = .ok ([[12]], 1, false) ∧
    (run 1 1 1 "serial" 1 zeroHeap image1 (rndOf []) noSched div0Zero).map Outcome.summary
      = .ok ([[5]], 1, true) := by
  decide

/-- C10 fails on the code. Seeded from the pixels 200 and 210 (different values), with the first
colour-sum cell holding 378 before the first pass, the first update gives
`(378 + 10 + 12 + 200) / 3 = 200` and `210 / 1 = 210`: the seeds again, so that `process` stops
after one iteration with the flag true and the image `[[200,200],[200,210]]`. -/
theorem scenario_reads_stale_colorsum :
    (run 1 2 10 "serial" 1 staleHeap image4 (rndOf [1, 0, 1, 1]) noSched div0Zero).map
      Outcome.summary = .ok ([[200], [200], [200], [210]], 1, true) ∧
    (init_centroids image4 (rndOf [1, 0, 1, 1])
      (KMeanAlgo.alloc 1 2 10 "serial" 1 staleHeap)).centroids = [[200], [210]] := by
  decide

/-- The scenario of C10 when the colour-sum cells read as zero: for each of the sixteen ways of
drawing two pixels of `image4` the run converges within three iterations to
`[[11,11],[205,205]]`. -/
theorem scenario_zero_heap :
    ∀ n, n < 16 →
      ((run 1 2 10 "serial" 1 zeroHeap image4
          (rndOf [n / 8 % 2, n / 4 % 2, n / 2 % 2, n % 2]) noSched div0Zero).map
        (fun o => (o.image.data, decide (o.iter ≤ 3), o.converged)))
        = .ok ([[11], [11], [205], [205]], true, true) := by
  decide

/-! ## C2: the label buffer -/

/-- One round of the main loop in terms of the results of its two steps. -/
theorem process_loop_round (image : Mat) (sched : Nat → Nat → Nat) (div0 : Nat → Nat) (n : Nat)
    (l : Loop) (s1 s2 : KMeanAlgo) (hc : l.converged = false)
    (h1 : segment (sched l.iter) l.state image = .ok s1)
    (h2 : compute_centroids div0 s1 = .ok s2) :
    process_loop image sched div0 (n + 1) l =
      process_loop image sched div0 n
        { state := { s2 with centroids := s2.new_centroids, new_centroids := s2.centroids }
          converged := centroids_equal s2
          iter := l.iter + 1 } := by
  rw [process_loop, hc]
  simp only [Bool.false_eq_true, if_false]
  rw [h1]
  simp only [bind, Except.bind, h2]

/-- A run in terms of the results of the constructor, of the main loop and of the remap. -/
theorem run_eq (C K M T : Int) (mode : String) (heap : Nat → Nat → Nat) (image : Mat)
    (rnd : Nat → Nat) (sched : Nat → Nat → Nat) (div0 : Nat → Nat) (s : KMeanAlgo) (l : Loop)
    (mapped : Mat)
    (hcreate : KMeanAlgo.create C K M mode T heap = .ok s)
    (hloop : process_loop image sched div0 s.m_maxiter.toNat
      { state := init_centroids image rnd s, converged := false, iter := 0 } = .ok l)
    (hmap : map_segmentation l.state image = .ok mapped) :
    run C K M mode T heap image rnd sched div0 =
      .ok { image := mapped, iter := l.iter
            converged := l.converged, state := l.state } := by
  unfold run
  rw [hcreate]
  simp only [bind, Except.bind]
  unfold process
  rw [hloop]
  simp only [bind, Except.bind, pure, Except.pure, hmap]

/-- The seeding of the 257 centroids on `image2`. -/
theorem wide_init :
    init_centroids image2 rndFirstThenSecond (KMeanAlgo.alloc 1 257 1 "serial" 1 zeroHeap)
      = wideSeeded := by
  decide!

/-- The assignment pass of the 257 centroids over `image2`. -/
theorem wide_segment : segment (noSched 0) wideSeeded image2 = .ok wideSegmented := by
  decide!

theorem wide_loop (s2 : KMeanAlgo)
    (h : compute_centroids div0Zero wideSegmented = .ok s2) :
    process_loop image2 noSched div0Zero 1
      { state := wideSeeded, converged := false, iter := 0 } =
      .ok { state := { s2 with centroids := s2.new_centroids, new_centroids := s2.centroids }
            converged := centroids_equal s2
            iter := 1 } :=
  process_loop_round image2 noSched div0Zero 0
    { state := wideSeeded, converged := false, iter := 0 } wideSegmented s2 rfl wide_segment h

theorem wide_run (s2 : KMeanAlgo) (mapped : Mat)
    (h : compute_centroids div0Zero wideSegmented = .ok s2)
    (hmap : map_segmentation
      { s2 with centroids := s2.new_centroids, new_centroids := s2.centroids } image2
        = .ok mapped) :
    run 1 257 1 "serial" 1 zeroHeap image2 rndFirstThenSecond noSched div0Zero =
      .ok { image := mapped
            iter := 1
            converged := centroids_equal s2
            state := { s2 with centroids := s2.new_centroids, new_centroids := s2.centroids } } := by
  have hl : process_loop image2 noSched div0Zero
      (KMeanAlgo.alloc 1 257 1 "serial" 1 zeroHeap).m_maxiter.toNat
      { state := init_centroids image2 rndFirstThenSecond
          (KMeanAlgo.alloc 1 257 1 "serial" 1 zeroHeap)
        converged := false, iter := 0 } =
      .ok { state := { s2 with centroids := s2.new_centroids, new_centroids := s2.centroids }
            converged := centroids_equal s2
            iter := 1 } := by
    rw [wide_init]
    exact wide_loop s2 h
  exact run_eq 1 257 1 1 "serial" zeroHeap image2 rndFirstThenSecond noSched div0Zero
    (KMeanAlgo.alloc 1 257 1 "serial" 1 zeroHeap) _ mapped rfl hl hmap

theorem wide_sized : Sized 1 257 1 "serial" 1 wideSegmented :=
  ⟨rfl, rfl, rfl, rfl, by decide!, by decide!⟩

/-- The remap of `image2` by an engine with one channel and at least one centroid whose two
labels are both 0. -/
theorem map_segmentation_image2 (s : KMeanAlgo) (hC : s.nb_channels = 1)
    (hl : s.clustered_img = [0, 0]) (hlen : 0 < s.centroids.length) :
    ∃ mapped, map_segmentation s image2 = .ok mapped ∧
      mapped.data = [[cell s.centroids 0 0], [cell s.centroids 0 0]] := by
  have hs : slot s.centroids.length ((0 : Nat) : Int) = .ok 0 := by
    unfold slot
    rw [if_pos ⟨le_refl _, hlen⟩]
    rfl
  have hk0 : label_slot s 0 = .ok 0 := by
    unfold label_slot
    simp only [hl]
    rw [if_neg (by decide)]
    exact hs
  have hk1 : label_slot s 1 = .ok 0 := by
    unfold label_slot
    simp only [hl]
    rw [if_neg (by decide)]
    exact hs
  have h0 : map_pixel s image2 0 0 = .ok (map_store s image2 0 0) := by
    unfold map_pixel map_store
    simp only [image2, Nat.zero_mul, Nat.zero_add]
    rw [if_pos hC, if_pos hC, hk0]
    rfl
  have h1 : map_pixel s (map_store s image2 0 0) 0 1
      = .ok (map_store s (map_store s image2 0 0) 1 0) := by
    have hc : (map_store s image2 0 0).cols = 2 := by
      unfold map_store
      split <;> rfl
    unfold map_pixel
    rw [hc, if_pos hC, hk1]
    unfold map_store
    rw [if_pos hC, if_pos hC]
    rfl
  refine ⟨map_store s (map_store s image2 0 0) 1 0, ?_, ?_⟩
  · unfold map_segmentation
    have hr : image2.rows = 1 := rfl
    have hcols : image2.cols = 2 := rfl
    rw [hr, hcols]
    simp only [List.range_succ, List.range_zero, List.nil_append, List.cons_append,
      List.foldlM_cons, List.foldlM_nil, bind, Except.bind, pure, Except.pure, h0, h1]
  · simp [map_store, image2, hC, setCell]

/-- The update of `wideSegmented`: `compute_centroids` returns an engine with the same channel
count and labels whose new centroids 0 and 256 are the pixel values 3 and 5. -/
theorem wide_compute :
    ∃ s2, compute_centroids div0Zero wideSegmented = .ok s2 ∧ s2.nb_channels = 1 ∧
      s2.clustered_img = [0, 0] ∧ cell s2.new_centroids 0 0 = 3 ∧
      cell s2.new_centroids 256 0 = 5 ∧ 0 < s2.new_centroids.length := by
  have hnc : wideSegmented.new_centroids = List.replicate 257 [0] := by decide!
  have hch : wideSegmented.nb_channels.toNat = 1 := by decide
  have hk : wideSegmented.m_nb_centroid.toNat = 257 := by decide
  obtain ⟨cnt, cs, nc, e, hlen, _, h3, _, _, _⟩ :=
    fold_centroids_spec div0Zero (List.range (257 : Int).toNat) (List.nodup_range _)
      wideSegmented
      (fun c hc => by rw [hk]; exact List.mem_range.1 hc)
      (fun c hc => by
        rw [hnc, List.length_replicate]
        exact List.mem_range.1 hc)
      (fun c hc => by
        have hc' : c < 257 := List.mem_range.1 hc
        rw [hnc, hch, List.getD_eq_getElem _ _ (by rw [List.length_replicate]; exact hc'),
          List.getElem_replicate]
        decide)
  have h0 : cell nc 0 0 = 3 := by
    rw [h3 0 (List.mem_range.2 (by decide)) 0 (by decide)]
    decide!
  have h256 : cell nc 256 0 = 5 := by
    rw [h3 256 (List.mem_range.2 (by decide)) 0 (by decide)]
    decide!
  have hcomp := compute_centroids_eq 1 257 1 "serial" 1 div0Zero wideSegmented (by decide)
    wide_sized (by decide) (by decide)
  rw [e] at hcomp
  refine ⟨_, hcomp, rfl, rfl, h0, h256, ?_⟩
  show 0 < nc.length
  rw [hlen, hnc, List.length_replicate]
  decide

/-- C2 fails on the code for `centroid_count > 256`. With 257 centroids, centroid 0 drawn from
the pixel 3 and the others from the pixel 5, `nrst_centroid_index` chooses index 256 for the
pixel 5, the `uchar` label buffer keeps `256 mod 256 = 0`, and on return the pixel holds
centroid 0 (colour 3) although the final centroid 256 has colour 5. -/
theorem process_label_wraps_at_256 :
    nrst_centroid_index
      (init_centroids image2 rndFirstThenSecond (KMeanAlgo.alloc 1 257 1 "serial" 1 zeroHeap))
      image2 0 1 = 256 ∧
    (run 1 257 1 "serial" 1 zeroHeap image2 rndFirstThenSecond noSched div0Zero).map
      (fun o => (o.image.data, o.state.clustered_img, cell o.state.centroids 0 0,
        cell o.state.centroids 256 0, o.iter))
      = .ok ([[3], [3]], [0, 0], 3, 5, 1) := by
  constructor
  · rw [wide_init]
    decide!
  · obtain ⟨s2, hcomp, hC, hl, h0, h256, hlen⟩ := wide_compute
    obtain ⟨mapped, hmap, hdata⟩ := map_segmentation_image2
      { s2 with centroids := s2.new_centroids, new_centroids := s2.centroids } hC hl hlen
    rw [wide_run s2 mapped hcomp hmap]
    simp only [Except.map]
    rw [hdata]
    simp only [hl, h0, h256]

/-! ## Lemmas: the trace of the main loop -/

theorem centroids_equal_iff (s : KMeanAlgo) :
    centroids_equal s = true ↔
      ∀ cent, cent < s.m_nb_centroid.toNat → ∀ ch, ch < s.nb_channels.toNat →
        cell s.centroids cent ch = cell s.new_centroids cent ch := by
  unfold centroids_equal
  simp only [List.all_eq_true, List.mem_range, beq_iff_eq]

theorem foldlM_congr_mem {α β : Type} (f g : β → α → Except Fault β) (l : List α)
    (h : ∀ a, a ∈ l → ∀ b, f b a = g b a) (b : β) : l.foldlM f b = l.foldlM g b := by
  induction l generalizing b with
  | nil => rfl
  | cons a l ih =>
    rw [List.foldlM_cons, List.foldlM_cons, h a (List.mem_cons_self _ _) b]
    cases g b a with
    | error e => rfl
    | ok b1 => exact ih (fun a ha => h a (List.mem_cons_of_mem _ ha)) b1

/-- A loop nest over rows and columns is one loop over the linear pixel index. -/
theorem foldlM_grid {β : Type} (f : β → Nat → Nat → Except Fault β) (rows cols : Nat) (b : β) :
    (List.range rows).foldlM (fun b1 i => (List.range cols).foldlM (fun b2 j => f b2 i j) b1) b
      = (List.range (rows * cols)).foldlM (fun b2 p => f b2 (p / cols) (p % cols)) b := by
  induction rows generalizing b with
  | zero => simp
  | succ r ih =>
    have e : (r + 1) * cols = r * cols + cols := by ring
    rw [List.range_succ, List.foldlM_append, e, List.range_add, List.foldlM_append, ih]
    cases (List.range (r * cols)).foldlM (fun b2 p => f b2 (p / cols) (p % cols)) b with
    | error e => rfl
    | ok b1 =>
      simp only [bind, Except.bind, List.foldlM_cons, List.foldlM_nil, pure, Except.pure]
      rw [List.foldlM_map]
      have hcongr := foldlM_congr_mem
        (fun b2 j => f b2 r j)
        (fun b2 j => f b2 ((r * cols + j) / cols) ((r * cols + j) % cols)) (List.range cols)
        (by
          intro j hj b2
          have hj' : j < cols := List.mem_range.1 hj
          have h1 : (r * cols + j) / cols = r := by
            rw [Nat.mul_comm, Nat.mul_add_div (by omega), Nat.div_eq_of_lt hj', Nat.add_zero]
          have h2 : (r * cols + j) % cols = j := by
            rw [Nat.mul_comm, Nat.mul_add_mod, Nat.mod_eq_of_lt hj']
          show f b2 r j = f b2 ((r * cols + j) / cols) ((r * cols + j) % cols)
          rw [h1, h2]) b1
      cases hl : (List.range cols).foldlM (fun b2 j => f b2 r j) b1 with
      | error e =>
        rw [hl] at hcongr
        rw [← hcongr]
      | ok b3 =>
        rw [hl] at hcongr
        rw [← hcongr]

theorem nrst_step_congr (s1 s2 : KMeanAlgo) (hC : s1.nb_channels = s2.nb_channels)
    (hc : s1.centroids = s2.centroids) : nrst_step s1 = nrst_step s2 := by
  funext px st ind
  simp only [nrst_step, hC, hc]

/-- `nrst_centroid_index` only looks at the configuration and at the active centroids. -/
theorem nrst_centroid_index_congr (s1 s2 : KMeanAlgo) (image : Mat) (i j : Nat)
    (hC : s1.nb_channels = s2.nb_channels) (hK : s1.m_nb_centroid = s2.m_nb_centroid)
    (hc : s1.centroids = s2.centroids) :
    nrst_centroid_index s1 image i j = nrst_centroid_index s2 image i j := by
  unfold nrst_centroid_index
  rw [nrst_step_congr s1 s2 hC hc, hK]

theorem slot_of_congr (s1 s2 : KMeanAlgo) (image : Mat) (sched : Nat → Nat) (p : Nat)
    (hC : s1.nb_channels = s2.nb_channels) (hK : s1.m_nb_centroid = s2.m_nb_centroid)
    (hm : s1.mode = s2.mode) (hc : s1.centroids = s2.centroids) :
    slot_of s1 image sched p = slot_of s2 image sched p := by
  unfold slot_of nrst_at
  rw [nrst_centroid_index_congr s1 s2 image _ _ hC hK hc, hK, hm]

theorem pixel_linear (image : Mat) (p : Nat) :
    image.pixel (p / image.cols) (p % image.cols) = image.data.getD p [] := by
  unfold Mat.pixel
  rw [Nat.div_add_mod']

/-- The loop over the channels of `segment`: every listed channel of row `ks` receives the
channel of the pixel; nothing else changes. -/
theorem add_channels (ks : Nat) (px : List Nat) (l : List Nat) (hnd : l.Nodup)
    (cs : List (List Nat)) (hks : ks < cs.length)
    (hrow : ∀ ch, ch ∈ l → ch < (cs.getD ks []).length) :
    (l.foldl (fun cs ch => setCell cs ks ch (cell cs ks ch + px.getD ch 0)) cs).length
      = cs.length ∧
    (∀ q, ((l.foldl (fun cs ch => setCell cs ks ch (cell cs ks ch + px.getD ch 0)) cs).getD
      q []).length = (cs.getD q []).length) ∧
    (∀ q ch, cell (l.foldl (fun cs ch => setCell cs ks ch (cell cs ks ch + px.getD ch 0)) cs)
      q ch = if q = ks ∧ ch ∈ l then cell cs q ch + px.getD ch 0 else cell cs q ch) := by
  induction l generalizing cs with
  | nil =>
    refine ⟨rfl, fun _ => rfl, ?_⟩
    intro q ch
    simp
  | cons a l ih =>
    have ha : a ∉ l := (List.nodup_cons.1 hnd).1
    have harow : a < (cs.getD ks []).length := hrow a (List.mem_cons_self _ _)
    obtain ⟨h1, h2, h3⟩ := ih (List.nodup_cons.1 hnd).2
      (setCell cs ks a (cell cs ks a + px.getD a 0))
      (by rw [length_setCell]; exact hks)
      (by
        intro ch hch
        rw [rowLen_setCell]
        exact hrow ch (List.mem_cons_of_mem _ hch))
    rw [List.foldl_cons]
    refine ⟨by rw [h1, length_setCell], ?_, ?_⟩
    · intro q
      rw [h2 q, rowLen_setCell]
    · intro q ch
      rw [h3 q ch, cell_setCell cs ks a _ q ch hks harow]
      by_cases hq : q = ks
      · by_cases hca : ch = a
        · subst hca
          subst hq
          simp [ha]
        · by_cases hcl : ch ∈ l
          · simp [hq, hca, hcl]
          · simp [hq, hca, hcl]
      · simp [hq]

theorem rowLen_foldl_setCell (k : Nat) (g : List (List Nat) → Nat → Nat) (l : List Nat)
    (v : List (List Nat)) (q : Nat) :
    ((l.foldl (fun cs ch => setCell cs k ch (g cs ch)) v).getD q []).length
      = (v.getD q []).length := by
  induction l generalizing v with
  | nil => rfl
  | cons a l ih => rw [List.foldl_cons, ih, rowLen_setCell]

/-- The stores of one pixel of the serial / OpenMP loop. -/
theorem segment_store_spec (image : Mat) (s : KMeanAlgo) (p c k : Nat)
    (hcnt : k < s.clst_count.length) (hsum : k < s.clst_colorsum.length) :
    (∀ q, (segment_store image s (p / image.cols) (p % image.cols) c k k).clst_count.getD q 0
      = s.clst_count.getD q 0 + if k = q then 1 else 0) ∧
    (segment_store image s (p / image.cols) (p % image.cols) c k k).clst_colorsum.length
      = s.clst_colorsum.length ∧
    (∀ q, ((segment_store image s (p / image.cols) (p % image.cols) c k k).clst_colorsum.getD
      q []).length = (s.clst_colorsum.getD q []).length) ∧
    ((s.clst_colorsum.getD k []).length = s.nb_channels.toNat →
      ∀ q ch, ch < s.nb_channels.toNat →
      cell (segment_store image s (p / image.cols) (p % image.cols) c k k).clst_colorsum q ch
        = cell s.clst_colorsum q ch + if k = q then (image.data.getD p []).getD ch 0 else 0) ∧
    (segment_store image s (p / image.cols) (p % image.cols) c k k).clustered_img
      = s.clustered_img.set p (c % 256) := by
  refine ⟨?_, ?_, ?_, ?_, ?_⟩
  · intro q
    simp only [segment_store]
    rw [getD_addAt _ _ _ _ hcnt]
    by_cases h : q = k
    · subst h
      simp
    · have h' : ¬ k = q := fun e => h e.symm
      simp [h, h']
  · simp only [segment_store]
    split
    · rw [length_setCell]
    · exact length_foldl_setCell k
        (fun cs ch => cell cs k ch + (image.pixel (p / image.cols) (p % image.cols)).getD ch 0)
        _ _
  · intro q
    simp only [segment_store]
    split
    · rw [rowLen_setCell]
    · exact rowLen_foldl_setCell k
        (fun cs ch => cell cs k ch + (image.pixel (p / image.cols) (p % image.cols)).getD ch 0)
        _ _ q
  · intro hrow q ch hch
    simp only [segment_store, pixel_linear]
    split
    · rename_i h1
      have hch0 : ch = 0 := by
        rw [h1] at hch
        have : (1 : Int).toNat = 1 := rfl
        omega
      subst hch0
      rw [cell_setCell _ _ _ _ _ _ hsum (by rw [hrow, h1]; decide)]
      by_cases h : q = k
      · subst h
        simp
      · have h' : ¬ k = q := fun e => h e.symm
        simp [h, h']
    · rw [(add_channels k _ _ (List.nodup_range _) _ hsum (by
        intro ch hch
        rw [hrow]
        exact List.mem_range.1 hch)).2.2 q ch]
      by_cases h : q = k
      · subst h
        simp [hch]
      · have h' : ¬ k = q := fun e => h e.symm
        simp [h, h']
  · simp only [segment_store]
    rw [Nat.div_add_mod']

theorem slot_lt (K : Int) (slices th c : Nat) (hth : th < slices) (hc : c < K.toNat) :
    th * K.toNat + c < slices * K.toNat := by
  calc th * K.toNat + c < th * K.toNat + K.toNat := by omega
    _ = (th + 1) * K.toNat := by ring
    _ ≤ slices * K.toNat := Nat.mul_le_mul_right _ hth

/-- One pixel of the serial / OpenMP loop, when the thread number is below the number of
slices: the three stores are made at slot `th * K + c`, `c` the index of the nearest centroid. -/
theorem segment_pixel_eq (C K T : Int) (mode : String) (slices : Nat) (image : Mat)
    (th i j : Nat) (s : KMeanAlgo) (hK : 1 ≤ K) (hs : Sized C K T mode slices s)
    (hth : th < slices) :
    segment_pixel image th s i j = .ok (segment_store image s i j
      (nrst_centroid_index s image i j) (th * K.toNat + nrst_centroid_index s image i j)
      (th * K.toNat + nrst_centroid_index s image i j)) := by
  obtain ⟨hC, hm, hT, hk, hcnt, hsum⟩ := hs
  have hlt : nrst_centroid_index s image i j < K.toNat := by
    have := nrst_centroid_index_lt s image i j (by rw [hk]; exact hK)
    rwa [hk] at this
  have e1 := slot_ok (slices * K.toNat) K (by omega) th (nrst_centroid_index s image i j)
    (slot_lt K slices th _ hth hlt)
  unfold segment_pixel
  simp only [hcnt, hsum, hk, e1]
  rfl

theorem passPost_nil (image : Mat) (sched : Nat → Nat) (s : KMeanAlgo) :
    PassPost image sched [] s s where
  nb_channels := rfl
  mode := rfl
  nb_threads := rfl
  m_nb_centroid := rfl
  m_maxiter := rfl
  centroids := rfl
  new_centroids := rfl
  count_length := rfl
  sum_length := rfl
  sum_rows := fun _ => rfl
  label_length := rfl
  label_in := fun p hp _ => by cases hp
  label_out := fun _ _ => rfl
  count := fun _ => by simp
  sum := fun _ _ _ _ => by simp

theorem worker_lt (mode : String) (sched : Nat → Nat) (slices : Nat) (hsl : 0 < slices)
    (hsched : mode = "omp" → ∀ p, sched p < slices) (p : Nat) :
    worker mode sched p < slices := by
  unfold worker
  split
  · rename_i h
    exact hsched h p
  · exact hsl

/-- The pixel loop of the serial / OpenMP branch of `segment` over a list of distinct pixels:
it returns normally, every listed pixel is labelled with the index of its nearest centroid
(reduced modulo 256 by the `uchar` store) and is added to the count and the colour sums of its
slot. -/
theorem segment_fold_spec (C K T : Int) (mode : String) (slices : Nat) (image : Mat)
    (sched : Nat → Nat) (hK : 1 ≤ K) (hsl : 0 < slices)
    (hsched : mode = "omp" → ∀ p, sched p < slices) (l : List Nat) (hnd : l.Nodup)
    (s : KMeanAlgo) (hs : Sized C K T mode slices s) :
    ∃ s', l.foldlM (fun s2 p => segment_pixel image
        (if s2.mode = "omp" then sched (p / image.cols * image.cols + p % image.cols) else 0)
        s2 (p / image.cols) (p % image.cols)) s = .ok s' ∧
      PassPost image sched l s s' := by
  induction l generalizing s with
  | nil => exact ⟨s, rfl, passPost_nil image sched s⟩
  | cons p l ih =>
    have hp : p ∉ l := (List.nodup_cons.1 hnd).1
    obtain ⟨hC, hm, hT, hk, hcnt, hsum⟩ := hs
    have hth : worker mode sched p < slices := worker_lt mode sched slices hsl hsched p
    have hc : nrst_at s image p < K.toNat := by
      have := nrst_centroid_index_lt s image (p / image.cols) (p % image.cols)
        (by rw [hk]; exact hK)
      rwa [hk] at this
    have hslot := slot_lt K slices _ _ hth hc
    have hstep : segment_pixel image
        (if s.mode = "omp" then sched (p / image.cols * image.cols + p % image.cols) else 0)
        s (p / image.cols) (p % image.cols)
        = .ok (segment_store image s (p / image.cols) (p % image.cols) (nrst_at s image p)
            (slot_of s image sched p) (slot_of s image sched p)) := by
      have := segment_pixel_eq C K T mode slices image (worker mode sched p) (p / image.cols)
        (p % image.cols) s hK ⟨hC, hm, hT, hk, hcnt, hsum⟩ hth
      rw [Nat.div_add_mod', hm]
      unfold slot_of
      rw [hm, hk]
      exact this
    have hslot' : slot_of s image sched p < slices * K.toNat := by
      unfold slot_of
      rw [hm, hk]
      exact hslot
    obtain ⟨a1, a2, a3, a4, a5⟩ := segment_store_spec image s p (nrst_at s image p)
      (slot_of s image sched p) (by rw [hcnt]; exact hslot') (by rw [hsum]; exact hslot')
    generalize hs1 : segment_store image s (p / image.cols) (p % image.cols)
      (nrst_at s image p) (slot_of s image sched p) (slot_of s image sched p) = s1
      at hstep a1 a2 a3 a4 a5
    have f1 : s1.nb_channels = s.nb_channels := by rw [← hs1]; rfl
    have f2 : s1.mode = s.mode := by rw [← hs1]; rfl
    have f3 : s1.nb_threads = s.nb_threads := by rw [← hs1]; rfl
    have f4 : s1.m_nb_centroid = s.m_nb_centroid := by rw [← hs1]; rfl
    have f5 : s1.m_maxiter = s.m_maxiter := by rw [← hs1]; rfl
    have f6 : s1.centroids = s.centroids := by rw [← hs1]; rfl
    have f7 : s1.new_centroids = s.new_centroids := by rw [← hs1]; rfl
    have f8 : s1.clst_count.length = s.clst_count.length := by
      rw [← hs1]
      simp only [segment_store, length_addAt]
    obtain ⟨s', hfold, post⟩ := ih (List.nodup_cons.1 hnd).2 s1
      ⟨by rw [f1, hC], by rw [f2, hm], by rw [f3, hT], by rw [f4, hk], by rw [f8, hcnt],
        by rw [a2, hsum]⟩
    have hslots : ∀ x, slot_of s1 image sched x = slot_of s image sched x :=
      fun x => slot_of_congr s1 s image sched x f1 f4 f2 f6
    have hnrst : ∀ x, nrst_at s1 image x = nrst_at s image x :=
      fun x => nrst_centroid_index_congr s1 s image _ _ f1 f4 f6
    refine ⟨s', ?_, ?_⟩
    · rw [List.foldlM_cons, hstep]
      exact hfold
    · exact {
        nb_channels := by rw [post.nb_channels, f1]
        mode := by rw [post.mode, f2]
        nb_threads := by rw [post.nb_threads, f3]
        m_nb_centroid := by rw [post.m_nb_centroid, f4]
        m_maxiter := by rw [post.m_maxiter, f5]
        centroids := by rw [post.centroids, f6]
        new_centroids := by rw [post.new_centroids, f7]
        count_length := by rw [post.count_length, f8]
        sum_length := by rw [post.sum_length, a2]
        sum_rows := fun q => by rw [post.sum_rows q, a3 q]
        label_length := by rw [post.label_length, a5, List.length_set]
        label_in := by
          intro x hx hlen
          by_cases hxl : x ∈ l
          · rw [post.label_in x hxl (by rw [a5, List.length_set]; exact hlen), hnrst]
          · have hxp : x = p := by
              rcases List.mem_cons.1 hx with h | h
              · exact h
              · exact absurd h hxl
            subst hxp
            rw [post.label_out x hxl, a5, getD_set _ _ _ _ hlen, if_pos rfl]
        label_out := by
          intro x hx
          have hxl : x ∉ l := fun h => hx (List.mem_cons_of_mem _ h)
          have hxp : x ≠ p := fun h => hx (by rw [h]; exact List.mem_cons_self _ _)
          rw [post.label_out x hxl, a5]
          by_cases hlen : p < s.clustered_img.length
          · rw [getD_set _ _ _ _ hlen, if_neg hxp]
          · rw [List.set_eq_of_length_le (by omega)]
        count := by
          intro q
          rw [post.count q, a1 q, List.map_cons, List.sum_cons]
          simp only [hslots]
          omega
        sum := by
          intro hrows q ch hch
          have hrows1 : RowsOf s1.nb_channels.toNat s1.clst_colorsum := by
            intro x hx
            rw [a3 x, f1]
            exact hrows x (by rw [← a2]; exact hx)
          rw [post.sum hrows1 q ch (by rw [f1]; exact hch),
            a4 (hrows _ (by rw [hsum]; exact hslot')) q ch hch, List.map_cons, List.sum_cons]
          simp only [hslots]
          omega }

/-- The serial / OpenMP branch of `segment`: it returns normally and handles every pixel of the
image once. -/
theorem segment_loops_spec (C K T : Int) (mode : String) (slices : Nat) (image : Mat)
    (sched : Nat → Nat) (s : KMeanAlgo) (hK : 1 ≤ K) (hs : Sized C K T mode slices s)
    (hsl : 0 < slices) (hsched : mode = "omp" → ∀ p, sched p < slices) :
    ∃ s', segment_loops sched s image = .ok s' ∧
      PassPost image sched (List.range (image.rows * image.cols)) s s' := by
  unfold segment_loops
  rw [foldlM_grid (fun s2 i j => segment_pixel image
    (if s2.mode = "omp" then sched (i * image.cols + j) else 0) s2 i j)]
  exact segment_fold_spec C K T mode slices image sched hK hsl hsched _ (List.nodup_range _) s hs

/-- A list built row by row is the list of its entries by linear index. -/
theorem flatMap_grid {α : Type} (g : Nat → Nat → α) (rows cols : Nat) :
    (List.range rows).flatMap (fun i => (List.range cols).map (fun j => g i j))
      = (List.range (rows * cols)).map (fun p => g (p / cols) (p % cols)) := by
  induction rows with
  | zero => simp
  | succ r ih =>
    have e : (r + 1) * cols = r * cols + cols := by ring
    rw [List.range_succ, List.flatMap_append, ih, e, List.range_add, List.map_append,
      List.map_map]
    simp only [List.flatMap_cons, List.flatMap_nil, List.append_nil]
    congr 1
    apply List.map_congr_left
    intro j hj
    have hj' : j < cols := List.mem_range.1 hj
    have h1 : (r * cols + j) / cols = r := by
      rw [Nat.mul_comm, Nat.mul_add_div (by omega), Nat.div_eq_of_lt hj', Nat.add_zero]
    have h2 : (r * cols + j) % cols = j := by
      rw [Nat.mul_comm, Nat.mul_add_mod, Nat.mod_eq_of_lt hj']
    simp only [Function.comp, h1, h2]

/-- The labels of the TBB branch by linear index. -/
theorem tbb_labels_eq (s : KMeanAlgo) (image : Mat) :
    tbb_labels s image
      = (List.range (image.rows * image.cols)).map (fun p => nrst_at s image p % 256) := by
  unfold tbb_labels nrst_at
  exact flatMap_grid (fun i j => nrst_centroid_index s image i j % 256) image.rows image.cols

theorem tbb_labels_getD (s : KMeanAlgo) (image : Mat) (p : Nat)
    (hp : p < image.rows * image.cols) :
    (tbb_labels s image).getD p 0 = nrst_at s image p % 256 := by
  rw [tbb_labels_eq, List.getD_eq_getElem _ _ (by simpa using hp)]
  simp

/-! ## Lemmas: the reductions of the TBB branch -/

theorem tbbPost_nil (s : KMeanAlgo) (image : Mat) (labels : List Nat) (n : Nat)
    (s1 : KMeanAlgo) : TbbPost s image labels n [] s1 s1 where
  nb_channels := rfl
  mode := rfl
  nb_threads := rfl
  m_nb_centroid := rfl
  m_maxiter := rfl
  centroids := rfl
  new_centroids := rfl
  clustered_img := rfl
  count_length := rfl
  sum_length := rfl
  sum_rows := fun _ => rfl
  count_in := fun c hc => by cases hc
  count_out := fun _ _ => rfl
  sum_in := fun _ c hc => by cases hc
  sum_out := fun _ _ _ => rfl

/-- The body of the loop over the centroids of the TBB branch, when the centroid has its slots:
the count and every channel of the colour sum are overwritten with the reductions. -/
theorem tbb_centroid_eq (s : KMeanAlgo) (image : Mat) (labels : List Nat) (n cent : Nat)
    (s1 : KMeanAlgo) (hcnt : cent < s1.clst_count.length)
    (hsum : cent < s1.clst_colorsum.length) :
    tbb_centroid s image labels n s1 cent = .ok
      { s1 with
        clst_count := s1.clst_count.set cent (tbb_count labels n cent)
        clst_colorsum := (List.range s1.nb_channels.toNat).foldl
          (fun cs ch => setCell cs cent ch (tbb_colorsum s image labels n cent ch))
          s1.clst_colorsum } := by
  have key := foldlM_eq_foldl (tbb_channel s image labels n cent)
    (fun cs ch => setCell cs cent ch (tbb_colorsum s image labels n cent ch))
    (fun cs => cs.length = s1.clst_colorsum.length) (List.range s1.nb_channels.toNat)
    (by
      intro cs ch _ h1
      refine ⟨tbb_channel_ok s image labels n cent ch cs (by rw [h1]; exact hsum), ?_⟩
      show (setCell cs cent ch _).length = _
      rw [length_setCell, h1])
    s1.clst_colorsum rfl
  unfold tbb_centroid
  rw [slot_ok_cast _ _ hcnt, key.1]
  rfl

/-- The loop over the centroids of the TBB branch, over a list of distinct centroids. -/
theorem tbb_fold_spec (s : KMeanAlgo) (image : Mat) (labels : List Nat) (n : Nat)
    (l : List Nat) (hnd : l.Nodup) (s1 : KMeanAlgo)
    (hcnt : ∀ c, c ∈ l → c < s1.clst_count.length)
    (hsum : ∀ c, c ∈ l → c < s1.clst_colorsum.length) :
    ∃ s', l.foldlM (tbb_centroid s image labels n) s1 = .ok s' ∧
      TbbPost s image labels n l s1 s' := by
  induction l generalizing s1 with
  | nil => exact ⟨s1, rfl, tbbPost_nil s image labels n s1⟩
  | cons a l ih =>
    have ha : a ∉ l := (List.nodup_cons.1 hnd).1
    have hacnt := hcnt a (List.mem_cons_self _ _)
    have hasum := hsum a (List.mem_cons_self _ _)
    have hstep := tbb_centroid_eq s image labels n a s1 hacnt hasum
    have hlen := length_foldl_setCell a (fun _ ch => tbb_colorsum s image labels n a ch)
      (List.range s1.nb_channels.toNat) s1.clst_colorsum
    have hrowlen := rowLen_foldl_setCell a (fun _ ch => tbb_colorsum s image labels n a ch)
      (List.range s1.nb_channels.toNat) s1.clst_colorsum
    generalize hs2 : ({ s1 with
        clst_count := s1.clst_count.set a (tbb_count labels n a)
        clst_colorsum := (List.range s1.nb_channels.toNat).foldl
          (fun cs ch => setCell cs a ch (tbb_colorsum s image labels n a ch))
          s1.clst_colorsum } : KMeanAlgo) = s2 at hstep
    have f1 : s2.nb_channels = s1.nb_channels := by rw [← hs2]
    have f2 : s2.mode = s1.mode := by rw [← hs2]
    have f3 : s2.nb_threads = s1.nb_threads := by rw [← hs2]
    have f4 : s2.m_nb_centroid = s1.m_nb_centroid := by rw [← hs2]
    have f5 : s2.m_maxiter = s1.m_maxiter := by rw [← hs2]
    have f6 : s2.centroids = s1.centroids := by rw [← hs2]
    have f7 : s2.new_centroids = s1.new_centroids := by rw [← hs2]
    have f8 : s2.clustered_img = s1.clustered_img := by rw [← hs2]
    have f9 : s2.clst_count = s1.clst_count.set a (tbb_count labels n a) := by rw [← hs2]
    have f10 : s2.clst_colorsum = (List.range s1.nb_channels.toNat).foldl
          (fun cs ch => setCell cs a ch (tbb_colorsum s image labels n a ch))
          s1.clst_colorsum := by rw [← hs2]
    obtain ⟨s', hfold, post⟩ := ih (List.nodup_cons.1 hnd).2 s2
      (fun c hc => by
        rw [f9, List.length_set]
        exact hcnt c (List.mem_cons_of_mem _ hc))
      (fun c hc => by
        rw [f10, hlen]
        exact hsum c (List.mem_cons_of_mem _ hc))
    refine ⟨s', ?_, ?_⟩
    · rw [List.foldlM_cons, hstep]
      exact hfold
    · exact {
        nb_channels := by rw [post.nb_channels, f1]
        mode := by rw [post.mode, f2]
        nb_threads := by rw [post.nb_threads, f3]
        m_nb_centroid := by rw [post.m_nb_centroid, f4]
        m_maxiter := by rw [post.m_maxiter, f5]
        centroids := by rw [post.centroids, f6]
        new_centroids := by rw [post.new_centroids, f7]
        clustered_img := by rw [post.clustered_img, f8]
        count_length := by rw [post.count_length, f9, List.length_set]
        sum_length := by rw [post.sum_length, f10, hlen]
        sum_rows := fun q => by rw [post.sum_rows q, f10, hrowlen q]
        count_in := by
          intro c hc
          by_cases hcl : c ∈ l
          · exact post.count_in c hcl
          · have hca : c = a := by
              rcases List.mem_cons.1 hc with h | h
              · exact h
              · exact absurd h hcl
            subst hca
            rw [post.count_out c hcl, f9, getD_set _ _ _ _ hacnt, if_pos rfl]
        count_out := by
          intro c hc
          have hcl : c ∉ l := fun h => hc (List.mem_cons_of_mem _ h)
          have hca : c ≠ a := fun h => hc (by rw [h]; exact List.mem_cons_self _ _)
          rw [post.count_out c hcl, f9, getD_set _ _ _ _ hacnt, if_neg hca]
        sum_in := by
          intro hrows c hc ch hch
          obtain ⟨_, h2, h3, h4⟩ := store_channels a
            (fun ch => tbb_colorsum s image labels n a ch) (List.range s1.nb_channels.toNat)
            s1.clst_colorsum hasum (by
              intro x hx
              rw [hrows a hasum]
              exact List.mem_range.1 hx)
          by_cases hcl : c ∈ l
          · refine post.sum_in ?_ c hcl ch (by rw [f1]; exact hch)
            intro q hq
            rw [f10, h2 q, f1]
            exact hrows q (by rw [f10, hlen] at hq; exact hq)
          · have hca : c = a := by
              rcases List.mem_cons.1 hc with h | h
              · exact h
              · exact absurd h hcl
            subst hca
            rw [post.sum_out c hcl ch, f10]
            exact h4 ch (List.mem_range.2 hch)
        sum_out := by
          intro c hc ch
          have hcl : c ∉ l := fun h => hc (List.mem_cons_of_mem _ h)
          have hca : c ≠ a := fun h => hc (by rw [h]; exact List.mem_cons_self _ _)
          rw [post.sum_out c hcl ch, f10]
          -- the stores of centroid `a` leave the rows of the other centroids alone
          have key : ∀ (l' : List Nat) (w : List (List Nat)),
              cell (l'.foldl (fun cs ch => setCell cs a ch
                (tbb_colorsum s image labels n a ch)) w) c ch = cell w c ch := by
            intro l'
            induction l' with
            | nil => intro w; rfl
            | cons b l' ih' =>
              intro w
              rw [List.foldl_cons, ih']
              unfold cell setCell
              by_cases haw : a < w.length
              · rw [getD_rows_set w a c _ haw, if_neg hca]
              · rw [List.set_eq_of_length_le (by omega)]
          exact key _ _ }

/-- The TBB branch of `segment`: it returns normally, the labels are the indices of the nearest
centroids (reduced modulo 256), and the accumulators of every centroid are overwritten with the
reductions over the label buffer. -/
theorem segment_tbb_spec (C K T : Int) (mode : String) (slices : Nat) (s : KMeanAlgo)
    (image : Mat) (hs : Sized C K T mode slices s) (hsl : 0 < slices) :
    ∃ s', segment_tbb s image = .ok s' ∧
      TbbPost s image (tbb_labels s image) (image.rows * image.cols) (List.range K.toNat)
        { s with clustered_img := tbb_labels s image } s' := by
  obtain ⟨hC, hm, hT, hk, hcnt, hsum⟩ := hs
  unfold segment_tbb
  rw [hk]
  apply tbb_fold_spec s image _ _ _ (List.nodup_range _)
  · intro c hc
    show c < s.clst_count.length
    rw [hcnt]
    exact lt_of_lt_of_le (List.mem_range.1 hc) (Nat.le_mul_of_pos_left _ hsl)
  · intro c hc
    show c < s.clst_colorsum.length
    rw [hsum]
    exact lt_of_lt_of_le (List.mem_range.1 hc) (Nat.le_mul_of_pos_left _ hsl)

/-! ## Lemmas: the shape of the engine along a run -/

theorem rowsOf_setCell (n : Nat) (v : List (List Nat)) (k ch x : Nat) (h : RowsOf n v) :
    RowsOf n (setCell v k ch x) := by
  intro q hq
  rw [rowLen_setCell]
  exact h q (by rw [length_setCell] at hq; exact hq)

theorem rowsOf_foldl_setCell (n k : Nat) (g : List (List Nat) → Nat → Nat) (l : List Nat)
    (v : List (List Nat)) (h : RowsOf n v) :
    RowsOf n (l.foldl (fun cs ch => setCell cs k ch (g cs ch)) v) := by
  intro q hq
  rw [rowLen_foldl_setCell]
  exact h q (by rw [length_foldl_setCell] at hq; exact hq)

theorem rowsOf_replicate (k n : Nat) : RowsOf n (List.replicate k (List.replicate n 0)) := by
  intro q hq
  rw [List.length_replicate] at hq
  rw [List.getD_eq_getElem _ _ (by rw [List.length_replicate]; exact hq),
    List.getElem_replicate, List.length_replicate]

theorem init_centroid_step_shape (image : Mat) (rnd : Nat → Nat) (s : KMeanAlgo) (i : Nat) :
    (init_centroid_step image rnd s i).centroids.length = s.centroids.length ∧
    (∀ n, RowsOf n s.centroids → RowsOf n (init_centroid_step image rnd s i).centroids) ∧
    (init_centroid_step image rnd s i).new_centroids = s.new_centroids ∧
    (init_centroid_step image rnd s i).nb_channels = s.nb_channels := by
  unfold init_centroid_step
  simp only
  split
  · exact ⟨length_setCell _ _ _ _, fun n h => rowsOf_setCell n _ _ _ _ h, rfl, rfl⟩
  · exact ⟨length_foldl_setCell i (fun _ j => _) _ _,
      fun n h => rowsOf_foldl_setCell n i (fun _ j => _) _ _ h, rfl, rfl⟩

theorem init_centroids_shape (image : Mat) (rnd : Nat → Nat) (s : KMeanAlgo) :
    (init_centroids image rnd s).centroids.length = s.centroids.length ∧
    (∀ n, RowsOf n s.centroids → RowsOf n (init_centroids image rnd s).centroids) ∧
    (init_centroids image rnd s).new_centroids = s.new_centroids ∧
    (init_centroids image rnd s).clustered_img
      = List.replicate (image.rows * image.cols) unwritten := by
  have key : ∀ (l : List Nat) (s : KMeanAlgo),
      (l.foldl (init_centroid_step image rnd) s).centroids.length = s.centroids.length ∧
      (∀ n, RowsOf n s.centroids →
        RowsOf n (l.foldl (init_centroid_step image rnd) s).centroids) ∧
      (l.foldl (init_centroid_step image rnd) s).new_centroids = s.new_centroids := by
    intro l
    induction l with
    | nil => intro s; exact ⟨rfl, fun _ h => h, rfl⟩
    | cons a l ih =>
      intro s
      rw [List.foldl_cons]
      obtain ⟨h1, h2, h3⟩ := ih (init_centroid_step image rnd s a)
      obtain ⟨g1, g2, g3, _⟩ := init_centroid_step_shape image rnd s a
      exact ⟨by rw [h1, g1], fun n h => h2 n (g2 n h), by rw [h3, g3]⟩
  unfold init_centroids
  exact ⟨(key _ s).1, (key _ s).2.1, (key _ s).2.2, rfl⟩

/-- The engine is well shaped after construction and seeding. -/
theorem init_shaped (C K M T : Int) (mode : String) (heap : Nat → Nat → Nat) (image : Mat)
    (rnd : Nat → Nat) :
    Shaped C K (image.rows * image.cols)
      (init_centroids image rnd (KMeanAlgo.alloc C K M mode T heap)) := by
  obtain ⟨h1, h2, h3, h4⟩ := init_centroids_shape image rnd (KMeanAlgo.alloc C K M mode T heap)
  exact {
    centroids_length := by
      rw [h1]
      simp only [KMeanAlgo.alloc, List.length_replicate]
    new_centroids_length := by
      rw [h3]
      simp only [KMeanAlgo.alloc, List.length_replicate]
    centroids_rows := h2 _ (rowsOf_replicate _ _)
    new_centroids_rows := by
      rw [h3]
      exact rowsOf_replicate _ _
    label_length := by rw [h4, List.length_replicate] }

theorem nrst_at_lt (s : KMeanAlgo) (image : Mat) (p : Nat) (hK : 1 ≤ s.m_nb_centroid) :
    nrst_at s image p < s.m_nb_centroid.toNat :=
  nrst_centroid_index_lt s image _ _ hK

/-- `segment` returns normally; afterwards the label of every pixel is the index of its nearest
centroid reduced modulo 256, and the centroid vectors are untouched. -/
theorem segment_labels (C K T : Int) (mode : String) (slices : Nat) (image : Mat)
    (sched : Nat → Nat) (s : KMeanAlgo) (hK : 1 ≤ K) (hs : Sized C K T mode slices s)
    (hsl : 0 < slices) (hsched : mode = "omp" → ∀ p, sched p < slices)
    (hlab : s.clustered_img.length = image.rows * image.cols) :
    ∃ s', segment sched s image = .ok s' ∧ Sized C K T mode slices s' ∧
      s'.centroids = s.centroids ∧ s'.new_centroids = s.new_centroids ∧
      s'.m_maxiter = s.m_maxiter ∧
      s'.clustered_img.length = image.rows * image.cols ∧
      ∀ p, p < image.rows * image.cols →
        s'.clustered_img.getD p 0 = nrst_at s image p % 256 := by
  unfold segment
  split
  · obtain ⟨s', h, post⟩ := segment_tbb_spec C K T mode slices s image hs hsl
    refine ⟨s', h, ?_, post.centroids, post.new_centroids, post.m_maxiter, ?_, ?_⟩
    · exact ⟨by rw [post.nb_channels]; exact hs.1, by rw [post.mode]; exact hs.2.1,
        by rw [post.nb_threads]; exact hs.2.2.1, by rw [post.m_nb_centroid]; exact hs.2.2.2.1,
        by rw [post.count_length]; exact hs.2.2.2.2.1,
        by rw [post.sum_length]; exact hs.2.2.2.2.2⟩
    · rw [post.clustered_img]
      show (tbb_labels s image).length = _
      rw [tbb_labels_eq, List.length_map, List.length_range]
    · intro p hp
      rw [post.clustered_img]
      exact tbb_labels_getD s image p hp
  · obtain ⟨s', h, post⟩ := segment_loops_spec C K T mode slices image sched s hK hs hsl hsched
    refine ⟨s', h, ?_, post.centroids, post.new_centroids, post.m_maxiter, ?_, ?_⟩
    · exact ⟨by rw [post.nb_channels]; exact hs.1, by rw [post.mode]; exact hs.2.1,
        by rw [post.nb_threads]; exact hs.2.2.1, by rw [post.m_nb_centroid]; exact hs.2.2.2.1,
        by rw [post.count_length]; exact hs.2.2.2.2.1,
        by rw [post.sum_length]; exact hs.2.2.2.2.2⟩
    · rw [post.label_length, hlab]
    · intro p hp
      exact post.label_in p (List.mem_range.2 hp) (by rw [hlab]; exact hp)

theorem segment_shaped (C K T : Int) (mode : String) (slices : Nat) (image : Mat)
    (sched : Nat → Nat) (s : KMeanAlgo) (hK : 1 ≤ K) (hs : Sized C K T mode slices s)
    (hsl : 0 < slices) (hsched : mode = "omp" → ∀ p, sched p < slices)
    (hsh : Shaped C K (image.rows * image.cols) s) :
    ∃ s', segment sched s image = .ok s' ∧ Sized C K T mode slices s' ∧
      Shaped C K (image.rows * image.cols) s' ∧ s'.m_maxiter = s.m_maxiter := by
  obtain ⟨s', h, hs', h1, h2, h3, h4, h5⟩ :=
    segment_labels C K T mode slices image sched s hK hs hsl hsched hsh.label_length
  refine ⟨s', h, hs', ?_, h3⟩
  exact {
    centroids_length := by rw [h1]; exact hsh.centroids_length
    new_centroids_length := by rw [h2]; exact hsh.new_centroids_length
    centroids_rows := by rw [h1]; exact hsh.centroids_rows
    new_centroids_rows := by rw [h2]; exact hsh.new_centroids_rows
    label_length := h4 }

/-- Labels that are nearest-centroid indices reduced modulo 256 are written and below `K`. -/
theorem labelled_of_nrst (K : Int) (image : Mat) (s s' : KMeanAlgo) (hK : 1 ≤ K)
    (hk : s.m_nb_centroid = K)
    (h : ∀ p, p < image.rows * image.cols →
      s'.clustered_img.getD p 0 = nrst_at s image p % 256) :
    Labelled K (image.rows * image.cols) s' := by
  intro p hp
  rw [h p hp]
  have := nrst_at_lt s image p (by rw [hk]; exact hK)
  rw [hk] at this
  exact ⟨lt_of_le_of_lt (Nat.mod_le _ _) this, Nat.ne_of_lt (Nat.mod_lt _ (by decide))⟩

/-- After `segment` every label is written and below `K`. -/
theorem segment_labelled (C K T : Int) (mode : String) (slices : Nat) (image : Mat)
    (sched : Nat → Nat) (s s' : KMeanAlgo) (hK : 1 ≤ K) (hs : Sized C K T mode slices s)
    (hsl : 0 < slices) (hsched : mode = "omp" → ∀ p, sched p < slices)
    (hlab : s.clustered_img.length = image.rows * image.cols)
    (h : segment sched s image = .ok s') :
    Labelled K (image.rows * image.cols) s' := by
  obtain ⟨s1, h1, _, _, _, _, _, h5⟩ :=
    segment_labels C K T mode slices image sched s hK hs hsl hsched hlab
  rw [h] at h1
  cases h1
  exact labelled_of_nrst K image s s' hK hs.2.2.2.1 h5

theorem compute_centroids_shaped (C K T : Int) (mode : String) (slices n : Nat)
    (div0 : Nat → Nat) (s : KMeanAlgo) (hK : 1 ≤ K) (hs : Sized C K T mode slices s)
    (hsl : 0 < slices) (hT : mode ≠ "tbb" → T.toNat ≤ slices) (hsh : Shaped C K n s) :
    ∃ s', compute_centroids div0 s = .ok s' ∧ Sized C K T mode slices s' ∧
      Shaped C K n s' ∧ s'.m_maxiter = s.m_maxiter ∧ s'.centroids = s.centroids ∧
      s'.clustered_img = s.clustered_img := by
  have hk : s.m_nb_centroid = K := hs.2.2.2.1
  have hC : s.nb_channels = C := hs.1
  obtain ⟨cnt, cs, nc, e, h1, h2, _, _, _, _⟩ :=
    fold_centroids_spec div0 (List.range K.toNat) (List.nodup_range _) s
      (fun c hc => by rw [hk]; exact List.mem_range.1 hc)
      (fun c hc => by rw [hsh.new_centroids_length]; exact List.mem_range.1 hc)
      (fun c hc => by
        rw [hC, hsh.new_centroids_rows c
          (by rw [hsh.new_centroids_length]; exact List.mem_range.1 hc)])
  obtain ⟨s', h, hs'⟩ := compute_centroids_ok C K T mode slices div0 s hK hs hsl hT
  have heq := compute_centroids_eq C K T mode slices div0 s hK hs hsl hT
  rw [e] at heq
  rw [heq] at h
  cases h
  refine ⟨_, heq, hs', ?_, rfl, rfl, rfl⟩
  exact {
    centroids_length := hsh.centroids_length
    new_centroids_length := by
      show nc.length = _
      rw [h1]
      exact hsh.new_centroids_length
    centroids_rows := hsh.centroids_rows
    new_centroids_rows := by
      intro q hq
      show (nc.getD q []).length = _
      rw [h2 q]
      exact hsh.new_centroids_rows q (by rw [← h1]; exact hq)
    label_length := hsh.label_length }

/-! ## Lemmas: `map_segmentation` -/

/-- A pure loop nest over rows and columns is one loop over the linear pixel index. -/
theorem foldl_grid {β : Type} (f : β → Nat → Nat → β) (rows cols : Nat) (b : β) :
    (List.range rows).foldl (fun b1 i => (List.range cols).foldl (fun b2 j => f b2 i j) b1) b
      = (List.range (rows * cols)).foldl (fun b2 p => f b2 (p / cols) (p % cols)) b := by
  induction rows generalizing b with
  | zero => simp
  | succ r ih =>
    have e : (r + 1) * cols = r * cols + cols := by ring
    rw [List.range_succ, List.foldl_append, e, List.range_add, List.foldl_append, ih,
      List.foldl_map]
    simp only [List.foldl_cons, List.foldl_nil]
    generalize (List.range (r * cols)).foldl (fun b2 p => f b2 (p / cols) (p % cols)) b = b1
    have key : ∀ (l : List Nat), (∀ j, j ∈ l → j < cols) → ∀ b1 : β,
        l.foldl (fun b2 j => f b2 r j) b1
          = l.foldl (fun b2 j => f b2 ((r * cols + j) / cols) ((r * cols + j) % cols)) b1 := by
      intro l
      induction l with
      | nil => intro _ _; rfl
      | cons a l ih' =>
        intro hl b1
        have ha : a < cols := hl a (List.mem_cons_self _ _)
        have h1 : (r * cols + a) / cols = r := by
          rw [Nat.mul_comm, Nat.mul_add_div (by omega), Nat.div_eq_of_lt ha, Nat.add_zero]
        have h2 : (r * cols + a) % cols = a := by
          rw [Nat.mul_comm, Nat.mul_add_mod, Nat.mod_eq_of_lt ha]
        rw [List.foldl_cons, List.foldl_cons, h1, h2]
        exact ih' (fun j hj => hl j (List.mem_cons_of_mem _ hj)) _
    exact key _ (fun j hj => List.mem_range.1 hj) b1

theorem cell_set_other (v : List (List Nat)) (k q ch : Nat) (row : List Nat) (hq : q ≠ k) :
    cell (v.set k row) q ch = cell v q ch := by
  unfold cell
  by_cases hk : k < v.length
  · rw [getD_rows_set v k q _ hk, if_neg hq]
  · rw [List.set_eq_of_length_le (by omega)]

theorem cell_foldl_setCell_other (k q ch : Nat) (g : List (List Nat) → Nat → Nat)
    (l : List Nat) (v : List (List Nat)) (hq : q ≠ k) :
    cell (l.foldl (fun cs c => setCell cs k c (g cs c)) v) q ch = cell v q ch := by
  induction l generalizing v with
  | nil => rfl
  | cons a l ih =>
    rw [List.foldl_cons, ih]
    unfold setCell
    exact cell_set_other v k q ch _ hq

/-- The stores of `map_segmentation` for one pixel. -/
theorem map_store_spec (s : KMeanAlgo) (im : Mat) (p label : Nat) :
    (map_store s im p label).rows = im.rows ∧
    (map_store s im p label).cols = im.cols ∧
    (map_store s im p label).data.length = im.data.length ∧
    (∀ q, ((map_store s im p label).data.getD q []).length = (im.data.getD q []).length) ∧
    (∀ q ch, q ≠ p → cell (map_store s im p label).data q ch = cell im.data q ch) ∧
    (p < im.data.length → (im.data.getD p []).length = s.nb_channels.toNat →
      ∀ ch, ch < s.nb_channels.toNat →
        cell (map_store s im p label).data p ch = cell s.centroids label ch) := by
  unfold map_store
  split
  · rename_i h1
    refine ⟨rfl, rfl, length_setCell _ _ _ _, fun q => rowLen_setCell _ _ _ _ _, ?_, ?_⟩
    · intro q ch hq
      unfold setCell
      exact cell_set_other _ _ _ _ _ hq
    · intro hp hrow ch hch
      have hch0 : ch = 0 := by
        rw [h1] at hch
        have : (1 : Int).toNat = 1 := rfl
        omega
      subst hch0
      rw [cell_setCell _ _ _ _ _ _ hp (by rw [hrow, h1]; decide), if_pos ⟨rfl, rfl⟩]
  · refine ⟨rfl, rfl, length_foldl_setCell p (fun _ k => _) _ _,
      fun q => rowLen_foldl_setCell p (fun _ k => _) _ _ q, ?_, ?_⟩
    · intro q ch hq
      exact cell_foldl_setCell_other p q ch (fun _ k => _) _ _ hq
    · intro hp hrow ch hch
      exact (store_channels p (fun k => cell s.centroids label k)
        (List.range s.nb_channels.toNat) im.data hp (by
          intro x hx
          rw [hrow]
          exact List.mem_range.1 hx)).2.2.2 ch (List.mem_range.2 hch)

/-- The body of the pixel loop of `map_segmentation` returns normally when the label of the
pixel has been written and is a position in the centroid vector. -/
theorem map_pixel_ok (s : KMeanAlgo) (im : Mat) (p : Nat) (hp : p < s.clustered_img.length)
    (hw : s.clustered_img.getD p 0 ≠ unwritten)
    (hlt : s.clustered_img.getD p 0 < s.centroids.length) :
    map_pixel s im (p / im.cols) (p % im.cols)
      = .ok (map_store s im p (s.clustered_img.getD p 0)) := by
  have hd : s.clustered_img.getD p unwritten = s.clustered_img.getD p 0 := by
    rw [List.getD_eq_getElem _ _ hp, List.getD_eq_getElem _ _ hp]
  have hs : slot s.centroids.length ((s.clustered_img.getD p 0 : Nat) : Int)
      = .ok (s.clustered_img.getD p 0) := by
    unfold slot
    rw [if_pos ⟨Int.natCast_nonneg _, by rw [Int.toNat_natCast]; exact hlt⟩, Int.toNat_natCast]
  have hk : label_slot s p = .ok (s.clustered_img.getD p 0) := by
    unfold label_slot
    simp only
    rw [hd, if_neg hw]
    exact hs
  unfold map_pixel map_store
  simp only [Nat.div_add_mod']
  split
  · rw [hk]
    rfl
  · have hfold := (foldlM_eq_foldl
      (fun (d : List (List Nat)) (k : Nat) =>
        (do
          let label ← label_slot s p
          pure (setCell d p k (cell s.centroids label k)) : Except Fault (List (List Nat))))
      (fun d k => setCell d p k (cell s.centroids (s.clustered_img.getD p 0) k))
      (fun _ => True) (List.range s.nb_channels.toNat)
      (fun d k _ _ => ⟨by rw [hk]; rfl, trivial⟩) im.data trivial).1
    rw [hfold]
    rfl

theorem mapPost_nil (s : KMeanAlgo) (image : Mat) : MapPost s [] image image where
  rows := rfl
  cols := rfl
  length := rfl
  row_length := fun _ => rfl
  pixel_in := fun p hp => by cases hp
  pixel_out := fun _ _ _ => rfl

/-- The pixel loop of `map_segmentation` over a list of distinct pixels whose labels have been
written and are positions in the centroid vector. -/
theorem map_fold_spec (s : KMeanAlgo) (image : Mat) (l : List Nat) (hnd : l.Nodup)
    (hl : ∀ p, p ∈ l → p < s.clustered_img.length ∧ s.clustered_img.getD p 0 ≠ unwritten ∧
      s.clustered_img.getD p 0 < s.centroids.length)
    (im : Mat) (hcols : im.cols = image.cols) :
    ∃ im', l.foldlM (fun im2 p => map_pixel s im2 (p / image.cols) (p % image.cols)) im
        = .ok im' ∧ MapPost s l im im' := by
  induction l generalizing im with
  | nil => exact ⟨im, rfl, mapPost_nil s im⟩
  | cons a l ih =>
    have ha : a ∉ l := (List.nodup_cons.1 hnd).1
    obtain ⟨b1, b2, b3⟩ := hl a (List.mem_cons_self _ _)
    have hstep := map_pixel_ok s im a b1 b2 b3
    rw [hcols] at hstep
    obtain ⟨a1, a2, a3, a4, a5, a6⟩ := map_store_spec s im a (s.clustered_img.getD a 0)
    obtain ⟨im', hfold, post⟩ := ih (List.nodup_cons.1 hnd).2
      (fun p hp => hl p (List.mem_cons_of_mem _ hp))
      (map_store s im a (s.clustered_img.getD a 0)) (by rw [a2, hcols])
    refine ⟨im', ?_, ?_⟩
    · rw [List.foldlM_cons, hstep]
      exact hfold
    · exact {
        rows := by rw [post.rows, a1]
        cols := by rw [post.cols, a2]
        length := by rw [post.length, a3]
        row_length := fun q => by rw [post.row_length q, a4 q]
        pixel_in := by
          intro p hp hlen hrow ch hch
          by_cases hpl : p ∈ l
          · exact post.pixel_in p hpl (by rw [a3]; exact hlen) (by rw [a4]; exact hrow) ch hch
          · have hpa : p = a := by
              rcases List.mem_cons.1 hp with h | h
              · exact h
              · exact absurd h hpl
            subst hpa
            rw [post.pixel_out p hpl ch]
            exact a6 hlen hrow ch hch
        pixel_out := by
          intro p hp ch
          have hpl : p ∉ l := fun h => hp (List.mem_cons_of_mem _ h)
          have hpa : p ≠ a := fun h => hp (by rw [h]; exact List.mem_cons_self _ _)
          rw [post.pixel_out p hpl ch]
          exact a5 p ch hpa }

/-- `map_segmentation` returns normally and handles every pixel of the image once when every
label has been written and is a position in the centroid vector. -/
theorem map_segmentation_spec (s : KMeanAlgo) (image : Mat)
    (hl : ∀ p, p < image.rows * image.cols → p < s.clustered_img.length ∧
      s.clustered_img.getD p 0 ≠ unwritten ∧ s.clustered_img.getD p 0 < s.centroids.length) :
    ∃ mapped, map_segmentation s image = .ok mapped ∧
      MapPost s (List.range (image.rows * image.cols)) image mapped := by
  unfold map_segmentation
  rw [foldlM_grid (fun im i j => map_pixel s im i j)]
  exact map_fold_spec s image _ (List.nodup_range _) (fun p hp => hl p (List.mem_range.1 hp))
    image rfl

/-- The remap of a well-shaped engine whose labels are all written returns normally. -/
theorem map_segmentation_ok (C K : Int) (s : KMeanAlgo) (image : Mat)
    (hsh : Shaped C K (image.rows * image.cols) s)
    (hlab : Labelled K (image.rows * image.cols) s) :
    ∃ mapped, map_segmentation s image = .ok mapped ∧
      MapPost s (List.range (image.rows * image.cols)) image mapped := by
  apply map_segmentation_spec
  intro p hp
  exact ⟨by rw [hsh.label_length]; exact hp, (hlab p hp).2,
    by rw [hsh.centroids_length]; exact (hlab p hp).1⟩

theorem list_eq_of_getD (a b : List Nat) (hlen : a.length = b.length)
    (h : ∀ ch, ch < a.length → a.getD ch 0 = b.getD ch 0) : a = b := by
  apply List.ext_getElem hlen
  intro n h1 h2
  have := h n h1
  rwa [List.getD_eq_getElem _ _ h1, List.getD_eq_getElem _ _ h2] at this

/-- After `map_segmentation` a pixel of a well-formed image is the centroid its label names. -/
theorem map_segmentation_pixel (C K : Int) (s : KMeanAlgo) (image mapped : Mat) (p : Nat)
    (hC : s.nb_channels = C) (hsh : Shaped C K (image.rows * image.cols) s)
    (hlab : Labelled K (image.rows * image.cols) s)
    (hmap : map_segmentation s image = .ok mapped)
    (hp : p < image.rows * image.cols) (hdata : image.data.length = image.rows * image.cols)
    (hrow : (image.data.getD p []).length = C.toNat) :
    mapped.data.getD p [] = s.centroids.getD (s.clustered_img.getD p 0) [] := by
  obtain ⟨mapped', hmap', post⟩ := map_segmentation_ok C K s image hsh hlab
  rw [hmap] at hmap'
  cases hmap'
  have hlt : s.clustered_img.getD p 0 < s.centroids.length := by
    rw [hsh.centroids_length]
    exact (hlab p hp).1
  apply list_eq_of_getD
  · rw [post.row_length p, hrow, hsh.centroids_rows _ hlt]
  · intro ch hch
    rw [post.row_length p, hrow] at hch
    exact post.pixel_in p (List.mem_range.2 hp) (by rw [hdata]; exact hp)
      (by rw [hC]; exact hrow) ch (by rw [hC]; exact hch)

/-! ## Lemmas: the shape of the engine at the end of a run -/

theorem swap_shaped (C K : Int) (n : Nat) (s : KMeanAlgo) (h : Shaped C K n s) :
    Shaped C K n (swap_centroids s) where
  centroids_length := h.new_centroids_length
  new_centroids_length := h.centroids_length
  centroids_rows := h.new_centroids_rows
  new_centroids_rows := h.centroids_rows
  label_length := h.label_length

/-- After a round whose labels are nearest-centroid indices reduced modulo 256, every label is
written and the remap by the engine with the exchanged centroid vectors returns normally. -/
theorem round_remap (C K : Int) (image : Mat) (s s1 s2 : KMeanAlgo) (hK : 1 ≤ K)
    (hk : s.m_nb_centroid = K) (hsh : Shaped C K (image.rows * image.cols) s2)
    (hl : s2.clustered_img = s1.clustered_img)
    (hlab : ∀ p, p < image.rows * image.cols →
      s1.clustered_img.getD p 0 = nrst_at s image p % 256) :
    Labelled K (image.rows * image.cols) (swap_centroids s2) ∧
    ∃ mapped, map_segmentation (swap_centroids s2) image = .ok mapped ∧
      MapPost (swap_centroids s2) (List.range (image.rows * image.cols)) image mapped := by
  have hlabelled : Labelled K (image.rows * image.cols) (swap_centroids s2) := by
    apply labelled_of_nrst K image s _ hK hk
    intro p hp
    show s2.clustered_img.getD p 0 = _
    rw [hl]
    exact hlab p hp
  exact ⟨hlabelled, map_segmentation_ok C K _ image (swap_shaped C K _ s2 hsh) hlabelled⟩

/-- One round of the main loop returns normally, keeps the shape of the engine and leaves every
label written. -/
theorem round_shaped (C K T : Int) (mode : String) (slices : Nat) (image : Mat)
    (sched : Nat → Nat → Nat) (div0 : Nat → Nat) (it : Nat) (s : KMeanAlgo) (hK : 1 ≤ K)
    (hsl : 0 < slices) (hsched : mode = "omp" → ∀ it p, sched it p < slices)
    (hT : mode ≠ "tbb" → T.toNat ≤ slices) (hs : Sized C K T mode slices s)
    (hsh : Shaped C K (image.rows * image.cols) s) :
    ∃ s1 s2, segment (sched it) s image = .ok s1 ∧ compute_centroids div0 s1 = .ok s2 ∧
      Sized C K T mode slices (swap_centroids s2) ∧
      Shaped C K (image.rows * image.cols) (swap_centroids s2) ∧
      Labelled K (image.rows * image.cols) (swap_centroids s2) := by
  obtain ⟨s1, h1, hs1, hsh1, _⟩ := segment_shaped C K T mode slices image (sched it) s hK hs
    hsl (fun hm => hsched hm it) hsh
  have hlab1 := segment_labelled C K T mode slices image (sched it) s s1 hK hs hsl
    (fun hm => hsched hm it) hsh.label_length h1
  obtain ⟨s2, h2, hs2, hsh2, _, _, hl2⟩ := compute_centroids_shaped C K T mode slices _ div0 s1
    hK hs1 hsl hT hsh1
  refine ⟨s1, s2, h1, h2, ⟨hs2.1, hs2.2.1, hs2.2.2.1, hs2.2.2.2.1, hs2.2.2.2.2.1,
    hs2.2.2.2.2.2⟩, swap_shaped C K _ s2 hsh2, ?_⟩
  intro p hp
  show s2.clustered_img.getD p 0 < K.toNat ∧ s2.clustered_img.getD p 0 ≠ unwritten
  rw [hl2]
  exact hlab1 p hp

/-- The main loop returns normally and keeps the shape of the engine; once it has run a round,
every label is written. -/
theorem process_loop_shaped (C K T : Int) (mode : String) (slices : Nat) (image : Mat)
    (sched : Nat → Nat → Nat) (div0 : Nat → Nat) (hK : 1 ≤ K) (hsl : 0 < slices)
    (hsched : mode = "omp" → ∀ it p, sched it p < slices)
    (hT : mode ≠ "tbb" → T.toNat ≤ slices) (n : Nat) (l : Loop)
    (hs : Sized C K T mode slices l.state)
    (hsh : Shaped C K (image.rows * image.cols) l.state)
    (hlab : 1 ≤ l.iter → Labelled K (image.rows * image.cols) l.state) :
    ∃ l', process_loop image sched div0 n l = .ok l' ∧ Sized C K T mode slices l'.state ∧
      Shaped C K (image.rows * image.cols) l'.state ∧
      (1 ≤ l'.iter → Labelled K (image.rows * image.cols) l'.state) := by
  induction n generalizing l with
  | zero => exact ⟨l, rfl, hs, hsh, hlab⟩
  | succ n ih =>
    by_cases hc : l.converged = true
    · rw [process_loop, if_pos hc]
      exact ⟨l, rfl, hs, hsh, hlab⟩
    · have hc' : l.converged = false := by
        cases hb : l.converged with
        | true => exact absurd hb hc
        | false => rfl
      obtain ⟨s1, s2, h1, h2, hs2, hsh2, hlab2⟩ := round_shaped C K T mode slices image sched
        div0 l.iter l.state hK hsl hsched hT hs hsh
      rw [process_loop_round image sched div0 n l s1 s2 hc' h1 h2]
      exact ih _ hs2 hsh2 (fun _ => hlab2)

/-- In the configurations in which the accumulator indices stay in range, the engine that the
main loop of a run of at least one iteration leaves behind is well shaped, its labels are all
written and its remap returns normally. -/
theorem loop_remap (C K M T : Int) (mode : String) (heap : Nat → Nat → Nat) (image : Mat)
    (rnd : Nat → Nat) (sched : Nat → Nat → Nat) (div0 : Nat → Nat)
    (hC : 0 ≤ C) (hK : 1 ≤ K) (hM : 1 ≤ M) (hT : 1 ≤ T)
    (hmode : mode = "tbb" ∨ (mode = "omp" ∧ ∀ it p, sched it p < T.toNat) ∨
      (mode ≠ "omp" ∧ T = 1)) (l : Loop)
    (hl : process_loop image sched div0 M.toNat
      { state := init_centroids image rnd (KMeanAlgo.alloc C K M mode T heap)
        converged := false, iter := 0 } = .ok l) :
    Shaped C K (image.rows * image.cols) l.state ∧
    Labelled K (image.rows * image.cols) l.state ∧
    ∃ mapped, map_segmentation l.state image = .ok mapped ∧
      MapPost l.state (List.range (image.rows * image.cols)) image mapped := by
  obtain ⟨s, hcreate, hmax, hsized⟩ := create_ok C K M T mode heap hC hK hT
  have hs : s = KMeanAlgo.alloc C K M mode T heap := by
    unfold KMeanAlgo.create at hcreate
    by_cases h1 : (if mode = "omp" then K * T else K) < 0
    · rw [if_pos h1] at hcreate
      cases hcreate
    · rw [if_neg h1] at hcreate
      by_cases h2 : 0 < K ∧ C < 0
      · rw [if_pos h2] at hcreate
        cases hcreate
      · rw [if_neg h2] at hcreate
        cases hcreate
        rfl
  subst hs
  have hinit := init_centroids_sized C K T mode _ image rnd
    (KMeanAlgo.alloc C K M mode T heap) M ⟨hsized, hmax⟩
  have hshape := init_shaped C K M T mode heap image rnd
  have hsl : 0 < (if mode = "omp" then T.toNat else 1) := by
    split
    · omega
    · exact Nat.one_pos
  obtain ⟨l', hl', _, hshl, hlabl⟩ := process_loop_shaped C K T mode _ image sched div0 hK hsl
    (by
      intro hm it p
      rw [if_pos hm]
      rcases hmode with h | h | h
      · rw [h] at hm
        exact absurd hm (by decide)
      · exact h.2 it p
      · exact absurd hm h.1)
    (by
      intro hm
      split
      · exact le_refl _
      · rename_i homp
        rcases hmode with h | h | h
        · exact absurd h hm
        · exact absurd h.1 homp
        · rw [h.2]
          decide)
    M.toNat
    { state := init_centroids image rnd (KMeanAlgo.alloc C K M mode T heap)
      converged := false, iter := 0 } hinit.1 hshape
    (fun h => absurd h (Nat.not_succ_le_zero 0))
  rw [hl] at hl'
  cases hl'
  have hiter : 1 ≤ l.iter := by
    have := process_loop_iter image sched div0 _ _ _ hl
    simp only at this
    exact this.2.2 trivial (by omega)
  exact ⟨hshl, hlabl hiter, map_segmentation_ok C K l.state image hshl (hlabl hiter)⟩

/-- In the configurations in which the accumulator indices stay in range, a run of at least one
iteration returns with a well-shaped engine whose labels are all written, and its image is the
remap of the input by that engine. -/
theorem run_shaped (C K M T : Int) (mode : String) (heap : Nat → Nat → Nat) (image : Mat)
    (rnd : Nat → Nat) (sched : Nat → Nat → Nat) (div0 : Nat → Nat)
    (hC : 0 ≤ C) (hK : 1 ≤ K) (hM : 1 ≤ M) (hT : 1 ≤ T)
    (hmode : mode = "tbb" ∨ (mode = "omp" ∧ ∀ it p, sched it p < T.toNat) ∨
      (mode ≠ "omp" ∧ T = 1)) :
    ∃ o, run C K M mode T heap image rnd sched div0 = .ok o ∧
      map_segmentation o.state image = .ok o.image ∧ 1 ≤ o.iter ∧ o.state.nb_channels = C ∧
      Shaped C K (image.rows * image.cols) o.state ∧
      Labelled K (image.rows * image.cols) o.state := by
  obtain ⟨s, hcreate, hmax, hsized⟩ := create_ok C K M T mode heap hC hK hT
  have hs : s = KMeanAlgo.alloc C K M mode T heap := by
    unfold KMeanAlgo.create at hcreate
    by_cases h1 : (if mode = "omp" then K * T else K) < 0
    · rw [if_pos h1] at hcreate
      cases hcreate
    · rw [if_neg h1] at hcreate
      by_cases h2 : 0 < K ∧ C < 0
      · rw [if_pos h2] at hcreate
        cases hcreate
      · rw [if_neg h2] at hcreate
        cases hcreate
        rfl
  have hinit := init_centroids_sized C K T mode _ image rnd s M ⟨hsized, hmax⟩
  have hshape : Shaped C K (image.rows * image.cols) (init_centroids image rnd s) := by
    rw [hs]
    exact init_shaped C K M T mode heap image rnd
  have hsl : 0 < (if mode = "omp" then T.toNat else 1) := by
    split
    · omega
    · exact Nat.one_pos
  obtain ⟨l, hl, hsl', hshl, hlabl⟩ := process_loop_shaped C K T mode _ image sched div0 hK hsl
    (by
      intro hm it p
      rw [if_pos hm]
      rcases hmode with h | h | h
      · rw [h] at hm
        exact absurd hm (by decide)
      · exact h.2 it p
      · exact absurd hm h.1)
    (by
      intro hm
      split
      · exact le_refl _
      · rename_i homp
        rcases hmode with h | h | h
        · exact absurd h hm
        · exact absurd h.1 homp
        · rw [h.2]
          decide)
    s.m_maxiter.toNat
    { state := init_centroids image rnd s, converged := false, iter := 0 } hinit.1 hshape
    (fun h => absurd h (Nat.not_succ_le_zero 0))
  have hiter : 1 ≤ l.iter := by
    have := process_loop_iter image sched div0 _ _ _ hl
    simp only at this
    have hpos : 0 < s.m_maxiter.toNat := by
      rw [hmax]
      omega
    exact this.2.2 trivial hpos
  obtain ⟨mapped, hmap, _⟩ := map_segmentation_ok C K l.state image hshl (hlabl hiter)
  exact ⟨_, run_eq C K M T mode heap image rnd sched div0 s l mapped hcreate hl hmap, hmap,
    hiter, hsl'.1, hshl, hlabl hiter⟩

/-! ## C1: the iteration count -/

/-- C18. For an engine with `K ≥ 1` centroids whose label buffer has one entry per pixel of a
non-empty image, an assignment pass (in any of the three modes) returns normally and leaves in
every entry of the label buffer the index of the nearest centroid reduced modulo 256, which is a
cluster index below `K` and therefore a valid position in the vector of `K` centroids; and when
`process` returns, every label that `map_segmentation` reads is a valid position in the centroid
vector it indexes. -/
theorem segment_labels_in_range (C K M T : Int) (mode : String) (heap : Nat → Nat → Nat)
    (image : Mat) (rnd : Nat → Nat) (sched : Nat → Nat → Nat) (div0 : Nat → Nat)
    (it slices : Nat) (s : KMeanAlgo)
    (hC : C = 1 ∨ C = 3) (hK : 1 ≤ K) (hM : 1 ≤ M) (hT : 1 ≤ T)
    (_himg : 0 < image.rows ∧ 0 < image.cols)
    (hmode : mode = "tbb" ∨ (mode = "omp" ∧ ∀ it p, sched it p < T.toNat) ∨
      (mode ≠ "omp" ∧ T = 1))
    (hs : Sized C K T mode slices s) (hsl : 0 < slices)
    (hsched : mode = "omp" → ∀ p, sched it p < slices)
    (hlab : s.clustered_img.length = image.rows * image.cols)
    (hcen : s.centroids.length = K.toNat) :
    (∃ s', segment (sched it) s image = .ok s' ∧
      s'.clustered_img.length = image.rows * image.cols ∧
      s'.centroids.length = K.toNat ∧
      ∀ p, p < image.rows * image.cols →
        s'.clustered_img.getD p 0 = nrst_at s image p % 256 ∧
        s'.clustered_img.getD p 0 < K.toNat ∧
        s'.clustered_img.getD p 0 < s'.centroids.length) ∧
    (∃ o, run C K M mode T heap image rnd sched div0 = .ok o ∧
      o.state.centroids.length = K.toNat ∧
      ∀ p, p < image.rows * image.cols →
        o.state.clustered_img.getD p 0 < o.state.centroids.length) := by
  constructor
  · obtain ⟨s', h, _, h1, _, _, h4, h5⟩ :=
      segment_labels C K T mode slices image (sched it) s hK hs hsl hsched hlab
    refine ⟨s', h, h4, by rw [h1]; exact hcen, ?_⟩
    intro p hp
    have hlt : s'.clustered_img.getD p 0 < K.toNat := by
      rw [h5 p hp]
      have := nrst_at_lt s image p (by rw [hs.2.2.2.1]; exact hK)
      rw [hs.2.2.2.1] at this
      exact lt_of_le_of_lt (Nat.mod_le _ _) this
    exact ⟨h5 p hp, hlt, by rw [h1, hcen]; exact hlt⟩
  · obtain ⟨o, ho, _, _, _, hsh, hlab⟩ := run_shaped C K M T mode heap image rnd sched div0
      (by omega) hK hM hT hmode
    refine ⟨o, ho, hsh.centroids_length, ?_⟩
    intro p hp
    rw [hsh.centroids_length]
    exact (hlab p hp).1

/-- C18, instance: the pass over the scenario image with the centroids 10 and 200 labels the
pixels 0, 0, 1, 1. -/
theorem segment_labels_in_range_witness :
    (segment (noSched 0) accEngine image4).map (fun s => s.clustered_img) = .ok [0, 0, 1, 1] ∧
    ∃ s', segment (noSched 0) accEngine image4 = .ok s' ∧
      ∀ p, p < 4 → s'.clustered_img.getD p 0 < 2 := by
  refine ⟨by decide, ?_⟩
  obtain ⟨s', h, _, _, hl⟩ := (segment_labels_in_range 1 2 10 1 "serial" zeroHeap image4
    (rndOf [0, 0, 1, 0]) noSched div0Zero 0 1 accEngine (by decide) (by decide) (by decide)
    (by decide) (by decide) (Or.inr (Or.inr ⟨by decide, rfl⟩)) ⟨rfl, rfl, rfl, rfl, rfl, rfl⟩
    (by decide) (fun h => absurd h (by decide)) rfl rfl).1
  exact ⟨s', h, fun p hp => (hl p hp).2.1⟩

/-! ## C20: the colours of the output -/

/-- C20. For a well-formed non-empty image (one pixel of `C` channels per position), `K ≥ 1` and
`max_iterations ≥ 1`, `process` returns after at least one iteration and every pixel of the output
image is one of the `K` final centroids, so that the output holds at most `K` different
colours. -/
theorem process_output_colours (C K M T : Int) (mode : String) (heap : Nat → Nat → Nat)
    (image : Mat) (rnd : Nat → Nat) (sched : Nat → Nat → Nat) (div0 : Nat → Nat)
    (hC : C = 1 ∨ C = 3) (hK : 1 ≤ K) (hM : 1 ≤ M) (hT : 1 ≤ T)
    (_himg : 0 < image.rows ∧ 0 < image.cols)
    (hdata : image.data.length = image.rows * image.cols)
    (hpix : ∀ p, p < image.rows * image.cols → (image.data.getD p []).length = C.toNat)
    (hmode : mode = "tbb" ∨ (mode = "omp" ∧ ∀ it p, sched it p < T.toNat) ∨
      (mode ≠ "omp" ∧ T = 1)) :
    ∃ o, run C K M mode T heap image rnd sched div0 = .ok o ∧ 1 ≤ o.iter ∧
      o.state.centroids.length = K.toNat ∧
      (∀ p, p < image.rows * image.cols →
        ∃ k, k < K.toNat ∧ o.image.data.getD p [] = o.state.centroids.getD k []) ∧
      o.image.data.dedup.length ≤ K.toNat := by
  obtain ⟨o, ho, him, hiter, hCo, hsh, hlab⟩ := run_shaped C K M T mode heap image rnd sched
    div0 (by omega) hK hM hT hmode
  have hpixel : ∀ p, p < image.rows * image.cols →
      o.image.data.getD p [] = o.state.centroids.getD (o.state.clustered_img.getD p 0) [] := by
    intro p hp
    exact map_segmentation_pixel C K o.state image o.image p hCo hsh hlab him hp hdata
      (hpix p hp)
  refine ⟨o, ho, hiter, hsh.centroids_length, ?_, ?_⟩
  · intro p hp
    exact ⟨_, (hlab p hp).1, hpixel p hp⟩
  · have hlen : o.image.data.length = image.rows * image.cols := by
      obtain ⟨mapped, hmap, post⟩ := map_segmentation_ok C K o.state image hsh hlab
      rw [him] at hmap
      cases hmap
      rw [post.length, hdata]
    have hsub : o.image.data.dedup ⊆ o.state.centroids := by
      intro x hx
      have hx' : x ∈ o.image.data := List.mem_dedup.1 hx
      obtain ⟨p, hp, rfl⟩ := List.mem_iff_getElem.1 hx'
      have hp' : p < image.rows * image.cols := by rw [← hlen]; exact hp
      have h1 := hpixel p hp'
      rw [List.getD_eq_getElem _ _ hp] at h1
      rw [h1]
      have hk : o.state.clustered_img.getD p 0 < o.state.centroids.length := by
        rw [hsh.centroids_length]
        exact (hlab p hp').1
      rw [List.getD_eq_getElem _ _ hk]
      exact List.getElem_mem _
    have := ((List.nodup_dedup o.image.data).subperm hsub).length_le
    rw [hsh.centroids_length] at this
    exact this

/-- C20, instance: the scenario image with two centroids comes back with at most two colours. -/
theorem process_output_colours_witness :
    ∃ o, run 1 2 10 "serial" 1 zeroHeap image4 (rndOf [0, 0, 1, 0]) noSched div0Zero = .ok o ∧
      o.image.data.dedup.length ≤ 2 := by
  obtain ⟨o, ho, _, _, _, h⟩ := process_output_colours 1 2 10 1 "serial" zeroHeap image4
    (rndOf [0, 0, 1, 0]) noSched div0Zero (by decide) (by decide) (by decide) (by decide)
    (by decide) (by decide) (by decide) (Or.inr (Or.inr ⟨by decide, rfl⟩))
  exact ⟨o, ho, h⟩

/-! ## Lemmas: the totals of a cluster after an assignment pass -/

theorem sum_range_single (T w x : Nat) :
    ((List.range T).map (fun th => if th = w then x else 0)).sum = if w < T then x else 0 := by
  induction T with
  | zero => simp
  | succ T ih =>
    rw [List.range_succ, List.map_append, List.sum_append, ih]
    simp only [List.map_cons, List.map_nil, List.sum_cons, List.sum_nil, Nat.add_zero]
    by_cases h1 : w < T
    · have h2 : ¬ T = w := by omega
      have h3 : w < T + 1 := by omega
      simp [h1, h2, h3]
    · by_cases h2 : T = w
      · have h3 : w < T + 1 := by omega
        simp [h1, h2, h3]
      · have h3 : ¬ w < T + 1 := by omega
        simp [h1, h2, h3]

/-- Summing the slots of cluster `c` over the slices gives the total over the pixels assigned to
`c`, whatever the slice each pixel went to. -/
theorem sum_slices (K T c : Nat) (w g v : Nat → Nat) (l : List Nat)
    (hw : ∀ p, p ∈ l → w p < T) (hg : ∀ p, p ∈ l → g p < K) (hc : c < K) :
    ((List.range T).map (fun th =>
      (l.map (fun p => if w p * K + g p = th * K + c then v p else 0)).sum)).sum
      = (l.map (fun p => if g p = c then v p else 0)).sum := by
  induction l with
  | nil => simp
  | cons a l ih =>
    simp only [List.map_cons, List.sum_cons]
    rw [List.sum_map_add, ih (fun p hp => hw p (List.mem_cons_of_mem _ hp))
      (fun p hp => hg p (List.mem_cons_of_mem _ hp))]
    congr 1
    have hga := hg a (List.mem_cons_self _ _)
    have hwa := hw a (List.mem_cons_self _ _)
    have hmap : (List.range T).map (fun th => if w a * K + g a = th * K + c then v a else 0)
        = (List.range T).map (fun th => if th = w a then (if g a = c then v a else 0) else 0) := by
      apply List.map_congr_left
      intro th _
      by_cases h : w a * K + g a = th * K + c
      · have h1 := slot_cluster K _ _ _ _ hga hc h
        have h2 : w a = th := by
          rw [h1] at h
          exact slot_injective K c _ _ (by omega) h
        simp [h, h1, h2]
      · by_cases h2 : th = w a
        · have h3 : ¬ g a = c := by
            intro h4
            apply h
            rw [h2, h4]
          simp [h, h2, h3]
        · simp [h, h2]
    rw [hmap, sum_range_single, if_pos hwa]

theorem thread_range_eq (s : KMeanAlgo) (h : s.mode ≠ "tbb") :
    thread_range s = List.range s.nb_threads.toNat := by
  unfold thread_range
  rw [if_neg h]

/-- After an assignment pass of the serial / OpenMP loop that started with cleared accumulators,
the totals that `compute_centroids` folds for cluster `c` are the number of pixels nearest to
`c` and the sums of their channels. -/
theorem pass_totals (C K T : Int) (mode : String) (slices : Nat) (image : Mat)
    (sched : Nat → Nat) (s s' : KMeanAlgo) (hK : 1 ≤ K) (hs : Sized C K T mode slices s)
    (hmode : mode ≠ "tbb") (hw : ∀ p, worker mode sched p < T.toNat)
    (hclr : Cleared s) (hrows : RowsOf C.toNat s.clst_colorsum)
    (post : PassPost image sched (List.range (image.rows * image.cols)) s s')
    (c : Nat) (hc : c < K.toNat) :
    total_count s' c = cluster_count s image c ∧
    ∀ ch, ch < C.toNat → total_sum s' c ch = cluster_sum s image c ch := by
  obtain ⟨hC, hm, hT, hk, _, _⟩ := hs
  have hthr : thread_range s' = List.range T.toNat := by
    rw [thread_range_eq s' (by rw [post.mode, hm]; exact hmode), post.nb_threads, hT]
  have hg : ∀ p, p ∈ List.range (image.rows * image.cols) → nrst_at s image p < K.toNat := by
    intro p _
    have := nrst_at_lt s image p (by rw [hk]; exact hK)
    rwa [hk] at this
  constructor
  · unfold total_count cluster_count
    rw [hthr, post.m_nb_centroid, hk]
    have hmap : (List.range T.toNat).map (fun th => s'.clst_count.getD (th * K.toNat + c) 0)
        = (List.range T.toNat).map (fun th =>
          ((List.range (image.rows * image.cols)).map (fun p =>
            if worker mode sched p * K.toNat + nrst_at s image p = th * K.toNat + c
            then 1 else 0)).sum) := by
      apply List.map_congr_left
      intro th _
      rw [post.count, hclr.1, Nat.zero_add]
      simp only [slot_of, hm, hk]
    rw [hmap]
    exact sum_slices K.toNat T.toNat c (worker mode sched) (nrst_at s image) (fun _ => 1) _
      (fun p _ => hw p) hg hc
  · intro ch hch
    unfold total_sum cluster_sum
    rw [hthr, post.m_nb_centroid, hk]
    have hmap : (List.range T.toNat).map
          (fun th => cell s'.clst_colorsum (th * K.toNat + c) ch)
        = (List.range T.toNat).map (fun th =>
          ((List.range (image.rows * image.cols)).map (fun p =>
            if worker mode sched p * K.toNat + nrst_at s image p = th * K.toNat + c
            then (image.data.getD p []).getD ch 0 else 0)).sum) := by
      apply List.map_congr_left
      intro th _
      rw [post.sum (by rw [hC]; exact hrows) _ ch (by rw [hC]; exact hch),
        hclr.2 _ ch (by rw [hC]; exact hch), Nat.zero_add]
      simp only [slot_of, hm, hk]
    rw [hmap]
    exact sum_slices K.toNat T.toNat c (worker mode sched) (nrst_at s image)
      (fun p => (image.data.getD p []).getD ch 0) _ (fun p _ => hw p) hg hc

theorem cluster_totals_congr (s r : KMeanAlgo) (image : Mat) (c : Nat)
    (hC : r.nb_channels = s.nb_channels) (hK : r.m_nb_centroid = s.m_nb_centroid)
    (hc : r.centroids = s.centroids) :
    cluster_count r image c = cluster_count s image c ∧
    ∀ ch, cluster_sum r image c ch = cluster_sum s image c ch := by
  have h : ∀ p, nrst_at r image p = nrst_at s image p :=
    fun p => nrst_centroid_index_congr r s image _ _ hC hK hc
  constructor
  · simp only [cluster_count, h]
  · intro ch
    simp only [cluster_sum, h]

/-- An assignment pass of the serial / OpenMP loop that starts with cleared accumulators,
followed by `compute_centroids`: both return normally, the new centroid of every cluster is the
quotient of the sum by the number of the pixels nearest to it, and every slot is zero again. -/
theorem pass_compute_spec (C K T : Int) (mode : String) (image : Mat) (sched : Nat → Nat)
    (div0 : Nat → Nat) (s : KMeanAlgo) (hK : 1 ≤ K) (hT : 1 ≤ T)
    (hs : Sized C K T mode T.toNat s) (hmode : mode ≠ "tbb")
    (hw : ∀ p, worker mode sched p < T.toNat) (hclr : Cleared s)
    (hrows : RowsOf C.toNat s.clst_colorsum) (hnew : s.new_centroids.length = K.toNat)
    (hnewrows : RowsOf C.toNat s.new_centroids) :
    ∃ s1 s2, segment sched s image = .ok s1 ∧ compute_centroids div0 s1 = .ok s2 ∧
      PassPost image sched (List.range (image.rows * image.cols)) s s1 ∧
      Sized C K T mode T.toNat s2 ∧
      s2.centroids = s.centroids ∧ s2.clustered_img = s1.clustered_img ∧
      s2.m_maxiter = s.m_maxiter ∧
      s2.new_centroids.length = K.toNat ∧ RowsOf C.toNat s2.new_centroids ∧
      (∀ c, c < K.toNat → ∀ ch, ch < C.toNat →
        cell s2.new_centroids c ch
          = quotByte div0 (cluster_sum s image c ch) (cluster_count s image c)) ∧
      ∀ q, q < T.toNat * K.toNat →
        s2.clst_count.getD q 0 = 0 ∧ ∀ ch, ch < C.toNat → cell s2.clst_colorsum q ch = 0 := by
  have hTpos : 0 < T.toNat := by omega
  obtain ⟨s1, h1, post⟩ := segment_loops_spec C K T mode T.toNat image sched s hK hs hTpos
    (by
      intro hm p
      have := hw p
      unfold worker at this
      rwa [if_pos hm] at this)
  have hs1 : Sized C K T mode T.toNat s1 :=
    ⟨by rw [post.nb_channels]; exact hs.1, by rw [post.mode]; exact hs.2.1,
      by rw [post.nb_threads]; exact hs.2.2.1, by rw [post.m_nb_centroid]; exact hs.2.2.2.1,
      by rw [post.count_length]; exact hs.2.2.2.2.1,
      by rw [post.sum_length]; exact hs.2.2.2.2.2⟩
  have hk1 : s1.m_nb_centroid = K := hs1.2.2.2.1
  have hC1 : s1.nb_channels = C := hs1.1
  obtain ⟨cnt, cs, nc, e, b1, b2, b3, _, _, b6⟩ :=
    fold_centroids_spec div0 (List.range K.toNat) (List.nodup_range _) s1
      (fun c hc => by rw [hk1]; exact List.mem_range.1 hc)
      (fun c hc => by rw [post.new_centroids, hnew]; exact List.mem_range.1 hc)
      (fun c hc => by
        rw [hC1, post.new_centroids, hnewrows c (by rw [hnew]; exact List.mem_range.1 hc)])
  have heq := compute_centroids_eq C K T mode T.toNat div0 s1 hK hs1 hTpos (fun _ => le_refl _)
  obtain ⟨s2, h2, hs2⟩ := compute_centroids_ok C K T mode T.toNat div0 s1 hK hs1 hTpos
    (fun _ => le_refl _)
  rw [e] at heq
  rw [heq] at h2
  cases h2
  have hseg : segment sched s image = .ok s1 := by
    unfold segment
    rw [if_neg (by rw [hs.2.1]; exact hmode)]
    exact h1
  have hthr : thread_range s1 = List.range T.toNat := by
    rw [thread_range_eq s1 (by rw [hs1.2.1]; exact hmode), hs1.2.2.1]
  refine ⟨s1, _, hseg, heq, post, hs2, post.centroids, rfl, post.m_maxiter, ?_, ?_, ?_, ?_⟩
  · show nc.length = _
    rw [b1, post.new_centroids, hnew]
  · intro q hq
    show (nc.getD q []).length = _
    rw [b2 q, post.new_centroids]
    exact hnewrows q (by
      have : nc.length = s.new_centroids.length := by rw [b1, post.new_centroids]
      rw [← this]
      exact hq)
  · intro c hc ch hch
    show cell nc c ch = _
    obtain ⟨t1, t2⟩ := pass_totals C K T mode T.toNat image sched s s1 hK hs hmode hw hclr
      hrows post c hc
    rw [b3 c (List.mem_range.2 hc) ch (by rw [hC1]; exact hch), t1, t2 ch hch]
  · intro q hq
    have hKpos : 0 < K.toNat := by omega
    have hq1 : q / K.toNat < T.toNat := by
      apply Nat.div_lt_of_lt_mul
      rw [Nat.mul_comm]
      exact hq
    have hq2 : q % K.toNat < K.toNat := Nat.mod_lt _ hKpos
    have hq3 : q / K.toNat * K.toNat + q % K.toNat = q := Nat.div_add_mod' q K.toNat
    obtain ⟨z1, z2⟩ := b6 (q % K.toNat) (List.mem_range.2 hq2) (q / K.toNat)
      (by rw [hthr]; exact List.mem_range.2 hq1)
    rw [hk1, hq3] at z1 z2
    rw [hC1] at z2
    exact ⟨z1, z2⟩

theorem cell_replicate_zero (m c q ch : Nat) :
    cell (List.replicate m (List.replicate c 0)) q ch = 0 := by
  unfold cell
  by_cases hq : q < m
  · have e : (List.replicate m (List.replicate c 0)).getD q [] = List.replicate c 0 := by
      rw [List.getD_eq_getElem _ _ (by rw [List.length_replicate]; exact hq),
        List.getElem_replicate]
    rw [e]
    exact getD_replicate_zero c ch
  · have e : (List.replicate m (List.replicate c 0)).getD q [] = [] :=
      List.getD_eq_default _ _ (by rw [List.length_replicate]; omega)
    rw [e]
    rfl

/-- Accumulators made of zeros are cleared. -/
theorem cleared_of_replicate (s : KMeanAlgo) (a b c : Nat)
    (h1 : s.clst_count = List.replicate a 0)
    (h2 : s.clst_colorsum = List.replicate b (List.replicate c 0)) : Cleared s := by
  constructor
  · intro q
    rw [h1]
    exact getD_replicate_zero a q
  · intro q ch _
    rw [h2]
    exact cell_replicate_zero b c q ch

/-! ## C16: the fold of the worker slices -/

/-- C16. Take a worker-pool engine with `W ≥ 1` workers (`K * W` cleared accumulator slots) and a
serial engine (`K` cleared slots) with the same centroids.  For every distribution `sched` of the
pixels among the worker numbers below `W`, the assignment pass followed by `compute_centroids`
returns normally in both engines (no index leaves the `K * W` slots), the new centroids of the
worker-pool engine are those of the serial engine on every cluster and channel, and all `K * W`
count slots and colour-sum cells are zero afterwards. -/
theorem worker_pool_fold (C K W : Int) (image : Mat) (sched : Nat → Nat) (div0 : Nat → Nat)
    (s r : KMeanAlgo) (hK : 1 ≤ K) (hW : 1 ≤ W)
    (hs : Sized C K W "omp" W.toNat s) (hr : Sized C K 1 "serial" 1 r)
    (hsched : ∀ p, sched p < W.toNat) (hcen : r.centroids = s.centroids)
    (hclr_s : Cleared s) (hclr_r : Cleared r)
    (hrows_s : RowsOf C.toNat s.clst_colorsum) (hrows_r : RowsOf C.toNat r.clst_colorsum)
    (hnew_s : s.new_centroids.length = K.toNat ∧ RowsOf C.toNat s.new_centroids)
    (hnew_r : r.new_centroids.length = K.toNat ∧ RowsOf C.toNat r.new_centroids) :
    ∃ s1 s2 r1 r2, segment sched s image = .ok s1 ∧ compute_centroids div0 s1 = .ok s2 ∧
      segment sched r image = .ok r1 ∧ compute_centroids div0 r1 = .ok r2 ∧
      (∀ c, c < K.toNat → ∀ ch, ch < C.toNat →
        cell s2.new_centroids c ch = cell r2.new_centroids c ch) ∧
      s2.clst_count.length = W.toNat * K.toNat ∧
      s2.clst_colorsum.length = W.toNat * K.toNat ∧
      ∀ q, q < W.toNat * K.toNat →
        s2.clst_count.getD q 0 = 0 ∧ ∀ ch, ch < C.toNat → cell s2.clst_colorsum q ch = 0 := by
  obtain ⟨s1, s2, a1, a2, _, a4, _, _, _, _, _, a10, a11⟩ :=
    pass_compute_spec C K W "omp" image sched div0 s hK hW hs (by decide)
      (by
        intro p
        unfold worker
        rw [if_pos rfl]
        exact hsched p)
      hclr_s hrows_s hnew_s.1 hnew_s.2
  obtain ⟨r1, r2, c1, c2, _, _, _, _, _, _, _, c10, _⟩ :=
    pass_compute_spec C K 1 "serial" image sched div0 r hK (le_refl _) hr (by decide)
      (by
        intro p
        unfold worker
        rw [if_neg (by decide)]
        decide)
      hclr_r hrows_r hnew_r.1 hnew_r.2
  refine ⟨s1, s2, r1, r2, a1, a2, c1, c2, ?_, a4.2.2.2.2.1, a4.2.2.2.2.2, a11⟩
  intro c hc ch hch
  obtain ⟨e1, e2⟩ := cluster_totals_congr s r image c (by rw [hr.1, hs.1])
    (by rw [hr.2.2.2.1, hs.2.2.2.1]) hcen
  rw [a10 c hc ch hch, c10 c hc ch hch, e1, e2 ch]

/-- C16, instance: two workers taking the pixels of the scenario image in turn, centroids 10 and
200; the fold gives the centroids 11 and 205 of the serial pass. -/
theorem worker_pool_fold_witness :
    ((segment (fun p => p % 2) poolEngine image4).bind (compute_centroids div0Zero)).map
      (fun s => (s.new_centroids, s.clst_count, s.clst_colorsum))
      = .ok ([[11], [205]], [0, 0, 0, 0], [[0], [0], [0], [0]]) ∧
    ∃ s1 s2 r1 r2, segment (fun p => p % 2) poolEngine image4 = .ok s1 ∧
      compute_centroids div0Zero s1 = .ok s2 ∧
      segment (fun p => p % 2) serialEngine image4 = .ok r1 ∧
      compute_centroids div0Zero r1 = .ok r2 ∧
      ∀ c, c < 2 → cell s2.new_centroids c 0 = cell r2.new_centroids c 0 := by
  refine ⟨by decide, ?_⟩
  obtain ⟨s1, s2, r1, r2, h1, h2, h3, h4, h5, _⟩ := worker_pool_fold 1 2 2 image4
    (fun p => p % 2) div0Zero poolEngine serialEngine (by decide) (by decide)
    ⟨rfl, rfl, rfl, rfl, rfl, rfl⟩ ⟨rfl, rfl, rfl, rfl, rfl, rfl⟩
    (fun p => Nat.mod_lt p (by decide)) rfl
    (cleared_of_replicate poolEngine 4 4 1 rfl rfl)
    (cleared_of_replicate serialEngine 2 2 1 rfl rfl)
    (rowsOf_replicate 4 1) (rowsOf_replicate 2 1)
    ⟨rfl, rowsOf_replicate 2 1⟩ ⟨rfl, rowsOf_replicate 2 1⟩
  exact ⟨s1, s2, r1, r2, h1, h2, h3, h4, fun c hc => h5 c hc 0 (by decide)⟩

/-! ## Lemmas: the totals of a cluster after the TBB reductions -/

theorem foldl_add_eq_sum (g : Nat → Nat) (l : List Nat) (a : Nat) :
    l.foldl (fun total i => total + g i) a = a + (l.map g).sum := by
  induction l generalizing a with
  | nil => simp
  | cons b l ih =>
    rw [List.foldl_cons, ih, List.map_cons, List.sum_cons, Nat.add_assoc]

theorem tbb_count_eq (labels : List Nat) (n cent : Nat) :
    tbb_count labels n cent
      = ((List.range n).map (fun i => if labels.getD i 0 = cent then 1 else 0)).sum := by
  unfold tbb_count
  rw [foldl_add_eq_sum (fun i => if labels.getD i 0 = cent then 1 else 0), Nat.zero_add]

theorem tbb_colorsum_eq (s : KMeanAlgo) (image : Mat) (labels : List Nat) (n cent ch : Nat)
    (hch : ch < s.nb_channels.toNat) :
    tbb_colorsum s image labels n cent ch
      = ((List.range n).map (fun i =>
          if labels.getD i 0 = cent then (image.data.getD i []).getD ch 0 else 0)).sum := by
  unfold tbb_colorsum
  have hfun : (fun (total : Nat) (i : Nat) =>
        if labels.getD i 0 = cent then
          (if s.nb_channels = 1 then
            total + (image.pixel (i / image.cols) (i % image.cols)).getD 0 0
           else total + (image.pixel (i / image.cols) (i % image.cols)).getD ch 0)
        else total)
      = (fun total i => total +
          (if labels.getD i 0 = cent then (image.data.getD i []).getD ch 0 else 0)) := by
    funext total i
    rw [pixel_linear]
    by_cases h : labels.getD i 0 = cent
    · rw [if_pos h, if_pos h]
      by_cases h1 : s.nb_channels = 1
      · have hch0 : ch = 0 := by
          rw [h1] at hch
          have : (1 : Int).toNat = 1 := rfl
          omega
        rw [if_pos h1, hch0]
      · rw [if_neg h1]
    · rw [if_neg h, if_neg h, Nat.add_zero]
  rw [hfun, foldl_add_eq_sum, Nat.zero_add]

theorem thread_range_tbb (s : KMeanAlgo) (h : s.mode = "tbb") (hT : 1 ≤ s.nb_threads) :
    thread_range s = [0] := by
  unfold thread_range
  rw [if_pos h, List.take_range]
  have : min 1 s.nb_threads.toNat = 1 := by omega
  rw [this]
  rfl

/-- After the TBB branch of `segment`, the totals that `compute_centroids` folds for cluster `c`
are the number of pixels labelled `c` and the sums of their channels; with at most 256 centroids
the label of a pixel is the index of its nearest centroid. -/
theorem tbb_totals (C K T : Int) (mode : String) (slices : Nat) (image : Mat)
    (s s' : KMeanAlgo) (hK : 1 ≤ K) (hK256 : K ≤ 256) (hT : 1 ≤ T)
    (hs : Sized C K T mode slices s) (hmode : mode = "tbb")
    (hrows : RowsOf C.toNat s.clst_colorsum)
    (post : TbbPost s image (tbb_labels s image) (image.rows * image.cols)
      (List.range K.toNat) { s with clustered_img := tbb_labels s image } s')
    (c : Nat) (hc : c < K.toNat) :
    total_count s' c = cluster_count s image c ∧
    ∀ ch, ch < C.toNat → total_sum s' c ch = cluster_sum s image c ch := by
  obtain ⟨hC, hm, hTs, hk, _, _⟩ := hs
  have hthr : thread_range s' = [0] :=
    thread_range_tbb s' (by rw [post.mode]; exact hm.trans hmode)
      (by rw [post.nb_threads]; show 1 ≤ s.nb_threads; rw [hTs]; exact hT)
  have hlab : ∀ p, p ∈ List.range (image.rows * image.cols) →
      (tbb_labels s image).getD p 0 = nrst_at s image p := by
    intro p hp
    rw [tbb_labels_getD s image p (List.mem_range.1 hp)]
    apply Nat.mod_eq_of_lt
    have := nrst_at_lt s image p (by rw [hk]; exact hK)
    rw [hk] at this
    omega
  constructor
  · unfold total_count cluster_count
    rw [hthr]
    simp only [List.map_cons, List.map_nil, List.sum_cons, List.sum_nil, Nat.zero_mul,
      Nat.zero_add, Nat.add_zero]
    rw [post.count_in c (List.mem_range.2 hc), tbb_count_eq]
    apply congrArg
    apply List.map_congr_left
    intro p hp
    rw [hlab p hp]
  · intro ch hch
    unfold total_sum cluster_sum
    rw [hthr]
    simp only [List.map_cons, List.map_nil, List.sum_cons, List.sum_nil, Nat.zero_mul,
      Nat.zero_add, Nat.add_zero]
    rw [post.sum_in (by show RowsOf s.nb_channels.toNat s.clst_colorsum; rw [hC]; exact hrows)
      c (List.mem_range.2 hc) ch (by show ch < s.nb_channels.toNat; rw [hC]; exact hch),
      tbb_colorsum_eq s image _ _ c ch (by rw [hC]; exact hch)]
    apply congrArg
    apply List.map_congr_left
    intro p hp
    rw [hlab p hp]

/-! ## Lemmas: one round of the main loop -/

theorem take_thread_rows (n i th : Nat) (t : Temp) (h : RowsOf n t.state.clst_colorsum) :
    RowsOf n (take_thread i t th).state.clst_colorsum := by
  unfold take_thread
  generalize th * t.state.m_nb_centroid.toNat + i = idx
  have key : ∀ (l : List Nat) (t1 : Temp), RowsOf n t1.state.clst_colorsum →
      RowsOf n (l.foldl (fun t1 ch => take_channel t1 idx ch) t1).state.clst_colorsum := by
    intro l
    induction l with
    | nil => intro t1 h1; exact h1
    | cons a l ih =>
      intro t1 h1
      rw [List.foldl_cons]
      apply ih
      exact rowsOf_setCell n _ _ _ _ h1
  exact key _ _ h

theorem fold_centroid_rows (n : Nat) (div0 : Nat → Nat) (s : KMeanAlgo) (i : Nat)
    (h : RowsOf n s.clst_colorsum) : RowsOf n (fold_centroid div0 s i).clst_colorsum := by
  unfold fold_centroid store_centroid
  have key : ∀ (l : List Nat) (t : Temp), RowsOf n t.state.clst_colorsum →
      RowsOf n (l.foldl (take_thread i) t).state.clst_colorsum := by
    intro l
    induction l with
    | nil => intro t ht; exact ht
    | cons a l ih =>
      intro t ht
      rw [List.foldl_cons]
      exact ih _ (take_thread_rows n i a t ht)
  exact key _ _ h

theorem fold_centroids_rows (n : Nat) (div0 : Nat → Nat) (l : List Nat) (s : KMeanAlgo)
    (h : RowsOf n s.clst_colorsum) :
    RowsOf n (l.foldl (fold_centroid div0) s).clst_colorsum := by
  induction l generalizing s with
  | nil => exact h
  | cons a l ih =>
    rw [List.foldl_cons]
    exact ih _ (fold_centroid_rows n div0 s a h)

/-- `compute_centroids` on an engine with `slices` slices, all of them folded: it returns
normally, stores for every cluster the quotient of its totals, keeps the shapes and leaves the
accumulators cleared. -/
theorem compute_centroids_spec (C K T : Int) (mode : String) (slices n : Nat)
    (div0 : Nat → Nat) (s1 : KMeanAlgo) (hK : 1 ≤ K) (hT : 1 ≤ T)
    (hsl : (mode = "tbb" ∧ slices = 1) ∨ (mode ≠ "tbb" ∧ slices = T.toNat))
    (h : Ready C K T mode slices n s1) :
    ∃ s2, compute_centroids div0 s1 = .ok s2 ∧ Ready C K T mode slices n s2 ∧ Cleared s2 ∧
      s2.centroids = s1.centroids ∧ s2.clustered_img = s1.clustered_img ∧
      s2.m_maxiter = s1.m_maxiter ∧
      ∀ c, c < K.toNat → ∀ ch, ch < C.toNat →
        cell s2.new_centroids c ch
          = quotByte div0 (total_sum s1 c ch) (total_count s1 c) := by
  obtain ⟨hs1, hsh, hrows⟩ := h
  have hk1 : s1.m_nb_centroid = K := hs1.2.2.2.1
  have hC1 : s1.nb_channels = C := hs1.1
  have hslpos : 0 < slices := by
    rcases hsl with h | h
    · rw [h.2]
      exact Nat.one_pos
    · rw [h.2]
      omega
  have hTle : mode ≠ "tbb" → T.toNat ≤ slices := by
    intro hm
    rcases hsl with h | h
    · exact absurd h.1 hm
    · rw [h.2]
  obtain ⟨cnt, cs, nc, e, b1, b2, b3, _, _, b6⟩ :=
    fold_centroids_spec div0 (List.range K.toNat) (List.nodup_range _) s1
      (fun c hc => by rw [hk1]; exact List.mem_range.1 hc)
      (fun c hc => by rw [hsh.new_centroids_length]; exact List.mem_range.1 hc)
      (fun c hc => by
        rw [hC1, hsh.new_centroids_rows c
          (by rw [hsh.new_centroids_length]; exact List.mem_range.1 hc)])
  have hrows2 := fold_centroids_rows C.toNat div0 (List.range K.toNat) s1 hrows
  have heq := compute_centroids_eq C K T mode slices div0 s1 hK hs1 hslpos hTle
  obtain ⟨s2, h2, hs2⟩ := compute_centroids_ok C K T mode slices div0 s1 hK hs1 hslpos hTle
  rw [e] at heq hrows2
  rw [heq] at h2
  cases h2
  -- every slot belongs to a slice that the loop over `th` visits
  have hslot : ∀ q, q < slices * K.toNat →
      cnt.getD q 0 = 0 ∧ ∀ ch, ch < C.toNat → cell cs q ch = 0 := by
    intro q hq
    have hKpos : 0 < K.toNat := by omega
    have hq1 : q / K.toNat < slices := by
      apply Nat.div_lt_of_lt_mul
      rw [Nat.mul_comm]
      exact hq
    have hq2 : q % K.toNat < K.toNat := Nat.mod_lt _ hKpos
    have hq3 : q / K.toNat * K.toNat + q % K.toNat = q := Nat.div_add_mod' q K.toNat
    have hmem : q / K.toNat ∈ thread_range s1 := by
      rcases hsl with h | h
      · rw [thread_range_tbb s1 (hs1.2.1.trans h.1) (by rw [hs1.2.2.1]; exact hT)]
        rw [h.2] at hq1
        have : q / K.toNat = 0 := Nat.lt_one_iff.1 hq1
        rw [this]
        exact List.mem_cons_self _ _
      · rw [thread_range_eq s1 (by rw [hs1.2.1]; exact h.1), hs1.2.2.1, ← h.2]
        exact List.mem_range.2 hq1
    obtain ⟨z1, z2⟩ := b6 (q % K.toNat) (List.mem_range.2 hq2) (q / K.toNat) hmem
    rw [hk1, hq3] at z1 z2
    rw [hC1] at z2
    exact ⟨z1, z2⟩
  refine ⟨_, heq, ⟨hs2, ?_, hrows2⟩, ?_, rfl, rfl, rfl, ?_⟩
  · exact {
      centroids_length := hsh.centroids_length
      new_centroids_length := by
        show nc.length = _
        rw [b1]
        exact hsh.new_centroids_length
      centroids_rows := hsh.centroids_rows
      new_centroids_rows := by
        intro q hq
        show (nc.getD q []).length = _
        rw [b2 q]
        exact hsh.new_centroids_rows q (by rw [← b1]; exact hq)
      label_length := hsh.label_length }
  · constructor
    · intro q
      show cnt.getD q 0 = 0
      by_cases hq : q < slices * K.toNat
      · exact (hslot q hq).1
      · have hlen : cnt.length = slices * K.toNat := hs2.2.2.2.2.1
        exact List.getD_eq_default _ _ (by omega)
    · intro q ch hch
      show cell cs q ch = 0
      by_cases hq : q < slices * K.toNat
      · exact (hslot q hq).2 ch (by rw [← hC1]; exact hch)
      · have hlen : cs.length = slices * K.toNat := hs2.2.2.2.2.2
        unfold cell
        rw [List.getD_eq_default cs [] (by omega : cs.length ≤ q)]
        rfl
  · intro c hc ch hch
    show cell nc c ch = _
    exact b3 c (List.mem_range.2 hc) ch (by rw [hC1]; exact hch)

/-- One round of the main loop in a configuration that stays in range, started with cleared
accumulators (the TBB branch overwrites them and needs no such start): `segment` and
`compute_centroids` return normally, every pixel is labelled with the index of its nearest
centroid, every cluster totals the pixels nearest to its centroid, the new centroids are the
quotients of these totals, and the accumulators are cleared again. -/
theorem round_spec (C K T : Int) (mode : String) (slices : Nat) (image : Mat)
    (sched : Nat → Nat) (div0 : Nat → Nat) (s : KMeanAlgo) (hK : 1 ≤ K) (hT : 1 ≤ T)
    (hin : InRange K T mode slices sched)
    (h : Ready C K T mode slices (image.rows * image.cols) s)
    (hclr : mode ≠ "tbb" → Cleared s) :
    ∃ s1 s2, segment sched s image = .ok s1 ∧ compute_centroids div0 s1 = .ok s2 ∧
      Ready C K T mode slices (image.rows * image.cols) s2 ∧ Cleared s2 ∧
      s1.centroids = s.centroids ∧ s2.centroids = s.centroids ∧
      s2.m_maxiter = s.m_maxiter ∧ s2.clustered_img = s1.clustered_img ∧
      (∀ p, p < image.rows * image.cols →
        s1.clustered_img.getD p 0 = nrst_at s image p % 256) ∧
      (∀ c, c < K.toNat → total_count s1 c = cluster_count s image c ∧
        ∀ ch, ch < C.toNat → total_sum s1 c ch = cluster_sum s image c ch) ∧
      ∀ c, c < K.toNat → ∀ ch, ch < C.toNat →
        cell s2.new_centroids c ch
          = quotByte div0 (cluster_sum s image c ch) (cluster_count s image c) := by
  obtain ⟨hs, hsh, hrows⟩ := h
  have hslpos : 0 < slices := by
    rcases hin with h | h
    · rw [h.2.1]
      exact Nat.one_pos
    · rw [h.2.1]
      omega
  have hsched : mode = "omp" → ∀ p, sched p < slices := by
    intro hm p
    rcases hin with h | h
    · rw [h.1] at hm
      exact absurd hm (by decide)
    · have := h.2.2 p
      unfold worker at this
      rw [if_pos hm] at this
      rw [h.2.1]
      exact this
  obtain ⟨s1, h1, hs1, hc1, hn1, hm1, hl1, hlab1⟩ :=
    segment_labels C K T mode slices image sched s hK hs hslpos hsched hsh.label_length
  -- the totals of the clusters after the pass
  have htot : RowsOf C.toNat s1.clst_colorsum ∧
      ∀ c, c < K.toNat → total_count s1 c = cluster_count s image c ∧
        ∀ ch, ch < C.toNat → total_sum s1 c ch = cluster_sum s image c ch := by
    rcases hin with hin | hin
    · obtain ⟨s1', h1', post⟩ := segment_tbb_spec C K T mode slices s image hs hslpos
      have e : s1' = s1 := by
        unfold segment at h1
        rw [if_pos (hs.2.1.trans hin.1), h1'] at h1
        cases h1
        rfl
      subst e
      refine ⟨?_, fun c hc => tbb_totals C K T mode slices image s s1' hK hin.2.2 hT hs hin.1
        hrows post c hc⟩
      intro q hq
      rw [post.sum_rows q]
      exact hrows q (by rw [post.sum_length] at hq; exact hq)
    · obtain ⟨s1', h1', post⟩ :=
        segment_loops_spec C K T mode slices image sched s hK hs hslpos hsched
      have e : s1' = s1 := by
        unfold segment at h1
        rw [if_neg (by rw [hs.2.1]; exact hin.1), h1'] at h1
        cases h1
        rfl
      subst e
      refine ⟨?_, fun c hc => ?_⟩
      · intro q hq
        rw [post.sum_rows q]
        exact hrows q (by rw [post.sum_length] at hq; exact hq)
      · have hs' : Sized C K T mode T.toNat s := by rw [← hin.2.1]; exact hs
        exact pass_totals C K T mode T.toNat image sched s s1' hK hs' hin.1 hin.2.2
          (hclr hin.1) hrows (by rw [← hin.2.1] at *; exact post) c hc
  have hsh1 : Shaped C K (image.rows * image.cols) s1 := {
    centroids_length := by rw [hc1]; exact hsh.centroids_length
    new_centroids_length := by rw [hn1]; exact hsh.new_centroids_length
    centroids_rows := by rw [hc1]; exact hsh.centroids_rows
    new_centroids_rows := by rw [hn1]; exact hsh.new_centroids_rows
    label_length := hl1 }
  obtain ⟨s2, h2, hr2, hclr2, hc2, hl2, hm2, hq2⟩ :=
    compute_centroids_spec C K T mode slices (image.rows * image.cols) div0 s1 hK hT
      (by
        rcases hin with h | h
        · exact Or.inl ⟨h.1, h.2.1⟩
        · exact Or.inr ⟨h.1, h.2.1⟩)
      ⟨hs1, hsh1, htot.1⟩
  refine ⟨s1, s2, h1, h2, hr2, hclr2, hc1, by rw [hc2, hc1], by rw [hm2, hm1], hl2, hlab1,
    htot.2, ?_⟩
  intro c hc ch hch
  rw [hq2 c hc ch hch, (htot.2 c hc).1, (htot.2 c hc).2 ch hch]

/-! ## Lemmas: the seeds and the start of a run -/

theorem init_centroid_step_frame (image : Mat) (rnd : Nat → Nat) (s : KMeanAlgo) (i : Nat) :
    (init_centroid_step image rnd s i).nb_channels = s.nb_channels ∧
    (init_centroid_step image rnd s i).clst_count = s.clst_count ∧
    (init_centroid_step image rnd s i).clst_colorsum = s.clst_colorsum := by
  unfold init_centroid_step
  simp only
  split
  · exact ⟨rfl, rfl, rfl⟩
  · exact ⟨rfl, rfl, rfl⟩

theorem init_centroids_frame (image : Mat) (rnd : Nat → Nat) (s : KMeanAlgo) :
    (init_centroids image rnd s).nb_channels = s.nb_channels ∧
    (init_centroids image rnd s).clst_count = s.clst_count ∧
    (init_centroids image rnd s).clst_colorsum = s.clst_colorsum := by
  have key : ∀ (l : List Nat) (s : KMeanAlgo),
      (l.foldl (init_centroid_step image rnd) s).nb_channels = s.nb_channels ∧
      (l.foldl (init_centroid_step image rnd) s).clst_count = s.clst_count ∧
      (l.foldl (init_centroid_step image rnd) s).clst_colorsum = s.clst_colorsum := by
    intro l
    induction l with
    | nil => intro s; exact ⟨rfl, rfl, rfl⟩
    | cons a l ih =>
      intro s
      rw [List.foldl_cons]
      obtain ⟨h1, h2, h3⟩ := ih (init_centroid_step image rnd s a)
      obtain ⟨g1, g2, g3⟩ := init_centroid_step_frame image rnd s a
      exact ⟨by rw [h1, g1], by rw [h2, g2], by rw [h3, g3]⟩
  unfold init_centroids
  exact key _ s

/-- One round of the seeding loop writes the channels of the drawn pixel into row `i` and
leaves the other rows alone. -/
theorem init_centroid_step_cells (image : Mat) (rnd : Nat → Nat) (s : KMeanAlgo) (i : Nat)
    (hi : i < s.centroids.length)
    (hrow : (s.centroids.getD i []).length = s.nb_channels.toNat) :
    (∀ ch, ch < s.nb_channels.toNat →
      cell (init_centroid_step image rnd s i).centroids i ch
        = (image.data.getD (drawn image rnd i) []).getD ch 0) ∧
    (∀ q ch, q ≠ i →
      cell (init_centroid_step image rnd s i).centroids q ch = cell s.centroids q ch) := by
  unfold init_centroid_step drawn Mat.pixel
  simp only
  split
  · rename_i h1
    constructor
    · intro ch hch
      have hch0 : ch = 0 := by
        rw [h1] at hch
        have : (1 : Int).toNat = 1 := rfl
        omega
      subst hch0
      rw [cell_setCell _ _ _ _ _ _ hi (by rw [hrow, h1]; decide), if_pos ⟨rfl, rfl⟩]
    · intro q ch hq
      unfold setCell
      exact cell_set_other _ _ _ _ _ hq
  · constructor
    · intro ch hch
      exact (store_channels i
        (fun j => (image.data.getD
          (rnd (2 * i) % image.rows * image.cols + rnd (2 * i + 1) % image.cols) []).getD j 0)
        (List.range s.nb_channels.toNat) s.centroids hi (by
          intro x hx
          rw [hrow]
          exact List.mem_range.1 hx)).2.2.2 ch (List.mem_range.2 hch)
    · intro q ch hq
      exact cell_foldl_setCell_other i q ch (fun _ j => _) _ _ hq

/-- The seeding loop over a list of distinct centroids: every listed centroid is the pixel drawn
for it. -/
theorem init_fold_cells (image : Mat) (rnd : Nat → Nat) (l : List Nat) (hnd : l.Nodup)
    (s : KMeanAlgo) (hl : ∀ i, i ∈ l → i < s.centroids.length)
    (hrows : RowsOf s.nb_channels.toNat s.centroids) :
    (∀ i, i ∈ l → ∀ ch, ch < s.nb_channels.toNat →
      cell (l.foldl (init_centroid_step image rnd) s).centroids i ch
        = (image.data.getD (drawn image rnd i) []).getD ch 0) ∧
    (∀ q ch, q ∉ l →
      cell (l.foldl (init_centroid_step image rnd) s).centroids q ch = cell s.centroids q ch) := by
  induction l generalizing s with
  | nil =>
    refine ⟨?_, fun _ _ _ => rfl⟩
    intro i hi
    cases hi
  | cons a l ih =>
    have ha : a ∉ l := (List.nodup_cons.1 hnd).1
    have hal := hl a (List.mem_cons_self _ _)
    obtain ⟨a1, a2⟩ := init_centroid_step_cells image rnd s a hal (hrows a hal)
    obtain ⟨g1, g2, _, g4⟩ := init_centroid_step_shape image rnd s a
    obtain ⟨b1, b2⟩ := ih (List.nodup_cons.1 hnd).2 (init_centroid_step image rnd s a)
      (fun i hi => by rw [g1]; exact hl i (List.mem_cons_of_mem _ hi))
      (by rw [g4]; exact g2 _ hrows)
    rw [List.foldl_cons]
    constructor
    · intro i hi ch hch
      by_cases hil : i ∈ l
      · exact b1 i hil ch (by rw [g4]; exact hch)
      · have hia : i = a := by
          rcases List.mem_cons.1 hi with h | h
          · exact h
          · exact absurd h hil
        subst hia
        rw [b2 i ch hil]
        exact a1 ch hch
    · intro q ch hq
      have hql : q ∉ l := fun h => hq (List.mem_cons_of_mem _ h)
      have hqa : q ≠ a := fun h => hq (by rw [h]; exact List.mem_cons_self _ _)
      rw [b2 q ch hql]
      exact a2 q ch hqa

/-- After construction and seeding, centroid `i` is the pixel drawn for it. -/
theorem init_centroids_cells (C K M T : Int) (mode : String) (heap : Nat → Nat → Nat)
    (image : Mat) (rnd : Nat → Nat) (i ch : Nat) (hi : i < K.toNat) (hch : ch < C.toNat) :
    cell (init_centroids image rnd (KMeanAlgo.alloc C K M mode T heap)).centroids i ch
      = (image.data.getD (drawn image rnd i) []).getD ch 0 := by
  have h := (init_fold_cells image rnd (List.range K.toNat) (List.nodup_range _)
    (KMeanAlgo.alloc C K M mode T heap)
    (by
      intro i hi
      simp only [KMeanAlgo.alloc, List.length_replicate]
      exact List.mem_range.1 hi)
    (rowsOf_replicate _ _)).1 i (List.mem_range.2 hi) ch hch
  unfold init_centroids
  exact h

theorem cell_map_range (N c : Nat) (f : Nat → Nat → Nat) (q ch : Nat) :
    cell ((List.range N).map (fun k => (List.range c).map (f k))) q ch
      = if q < N ∧ ch < c then f q ch else 0 := by
  unfold cell
  by_cases hq : q < N
  · have e : ((List.range N).map (fun k => (List.range c).map (f k))).getD q []
        = (List.range c).map (f q) := by
      rw [List.getD_eq_getElem _ _ (by simpa using hq)]
      simp
    rw [e]
    by_cases hc : ch < c
    · rw [List.getD_eq_getElem _ _ (by simpa using hc), if_pos ⟨hq, hc⟩]
      simp
    · rw [List.getD_eq_default _ _ (by simpa using hc), if_neg (fun h => hc h.2)]
  · have e : ((List.range N).map (fun k => (List.range c).map (f k))).getD q [] = [] :=
      List.getD_eq_default _ _ (by simpa using hq)
    rw [e, if_neg (fun h => hq h.1)]
    rfl

/-- The accumulators of a fresh engine are cleared when the cells handed out by
`new double[nb_channels]` read as zero. -/
theorem alloc_cleared (C K M T : Int) (mode : String) (heap : Nat → Nat → Nat)
    (hheap : ∀ k ch, heap k ch = 0) : Cleared (KMeanAlgo.alloc C K M mode T heap) := by
  constructor
  · intro q
    simp only [KMeanAlgo.alloc]
    exact getD_replicate_zero _ q
  · intro q ch _
    simp only [KMeanAlgo.alloc]
    rw [cell_map_range, hheap q ch]
    exact ite_self 0

theorem alloc_sum_rows (C K M T : Int) (mode : String) (heap : Nat → Nat → Nat) :
    RowsOf C.toNat (KMeanAlgo.alloc C K M mode T heap).clst_colorsum := by
  intro q hq
  simp only [KMeanAlgo.alloc] at hq ⊢
  rw [List.getD_eq_getElem _ _ hq]
  simp

/-- The engine that enters the main loop satisfies the invariant of the loop. -/
theorem init_ready (C K M T : Int) (mode : String) (heap : Nat → Nat → Nat) (image : Mat)
    (rnd : Nat → Nat) (hC : 0 ≤ C) (hK : 1 ≤ K) (hT : 1 ≤ T) :
    Ready C K T mode (if mode = "omp" then T.toNat else 1) (image.rows * image.cols)
      (init_centroids image rnd (KMeanAlgo.alloc C K M mode T heap)) ∧
    (init_centroids image rnd (KMeanAlgo.alloc C K M mode T heap)).m_maxiter = M ∧
    ((∀ k ch, heap k ch = 0) →
      Cleared (init_centroids image rnd (KMeanAlgo.alloc C K M mode T heap))) := by
  obtain ⟨s, hcreate, hmax, hsized⟩ := create_ok C K M T mode heap hC hK hT
  have hs : s = KMeanAlgo.alloc C K M mode T heap := by
    unfold KMeanAlgo.create at hcreate
    by_cases h1 : (if mode = "omp" then K * T else K) < 0
    · rw [if_pos h1] at hcreate
      cases hcreate
    · rw [if_neg h1] at hcreate
      by_cases h2 : 0 < K ∧ C < 0
      · rw [if_pos h2] at hcreate
        cases hcreate
      · rw [if_neg h2] at hcreate
        cases hcreate
        rfl
  subst hs
  have hinit := init_centroids_sized C K T mode _ image rnd _ M ⟨hsized, hmax⟩
  obtain ⟨f1, f2, f3⟩ := init_centroids_frame image rnd (KMeanAlgo.alloc C K M mode T heap)
  refine ⟨⟨hinit.1, init_shaped C K M T mode heap image rnd, ?_⟩, hinit.2, ?_⟩
  · rw [f3]
    exact alloc_sum_rows C K M T mode heap
  · intro hheap
    have := alloc_cleared C K M T mode heap hheap
    exact ⟨by rw [f2]; exact this.1, by rw [f3, f1]; exact this.2⟩

theorem process_loop_converged (image : Mat) (sched : Nat → Nat → Nat) (div0 : Nat → Nat)
    (n : Nat) (l : Loop) (h : l.converged = true) :
    process_loop image sched div0 n l = .ok l := by
  cases n with
  | zero => rfl
  | succ n => rw [process_loop, if_pos h]

/-! ## Lemmas: seeds drawn from distinct single-channel pixels -/

theorem absDiff_eq_zero (a b : Nat) : absDiff a b = 0 ↔ a = b := by
  unfold absDiff
  split <;> omega

theorem drawn_lt (image : Mat) (rnd : Nat → Nat) (i : Nat)
    (himg : 0 < image.rows ∧ 0 < image.cols) :
    drawn image rnd i < image.rows * image.cols := by
  unfold drawn
  have h1 : rnd (2 * i) % image.rows < image.rows := Nat.mod_lt _ himg.1
  have h2 : rnd (2 * i + 1) % image.cols < image.cols := Nat.mod_lt _ himg.2
  calc rnd (2 * i) % image.rows * image.cols + rnd (2 * i + 1) % image.cols
      < rnd (2 * i) % image.rows * image.cols + image.cols := by omega
    _ = (rnd (2 * i) % image.rows + 1) * image.cols := by ring
    _ ≤ image.rows * image.cols := Nat.mul_le_mul_right _ h1

/-- An injective map of `[0, n)` into itself reaches every value. -/
theorem surj_of_inj_below (n : Nat) (f : Nat → Nat) (hf : ∀ i, i < n → f i < n)
    (hinj : ∀ i j, i < n → j < n → f i = f j → i = j) (p : Nat) (hp : p < n) :
    ∃ i, i < n ∧ f i = p := by
  have hsub : (Finset.range n).image f ⊆ Finset.range n := by
    intro x hx
    obtain ⟨i, hi, rfl⟩ := Finset.mem_image.1 hx
    exact Finset.mem_range.2 (hf i (Finset.mem_range.1 hi))
  have hcard : ((Finset.range n).image f).card = (Finset.range n).card := by
    apply Finset.card_image_of_injOn
    intro i hi j hj h
    exact hinj i j (Finset.mem_range.1 hi) (Finset.mem_range.1 hj) h
  have heq := Finset.eq_of_subset_of_card_le hsub (by rw [hcard])
  have hp' : p ∈ (Finset.range n).image f := by
    rw [heq]
    exact Finset.mem_range.2 hp
  obtain ⟨i, hi, h⟩ := Finset.mem_image.1 hp'
  exact ⟨i, Finset.mem_range.1 hi, h⟩

/-- Pairwise distinct values below `m` are at most `m`. -/
theorem card_le_of_inj_below (n m : Nat) (f : Nat → Nat) (hf : ∀ i, i < n → f i < m)
    (hinj : ∀ i j, i < n → j < n → f i = f j → i = j) : n ≤ m := by
  have := Finset.card_le_card_of_injOn f
    (s := Finset.range n) (t := Finset.range m)
    (fun i hi => Finset.mem_coe.2 (Finset.mem_range.2 (hf i (Finset.mem_range.1
      (Finset.mem_coe.1 hi)))))
    (fun i hi j hj h => hinj i j (Finset.mem_range.1 (Finset.mem_coe.1 hi))
      (Finset.mem_range.1 (Finset.mem_coe.1 hj)) h)
  simpa using this

/-- With one channel the scan returns an index below `K` at minimal distance. -/
theorem nrst_at_gray (s : KMeanAlgo) (image : Mat) (p : Nat) (hC : s.nb_channels = 1)
    (hK : 1 ≤ s.m_nb_centroid) (hpx : (image.data.getD p []).getD 0 0 < 256)
    (hc : ∀ k, cell s.centroids k 0 < 256) :
    nrst_at s image p < s.m_nb_centroid.toNat ∧
    ∀ k, k < s.m_nb_centroid.toNat →
      absDiff ((image.data.getD p []).getD 0 0) (cell s.centroids (nrst_at s image p) 0)
        ≤ absDiff ((image.data.getD p []).getD 0 0) (cell s.centroids k 0) := by
  obtain ⟨n, hn⟩ : ∃ n, s.m_nb_centroid.toNat = n + 1 := ⟨s.m_nb_centroid.toNat - 1, by omega⟩
  have h := grayScan_range s (image.pixel (p / image.cols) (p % image.cols)) hC
    (by rw [pixel_linear]; exact hpx) hc n
  unfold nrst_at nrst_centroid_index
  rw [hn]
  rw [pixel_linear] at h ⊢
  exact ⟨h.1, h.2.2.1⟩

theorem inRange_of_mode (K T : Int) (mode : String) (sched : Nat → Nat)
    (hK256 : mode = "tbb" → K ≤ 256)
    (hmode : mode = "tbb" ∨ (mode = "omp" ∧ ∀ p, sched p < T.toNat) ∨
      (mode ≠ "omp" ∧ T = 1)) :
    InRange K T mode (if mode = "omp" then T.toNat else 1) sched := by
  by_cases htbb : mode = "tbb"
  · left
    refine ⟨htbb, ?_, hK256 htbb⟩
    rw [if_neg (by rw [htbb]; decide)]
  · right
    rcases hmode with h | h | h
    · exact absurd h htbb
    · refine ⟨htbb, by rw [if_pos h.1], ?_⟩
      intro p
      unfold worker
      rw [if_pos h.1]
      exact h.2 p
    · refine ⟨htbb, ?_, ?_⟩
      · rw [if_neg h.1, h.2]
        rfl
      · intro p
        unfold worker
        rw [if_neg h.1, h.2]
        decide

theorem cell_beyond (v : List (List Nat)) (k ch : Nat) (h : v.length ≤ k) : cell v k ch = 0 := by
  unfold cell
  rw [List.getD_eq_default v [] h]
  rfl

theorem sum_range_pick (n w : Nat) (v : Nat → Nat) (hw : w < n) :
    ((List.range n).map (fun p => if p = w then v p else 0)).sum = v w := by
  have hmap : (List.range n).map (fun p => if p = w then v p else 0)
      = (List.range n).map (fun p => if p = w then v w else 0) := by
    apply List.map_congr_left
    intro p _
    by_cases h : p = w
    · rw [if_pos h, if_pos h, h]
    · rw [if_neg h, if_neg h]
  rw [hmap, sum_range_single, if_pos hw]

/-- Single-channel seeds drawn from `N` different pixels of an image of `N` pixels with pairwise
distinct values: every pixel is nearest to the centroid drawn from it, and to no other. -/
theorem nrst_at_drawn (K M T : Int) (mode : String) (heap : Nat → Nat → Nat) (image : Mat)
    (rnd : Nat → Nat) (hK : 1 ≤ K) (hT : 1 ≤ T) (himg : 0 < image.rows ∧ 0 < image.cols)
    (hN : K.toNat = image.rows * image.cols)
    (hbyte : ∀ p, p < image.rows * image.cols → cell image.data p 0 < 256)
    (hdist : ∀ p q, p < image.rows * image.cols → q < image.rows * image.cols →
      cell image.data p 0 = cell image.data q 0 → p = q)
    (hseed : ∀ i j, i < K.toNat → j < K.toNat → drawn image rnd i = drawn image rnd j → i = j)
    (p : Nat) (hp : p < image.rows * image.cols) :
    nrst_at (init_centroids image rnd (KMeanAlgo.alloc 1 K M mode T heap)) image p < K.toNat ∧
    drawn image rnd
      (nrst_at (init_centroids image rnd (KMeanAlgo.alloc 1 K M mode T heap)) image p) = p := by
  obtain ⟨⟨hs, hsh, _⟩, _, _⟩ := init_ready 1 K M T mode heap image rnd (by decide) hK hT
  have hcen : ∀ i, i < K.toNat →
      cell (init_centroids image rnd (KMeanAlgo.alloc 1 K M mode T heap)).centroids i 0
        = cell image.data (drawn image rnd i) 0 :=
    fun i hi => init_centroids_cells 1 K M T mode heap image rnd i 0 hi (by decide)
  generalize init_centroids image rnd (KMeanAlgo.alloc 1 K M mode T heap) = s0 at hs hsh hcen ⊢
  have hk : s0.m_nb_centroid = K := hs.2.2.2.1
  have hcb : ∀ k, cell s0.centroids k 0 < 256 := by
    intro k
    by_cases hk' : k < K.toNat
    · rw [hcen k hk']
      exact hbyte _ (drawn_lt image rnd k himg)
    · rw [cell_beyond _ _ _ (by rw [hsh.centroids_length]; omega)]
      decide
  obtain ⟨h1, h2⟩ := nrst_at_gray s0 image p hs.1 (by rw [hk]; exact hK) (hbyte p hp) hcb
  rw [hk] at h1 h2
  refine ⟨h1, ?_⟩
  obtain ⟨c0, hc0, hd0⟩ := surj_of_inj_below (image.rows * image.cols) (drawn image rnd)
    (fun i _ => drawn_lt image rnd i himg)
    (fun i j hi hj h => hseed i j (by rw [hN]; exact hi) (by rw [hN]; exact hj) h) p hp
  have hmin := h2 c0 (by rw [hN]; exact hc0)
  rw [hcen c0 (by rw [hN]; exact hc0), hd0] at hmin
  have hz : absDiff ((image.data.getD p []).getD 0 0) (cell image.data p 0) = 0 :=
    (absDiff_eq_zero _ _).2 rfl
  rw [hz] at hmin
  have heq := (absDiff_eq_zero _ _).1 (Nat.le_zero.1 hmin)
  rw [hcen _ h1] at heq
  exact (hdist p _ hp (drawn_lt image rnd _ himg) heq).symm

/-! ## C12: as many centroids as pixels -/

/-- C12 fails on the code. `init_centroids` draws with replacement: on the image `[[3,5]]` with
two centroids, both drawn from the pixel 3, the two pixels go to centroid 1 (the later of two
equal centroids wins every tie) and cluster 0 receives no pixel in the first iteration. -/
theorem duplicate_seeds_empty_cluster :
    (init_centroids image2 (rndOf []) (KMeanAlgo.alloc 1 2 10 "serial" 1 zeroHeap)).centroids
      = [[3], [3]] ∧
    cluster_count (init_centroids image2 (rndOf []) (KMeanAlgo.alloc 1 2 10 "serial" 1 zeroHeap))
      image2 0 = 0 ∧
    ((KMeanAlgo.create 1 2 10 "serial" 1 zeroHeap).bind (fun s =>
        segment (noSched 0) (init_centroids image2 (rndOf []) s) image2)).map
      (fun s => (s.clustered_img, s.clst_count)) = .ok ([1, 1], [0, 2]) := by
  decide


/-- C12, amended. For a single-channel image whose `N` pixels have pairwise distinct values,
`centroid_count = N` and a seeding that draws `N` different pixels, `process` returns after one
iteration with the flag true, and in that iteration every cluster receives exactly one pixel.
(TBB mode, OpenMP mode with thread numbers below the worker count, or no OpenMP and one worker;
outside TBB mode the colour-sum cells read as zero when `process` starts.) -/
theorem distinct_pixels_distinct_seeds (K M T : Int) (mode : String) (heap : Nat → Nat → Nat)
    (image : Mat) (rnd : Nat → Nat) (sched : Nat → Nat → Nat) (div0 : Nat → Nat)
    (hK : 1 ≤ K) (hM : 1 ≤ M) (hT : 1 ≤ T) (himg : 0 < image.rows ∧ 0 < image.cols)
    (hN : K.toNat = image.rows * image.cols)
    (hbyte : ∀ p, p < image.rows * image.cols → cell image.data p 0 < 256)
    (hdist : ∀ p q, p < image.rows * image.cols → q < image.rows * image.cols →
      cell image.data p 0 = cell image.data q 0 → p = q)
    (hseed : ∀ i j, i < K.toNat → j < K.toNat → drawn image rnd i = drawn image rnd j → i = j)
    (hmode : mode = "tbb" ∨ (mode = "omp" ∧ ∀ it p, sched it p < T.toNat) ∨
      (mode ≠ "omp" ∧ T = 1))
    (hheap : mode ≠ "tbb" → ∀ k ch, heap k ch = 0) :
    ∃ o, run 1 K M mode T heap image rnd sched div0 = .ok o ∧ o.iter = 1 ∧
      o.converged = true ∧
      ∀ c, c < K.toNat →
        cluster_count (init_centroids image rnd (KMeanAlgo.alloc 1 K M mode T heap)) image c
          = 1 := by
  have hK256 : K ≤ 256 := by
    have := card_le_of_inj_below (image.rows * image.cols) 256 (fun p => cell image.data p 0)
      hbyte hdist
    omega
  obtain ⟨hready, hmax, hclr⟩ := init_ready 1 K M T mode heap image rnd (by decide) hK hT
  have hcen : ∀ i, i < K.toNat →
      cell (init_centroids image rnd (KMeanAlgo.alloc 1 K M mode T heap)).centroids i 0
        = cell image.data (drawn image rnd i) 0 :=
    fun i hi => init_centroids_cells 1 K M T mode heap image rnd i 0 hi (by decide)
  have hnrst := nrst_at_drawn K M T mode heap image rnd hK hT himg hN hbyte hdist hseed
  have hcreate : KMeanAlgo.create 1 K M mode T heap
      = .ok (KMeanAlgo.alloc 1 K M mode T heap) := by
    obtain ⟨s, hc, _, _⟩ := create_ok 1 K M T mode heap (by decide) hK hT
    have hcopy := hc
    unfold KMeanAlgo.create at hc
    by_cases h1 : (if mode = "omp" then K * T else K) < 0
    · rw [if_pos h1] at hc
      cases hc
    · rw [if_neg h1] at hc
      by_cases h2 : 0 < K ∧ (1 : Int) < 0
      · rw [if_pos h2] at hc
        cases hc
      · rw [if_neg h2] at hc
        cases hc
        exact hcopy
  generalize hs0 : init_centroids image rnd (KMeanAlgo.alloc 1 K M mode T heap) = s0
    at hready hmax hclr hcen hnrst ⊢
  -- the clusters of the first pass
  have hiff : ∀ c, c < K.toNat → ∀ p, p ∈ List.range (image.rows * image.cols) →
      (nrst_at s0 image p = c ↔ p = drawn image rnd c) := by
    intro c hc p hp
    obtain ⟨h1, h2⟩ := hnrst p (List.mem_range.1 hp)
    constructor
    · intro h
      rw [← h, h2]
    · intro h
      apply hseed _ _ h1 hc
      rw [h2, h]
  have hcount : ∀ c, c < K.toNat → cluster_count s0 image c = 1 := by
    intro c hc
    unfold cluster_count
    have hmap : (List.range (image.rows * image.cols)).map
          (fun p => if nrst_at s0 image p = c then 1 else 0)
        = (List.range (image.rows * image.cols)).map
          (fun p => if p = drawn image rnd c then 1 else 0) := by
      apply List.map_congr_left
      intro p hp
      by_cases h : nrst_at s0 image p = c
      · rw [if_pos h, if_pos ((hiff c hc p hp).1 h)]
      · rw [if_neg h, if_neg (fun h' => h ((hiff c hc p hp).2 h'))]
    rw [hmap, sum_range_single, if_pos (drawn_lt image rnd c himg)]
  have hsum : ∀ c, c < K.toNat →
      cluster_sum s0 image c 0 = cell image.data (drawn image rnd c) 0 := by
    intro c hc
    unfold cluster_sum
    have hmap : (List.range (image.rows * image.cols)).map
          (fun p => if nrst_at s0 image p = c then (image.data.getD p []).getD 0 0 else 0)
        = (List.range (image.rows * image.cols)).map
          (fun p => if p = drawn image rnd c then (image.data.getD p []).getD 0 0 else 0) := by
      apply List.map_congr_left
      intro p hp
      by_cases h : nrst_at s0 image p = c
      · rw [if_pos h, if_pos ((hiff c hc p hp).1 h)]
      · rw [if_neg h, if_neg (fun h' => h ((hiff c hc p hp).2 h'))]
    rw [hmap, sum_range_pick _ _ (fun p => (image.data.getD p []).getD 0 0)
      (drawn_lt image rnd c himg)]
    rfl
  -- the first round
  obtain ⟨s1, s2, h1, h2, hr2, _, _, hc2, _, hl2, hlab1, _, hq⟩ :=
    round_spec 1 K T mode _ image (sched 0) div0 s0 hK hT
      (inRange_of_mode K T mode (sched 0) (fun _ => hK256) (by
        rcases hmode with h | h | h
        · exact Or.inl h
        · exact Or.inr (Or.inl ⟨h.1, h.2 0⟩)
        · exact Or.inr (Or.inr h)))
      hready (fun hm => hclr (hheap hm))
  have hconv : centroids_equal s2 = true := by
    rw [centroids_equal_iff, hr2.sized.2.2.2.1, hr2.sized.1]
    intro cent hcent ch hch
    have hch0 : ch = 0 := by
      have : (1 : Int).toNat = 1 := rfl
      omega
    subst hch0
    rw [hc2, hq cent hcent 0 (by decide), hcount cent hcent, hsum cent hcent, hcen cent hcent]
    unfold quotByte
    rw [if_neg (by decide), Nat.div_one, Nat.mod_eq_of_lt (hbyte _ (drawn_lt image rnd _ himg))]
  obtain ⟨m, hm⟩ : ∃ m, M.toNat = m + 1 := ⟨M.toNat - 1, by omega⟩
  have hloop : process_loop image sched div0 (KMeanAlgo.alloc 1 K M mode T heap).m_maxiter.toNat
      { state := s0, converged := false, iter := 0 }
      = .ok { state := { s2 with centroids := s2.new_centroids, new_centroids := s2.centroids }
              converged := centroids_equal s2, iter := 0 + 1 } := by
    show process_loop image sched div0 M.toNat _ = _
    rw [hm, process_loop_round image sched div0 m _ s1 s2 rfl h1 h2]
    exact process_loop_converged image sched div0 m _ hconv
  rw [← hs0] at hloop
  obtain ⟨_, mapped, hmap, _⟩ := round_remap 1 K image s0 s1 s2 hK hready.sized.2.2.2.1
    hr2.shaped hl2 hlab1
  exact ⟨_, run_eq 1 K M T mode heap image rnd sched div0 _ _ mapped hcreate hloop hmap, rfl,
    hconv, hcount⟩

/-- C12, instance: the image `[[4,8]]` with the centroids drawn from its two pixels. -/
theorem distinct_pixels_distinct_seeds_witness :
    ∃ o, run 1 2 10 "serial" 1 zeroHeap image48 (rndOf [0, 0, 0, 1]) noSched div0Zero = .ok o ∧
      o.iter = 1 ∧ o.converged = true := by
  obtain ⟨o, ho, h1, h2, _⟩ := distinct_pixels_distinct_seeds 2 10 1 "serial" zeroHeap image48
    (rndOf [0, 0, 0, 1]) noSched div0Zero (by decide) (by decide) (by decide) (by decide)
    (by decide) (by decide)
    (by
      intro p q hp hq
      have hp' : p < 2 := hp
      have hq' : q < 2 := hq
      interval_cases p <;> interval_cases q <;> decide)
    (by
      intro i j hi hj
      have hi' : i < 2 := hi
      have hj' : j < 2 := hj
      interval_cases i <;> interval_cases j <;> decide)
    (Or.inr (Or.inr ⟨by decide, rfl⟩)) (fun _ _ _ => rfl)
  exact ⟨o, ho, h1, h2⟩

/-! ## Lemmas: 257 single-channel centroids on a two-pixel image -/

/-- With one channel the scan returns the last index at minimal distance. -/
theorem nrst_at_gray_last (s : KMeanAlgo) (image : Mat) (p : Nat) (hC : s.nb_channels = 1)
    (hpx : (image.data.getD p []).getD 0 0 < 256)
    (hc : ∀ k, cell s.centroids k 0 < 256) (k : Nat) (hk : k < s.m_nb_centroid.toNat)
    (heq : absDiff ((image.data.getD p []).getD 0 0) (cell s.centroids k 0)
      = absDiff ((image.data.getD p []).getD 0 0) (cell s.centroids (nrst_at s image p) 0)) :
    k ≤ nrst_at s image p := by
  obtain ⟨n, hn⟩ : ∃ n, s.m_nb_centroid.toNat = n + 1 := ⟨s.m_nb_centroid.toNat - 1, by omega⟩
  have h := grayScan_range s (image.pixel (p / image.cols) (p % image.cols)) hC
    (by rw [pixel_linear]; exact hpx) hc n
  rw [hn] at hk
  unfold nrst_at nrst_centroid_index
  rw [hn]
  rw [pixel_linear] at h ⊢
  apply h.2.2.2 k hk
  unfold nrst_at nrst_centroid_index at heq
  rw [hn] at heq
  rw [pixel_linear] at heq
  exact heq

/-- The seeds of the 257 centroids on `image2`: the pixel 3 for centroid 0, the pixel 5 for the
others. -/
theorem wide_seeds (mode : String) (i : Nat) (hi : i < 257) :
    cell (init_centroids image2 rndFirstThenSecond
      (KMeanAlgo.alloc 1 257 1 mode 1 zeroHeap)).centroids i 0 = if i = 0 then 3 else 5 := by
  rw [init_centroids_cells 1 257 1 1 mode zeroHeap image2 rndFirstThenSecond i 0 hi (by decide)]
  by_cases h : i = 0
  · subst h
    decide
  · rw [if_neg h]
    have hd : drawn image2 rndFirstThenSecond i = 1 := by
      unfold drawn rndFirstThenSecond
      have h1 : ¬ 2 * i = 1 := by omega
      have h2 : ¬ 2 * i + 1 = 1 := by omega
      rw [if_neg h1, if_neg h2]
      rfl
    rw [hd]
    rfl

/-- The indices `nrst_centroid_index` returns for the two pixels of `image2`: 0 for the pixel
3, and 256, the last of the centroids equal to 5, for the pixel 5. -/
theorem wide_nrst (mode : String) :
    nrst_at (init_centroids image2 rndFirstThenSecond
      (KMeanAlgo.alloc 1 257 1 mode 1 zeroHeap)) image2 0 = 0 ∧
    nrst_at (init_centroids image2 rndFirstThenSecond
      (KMeanAlgo.alloc 1 257 1 mode 1 zeroHeap)) image2 1 = 256 := by
  obtain ⟨⟨hs, hsh, _⟩, _, _⟩ := init_ready 1 257 1 1 mode zeroHeap image2 rndFirstThenSecond
    (by decide) (by decide) (by decide)
  have hcen := wide_seeds mode
  generalize init_centroids image2 rndFirstThenSecond
    (KMeanAlgo.alloc 1 257 1 mode 1 zeroHeap) = s0 at hs hsh hcen ⊢
  have hk : s0.m_nb_centroid = 257 := hs.2.2.2.1
  have hK : s0.m_nb_centroid.toNat = 257 := by rw [hk]; rfl
  have hcb : ∀ k, cell s0.centroids k 0 < 256 := by
    intro k
    by_cases hk' : k < 257
    · rw [hcen k hk']
      split <;> decide
    · rw [cell_beyond _ _ _ (by rw [hsh.centroids_length]; show 257 ≤ k; omega)]
      decide
  constructor
  · obtain ⟨h1, h2⟩ := nrst_at_gray s0 image2 0 hs.1 (by rw [hk]; decide) (by decide) hcb
    rw [hK] at h1 h2
    have hmin := h2 0 (by decide)
    rw [hcen 0 (by decide), hcen _ h1] at hmin
    by_contra hne
    rw [if_neg hne] at hmin
    revert hmin
    decide
  · obtain ⟨h1, h2⟩ := nrst_at_gray s0 image2 1 hs.1 (by rw [hk]; decide) (by decide) hcb
    rw [hK] at h1 h2
    have hlast := nrst_at_gray_last s0 image2 1 hs.1 (by decide) hcb 256
      (by rw [hK]; decide)
    have hmin := h2 256 (by decide)
    rw [hcen 256 (by decide), hcen _ h1] at hmin
    rw [hcen 256 (by decide), hcen _ h1] at hlast
    by_cases h0 : nrst_at s0 image2 1 = 0
    · rw [if_pos h0] at hmin
      exfalso
      revert hmin
      decide
    · rw [if_neg h0] at hlast
      have := hlast (by decide)
      omega

/-- `segment` keeps the invariant of the main loop. -/
theorem segment_ready (C K T : Int) (mode : String) (slices : Nat) (image : Mat)
    (sched : Nat → Nat) (s : KMeanAlgo) (hK : 1 ≤ K) (hsl : 0 < slices)
    (hsched : mode = "omp" → ∀ p, sched p < slices)
    (h : Ready C K T mode slices (image.rows * image.cols) s) :
    ∃ s1, segment sched s image = .ok s1 ∧
      Ready C K T mode slices (image.rows * image.cols) s1 ∧ s1.centroids = s.centroids ∧
      s1.m_maxiter = s.m_maxiter ∧
      ∀ p, p < image.rows * image.cols →
        s1.clustered_img.getD p 0 = nrst_at s image p % 256 := by
  obtain ⟨hs, hsh, hrows⟩ := h
  obtain ⟨s1, h1, hs1, hc1, hn1, hm1, hl1, hlab1⟩ :=
    segment_labels C K T mode slices image sched s hK hs hsl hsched hsh.label_length
  have hrows1 : RowsOf C.toNat s1.clst_colorsum := by
    by_cases hm : s.mode = "tbb"
    · obtain ⟨s1', h1', post⟩ := segment_tbb_spec C K T mode slices s image hs hsl
      have e : s1' = s1 := by
        unfold segment at h1
        rw [if_pos hm, h1'] at h1
        cases h1
        rfl
      subst e
      intro q hq
      rw [post.sum_rows q]
      exact hrows q (by rw [post.sum_length] at hq; exact hq)
    · obtain ⟨s1', h1', post⟩ :=
        segment_loops_spec C K T mode slices image sched s hK hs hsl hsched
      have e : s1' = s1 := by
        unfold segment at h1
        rw [if_neg hm, h1'] at h1
        cases h1
        rfl
      subst e
      intro q hq
      rw [post.sum_rows q]
      exact hrows q (by rw [post.sum_length] at hq; exact hq)
  refine ⟨s1, h1, ⟨hs1, ?_, hrows1⟩, hc1, hm1, hlab1⟩
  exact {
    centroids_length := by rw [hc1]; exact hsh.centroids_length
    new_centroids_length := by rw [hn1]; exact hsh.new_centroids_length
    centroids_rows := by rw [hc1]; exact hsh.centroids_rows
    new_centroids_rows := by rw [hn1]; exact hsh.new_centroids_rows
    label_length := hl1 }

/-! ## C14: the TBB reductions against the serial pass -/

/-- C14 fails on the code for `centroid_count > 256`. With 257 centroids on the image `[[3,5]]`,
centroid 0 drawn from the pixel 3 and the others from the pixel 5, the pixel 5 is nearest to
centroid 256.  The serial pass accumulates it under index 256 (clusters 0 and 256 hold one pixel
each, new centroid 0 is 3); the TBB pass finds the clusters by scanning the `uchar` label buffer,
where this pixel carries `256 mod 256 = 0`, and gives cluster 0 two pixels with sum 8 (new
centroid 4) and cluster 256 none. -/
theorem tbb_reduction_reads_wrapped_labels :
    nrst_at (init_centroids image2 rndFirstThenSecond
      (KMeanAlgo.alloc 1 257 1 "tbb" 1 zeroHeap)) image2 1 = 256 ∧
    (∃ s1 s2, segment (noSched 0) (init_centroids image2 rndFirstThenSecond
        (KMeanAlgo.alloc 1 257 1 "tbb" 1 zeroHeap)) image2 = .ok s1 ∧
      compute_centroids div0Zero s1 = .ok s2 ∧ s1.clustered_img = [0, 0] ∧
      total_count s1 0 = 2 ∧ total_count s1 256 = 0 ∧ total_sum s1 0 0 = 8 ∧
      cell s2.new_centroids 0 0 = 4) ∧
    (∃ r1 r2, segment (noSched 0) (init_centroids image2 rndFirstThenSecond
        (KMeanAlgo.alloc 1 257 1 "serial" 1 zeroHeap)) image2 = .ok r1 ∧
      compute_centroids div0Zero r1 = .ok r2 ∧ r1.clustered_img.getD 1 0 = 0 ∧
      total_count r1 0 = 1 ∧ total_count r1 256 = 1 ∧ total_sum r1 0 0 = 3 ∧
      cell r2.new_centroids 0 0 = 3) := by
  refine ⟨(wide_nrst "tbb").2, ?_, ?_⟩
  · obtain ⟨hn0, hn1⟩ := wide_nrst "tbb"
    obtain ⟨hready, _, _⟩ := init_ready 1 257 1 1 "tbb" zeroHeap image2 rndFirstThenSecond
      (by decide) (by decide) (by decide)
    generalize init_centroids image2 rndFirstThenSecond
      (KMeanAlgo.alloc 1 257 1 "tbb" 1 zeroHeap) = s0 at hn0 hn1 hready ⊢
    have hsl : (if "tbb" = "omp" then (1 : Int).toNat else 1) = 1 := by decide
    rw [hsl] at hready
    obtain ⟨s1, h1, hr1, _, _, _⟩ := segment_ready 1 257 1 "tbb" 1 image2 (noSched 0) s0
      (by decide) (by decide) (fun h => absurd h (by decide)) hready
    obtain ⟨s1', h1', post⟩ := segment_tbb_spec 1 257 1 "tbb" 1 s0 image2 hready.sized
      (by decide)
    have e : s1' = s1 := by
      unfold segment at h1
      rw [if_pos hready.sized.2.1, h1'] at h1
      cases h1
      rfl
    subst e
    have hlabels : tbb_labels s0 image2 = [0, 0] := by
      rw [tbb_labels_eq]
      show (List.range 2).map _ = _
      simp [List.range_succ, hn0, hn1]
    rw [hlabels] at post
    obtain ⟨s2, h2, _, _, _, _, _, hq⟩ := compute_centroids_spec 1 257 1 "tbb" 1
      (image2.rows * image2.cols) div0Zero s1' (by decide) (by decide) (Or.inl ⟨rfl, rfl⟩) hr1
    have hthr : thread_range s1' = [0] :=
      thread_range_tbb s1' hr1.sized.2.1 (by rw [hr1.sized.2.2.1])
    have hcount : ∀ c, c < 257 → total_count s1' c = tbb_count [0, 0] 2 c := by
      intro c hc
      unfold total_count
      rw [hthr]
      simp only [List.map_cons, List.map_nil, List.sum_cons, List.sum_nil, Nat.zero_mul,
        Nat.zero_add, Nat.add_zero]
      exact post.count_in c (List.mem_range.2 hc)
    have hsum : total_sum s1' 0 0 = 8 := by
      unfold total_sum
      rw [hthr]
      simp only [List.map_cons, List.map_nil, List.sum_cons, List.sum_nil, Nat.zero_mul,
        Nat.zero_add, Nat.add_zero]
      rw [post.sum_in (by
          show RowsOf s0.nb_channels.toNat s0.clst_colorsum
          rw [hready.sized.1]
          exact hready.sum_rows) 0 (List.mem_range.2 (by decide)) 0 (by
          show 0 < s0.nb_channels.toNat
          rw [hready.sized.1]
          decide),
        tbb_colorsum_eq s0 image2 _ _ 0 0 (by rw [hready.sized.1]; decide)]
      decide
    refine ⟨s1', s2, h1, h2, post.clustered_img, ?_, ?_, hsum, ?_⟩
    · rw [hcount 0 (by decide)]
      decide
    · rw [hcount 256 (by decide)]
      decide
    · rw [hq 0 (by decide) 0 (by decide), hsum, hcount 0 (by decide)]
      decide
  · obtain ⟨hn0, hn1⟩ := wide_nrst "serial"
    obtain ⟨hready, _, hclr⟩ := init_ready 1 257 1 1 "serial" zeroHeap image2
      rndFirstThenSecond (by decide) (by decide) (by decide)
    generalize init_centroids image2 rndFirstThenSecond
      (KMeanAlgo.alloc 1 257 1 "serial" 1 zeroHeap) = r0 at hn0 hn1 hready hclr ⊢
    obtain ⟨r1, r2, h1, h2, _, _, _, _, _, _, hlab, htot, hq⟩ :=
      round_spec 1 257 1 "serial" _ image2 (noSched 0) div0Zero r0 (by decide) (by decide)
        (inRange_of_mode 257 1 "serial" (noSched 0) (fun h => absurd h (by decide))
          (Or.inr (Or.inr ⟨by decide, rfl⟩)))
        hready (fun _ => hclr (fun _ _ => rfl))
    have hc0 : cluster_count r0 image2 0 = 1 := by
      unfold cluster_count
      show ((List.range 2).map _).sum = 1
      simp [List.range_succ, hn0, hn1]
    have hc256 : cluster_count r0 image2 256 = 1 := by
      unfold cluster_count
      show ((List.range 2).map _).sum = 1
      simp [List.range_succ, hn0, hn1]
    have hs0 : cluster_sum r0 image2 0 0 = 3 := by
      unfold cluster_sum
      show ((List.range 2).map _).sum = 3
      have hr : List.range 2 = [0, 1] := rfl
      rw [hr]
      simp only [List.map_cons, List.map_nil, List.sum_cons, List.sum_nil, hn0, hn1]
      decide
    refine ⟨r1, r2, h1, h2, ?_, ?_, ?_, ?_, ?_⟩
    · rw [hlab 1 (by decide), hn1]
    · rw [(htot 0 (by decide)).1, hc0]
    · rw [(htot 256 (by decide)).1, hc256]
    · rw [(htot 0 (by decide)).2 0 (by decide), hs0]
    · rw [hq 0 (by decide) 0 (by decide), hs0, hc0]
      decide

/-! ## C11: idempotence -/

/-- C11 fails on the code with three channels. The image holds the three colours `(3,0,0)`,
`(0,0,0)`, `(0,0,1)` once each and the centroids are seeded as exactly these colours, in this
order.  Because `dst` is not reset between centroids (the defect of C4), the pixel `(0,0,0)`,
equal to centroid 1, is given index 2; cluster 2 then averages `(0,0,0)` and `(0,0,1)`, the first
iteration does not converge, and the image comes back changed (after 2 iterations when the
conversion of `0.0 / 0.0` for the empty cluster 1 yields 0, after 3 when it yields 77). -/
theorem idempotence_three_channels_mislabels :
    (init_centroids rgbImage3 (rndOf [0, 0, 0, 1, 0, 2])
      (KMeanAlgo.alloc 3 3 10 "serial" 1 zeroHeap)).centroids = rgbImage3.data ∧
    nrst_at (init_centroids rgbImage3 (rndOf [0, 0, 0, 1, 0, 2])
      (KMeanAlgo.alloc 3 3 10 "serial" 1 zeroHeap)) rgbImage3 1 = 2 ∧
    (run 3 3 10 "serial" 1 zeroHeap rgbImage3 (rndOf [0, 0, 0, 1, 0, 2]) noSched div0Zero).map
      (fun o => (o.image.data, o.state.clustered_img, o.iter, o.converged))
      = .ok ([[3, 0, 0], [0, 0, 0], [0, 0, 0]], [0, 2, 2], 2, true) ∧
    (run 3 3 10 "serial" 1 zeroHeap rgbImage3 (rndOf [0, 0, 0, 1, 0, 2]) noSched
        (fun _ => 77)).map
      (fun o => (o.image.data, o.state.clustered_img, o.iter, o.converged))
      = .ok ([[1, 0, 0], [1, 0, 0], [1, 0, 0]], [0, 0, 0], 3, true) ∧
    (run 3 3 1 "serial" 1 zeroHeap rgbImage3 (rndOf [0, 0, 0, 1, 0, 2]) noSched div0Zero).map
      (fun o => (o.image.data, o.state.clustered_img, o.iter, o.converged))
      = .ok ([[3, 0, 0], [0, 0, 0], [0, 0, 0]], [0, 2, 2], 1, false) := by
  decide

/-! ## C13: centroids that are already the means of their clusters -/

/-- C13 fails on the code. On the image `[[4,8]]` with the centroids 4 and 8, each centroid is
the mean of its cluster (`{4}` and `{8}`).  With the first colour-sum cell holding 1 before the
first pass, the first update gives `(1 + 4) / 1 = 5` for centroid 0: the first iteration ends with
the flag false and `process` reports 3 iterations.  With zeroed cells it reports 1. -/
theorem preconverged_reads_stale_colorsum :
    (init_centroids image48 (rndOf [0, 0, 0, 1])
      (KMeanAlgo.alloc 1 2 10 "serial" 1 oneHeap)).centroids = [[4], [8]] ∧
    (iteration image48 noSched div0Zero (init_centroids image48 (rndOf [0, 0, 0, 1])
      (KMeanAlgo.alloc 1 2 10 "serial" 1 oneHeap)) 0).map
      (fun s => (s.clustered_img, s.centroids, s.new_centroids, centroids_equal s))
      = .ok ([0, 1], [[4], [8]], [[5], [8]], false) ∧
    (run 1 2 10 "serial" 1 oneHeap image48 (rndOf [0, 0, 0, 1]) noSched div0Zero).map
      Outcome.summary = .ok ([[4], [8]], 3, true) ∧
    (run 1 2 10 "serial" 1 zeroHeap image48 (rndOf [0, 0, 0, 1]) noSched div0Zero).map
      Outcome.summary = .ok ([[4], [8]], 1, true) := by
  decide

/-! ## C17: the accumulators after a pass -/

/-- C17 fails on the code for the first pass. The constructor leaves the cells of
`clst_colorsum` uninitialised and `segment` adds to them: on the scenario image with the
centroids 10 and 200 and the first cell holding 378, the first pass leaves the counts 2 and 2 but
the colour sums 400 and 410, whereas the pixels 10 and 12 of cluster 0 sum to 22. -/
theorem first_pass_adds_to_stale_colorsum :
    ((KMeanAlgo.create 1 2 10 "serial" 1 staleHeap).bind (fun s =>
        segment (noSched 0) (init_centroids image4 (rndOf [0, 0, 1, 0]) s) image4)).map
      (fun s => (s.centroids, s.clustered_img, s.clst_count, s.clst_colorsum))
      = .ok ([[10], [200]], [0, 0, 1, 1], [2, 2], [[400], [410]]) ∧
    cluster_sum (init_centroids image4 (rndOf [0, 0, 1, 0])
      (KMeanAlgo.alloc 1 2 10 "serial" 1 staleHeap)) image4 0 0 = 22 ∧
    cluster_count (init_centroids image4 (rndOf [0, 0, 1, 0])
      (KMeanAlgo.alloc 1 2 10 "serial" 1 staleHeap)) image4 0 = 2 := by
  decide

/-! ## C19: the output after the last iteration -/

/-- C19 fails on the code when the loop stops after its first iteration. On the scenario image
with the centroids 10 and 200, `max_iterations = 1` and the first colour-sum cell holding 378, no
cluster is empty, the final labels are 0, 0, 1, 1, and the pixels 10 and 12 come back as
`(378 + 22) / 2 = 200` instead of their mean 11. -/
theorem remap_after_first_pass_stale_colorsum :
    (run 1 2 1 "serial" 1 staleHeap image4 (rndOf [0, 0, 1, 0]) noSched div0Zero).map
      (fun o => (o.image.data, o.state.clustered_img, o.iter, o.converged))
      = .ok ([[200], [200], [205], [205]], [0, 0, 1, 1], 1, false) ∧
    (run 1 2 1 "serial" 1 zeroHeap image4 (rndOf [0, 0, 1, 0]) noSched div0Zero).map
      (fun o => (o.image.data, o.state.clustered_img, o.iter, o.converged))
      = .ok ([[11], [11], [205], [205]], [0, 0, 1, 1], 1, false) := by
  decide

/-! ## Lemmas: runs that start with cleared accumulators -/

/-- The main loop keeps an invariant that every round re-establishes. -/
theorem process_loop_inv (image : Mat) (sched : Nat → Nat → Nat) (div0 : Nat → Nat)
    (J : Loop → Prop)
    (hstep : ∀ l, J l → l.converged = false →
      ∃ s1 s2, segment (sched l.iter) l.state image = .ok s1 ∧
        compute_centroids div0 s1 = .ok s2 ∧
        J { state := swap_centroids s2, converged := centroids_equal s2, iter := l.iter + 1 })
    (n : Nat) (l : Loop) (hJ : J l) :
    ∃ l', process_loop image sched div0 n l = .ok l' ∧ J l' := by
  induction n generalizing l with
  | zero => exact ⟨l, rfl, hJ⟩
  | succ n ih =>
    by_cases hc : l.converged = true
    · rw [process_loop, if_pos hc]
      exact ⟨l, rfl, hJ⟩
    · have hc' : l.converged = false := by
        cases hb : l.converged with
        | true => exact absurd hb hc
        | false => rfl
      obtain ⟨s1, s2, h1, h2, hJ2⟩ := hstep l hJ hc'
      rw [process_loop_round image sched div0 n l s1 s2 hc' h1 h2]
      exact ih _ hJ2

theorem swap_ready (C K T : Int) (mode : String) (slices n : Nat) (s : KMeanAlgo)
    (h : Ready C K T mode slices n s) : Ready C K T mode slices n (swap_centroids s) :=
  ⟨⟨h.sized.1, h.sized.2.1, h.sized.2.2.1, h.sized.2.2.2.1, h.sized.2.2.2.2.1,
    h.sized.2.2.2.2.2⟩, swap_shaped C K n s h.shaped, h.sum_rows⟩

theorem swap_cleared (s : KMeanAlgo) (h : Cleared s) : Cleared (swap_centroids s) := h

/-- A round that starts with cleared accumulators and at most 256 centroids leaves every
centroid, after the swap, equal to the quotient of the totals of the pixels labelled with it. -/
theorem round_settled (C K T : Int) (mode : String) (slices : Nat) (image : Mat)
    (sched : Nat → Nat) (div0 : Nat → Nat) (s : KMeanAlgo) (hK : 1 ≤ K) (hK256 : K ≤ 256)
    (hT : 1 ≤ T) (hin : InRange K T mode slices sched)
    (h : Ready C K T mode slices (image.rows * image.cols) s)
    (hclr : mode ≠ "tbb" → Cleared s) :
    ∃ s1 s2, segment sched s image = .ok s1 ∧ compute_centroids div0 s1 = .ok s2 ∧
      Ready C K T mode slices (image.rows * image.cols) (swap_centroids s2) ∧
      Cleared (swap_centroids s2) ∧ Settled div0 image (swap_centroids s2) ∧
      (swap_centroids s2).m_maxiter = s.m_maxiter ∧
      (∀ p, p < image.rows * image.cols →
        (swap_centroids s2).clustered_img.getD p 0 = nrst_at s image p) ∧
      (∀ c, c < K.toNat → ∀ ch, ch < C.toNat →
        cell s2.new_centroids c ch
          = quotByte div0 (cluster_sum s image c ch) (cluster_count s image c)) ∧
      s2.centroids = s.centroids := by
  obtain ⟨s1, s2, h1, h2, hr2, hclr2, _, hcen2, hm2, hl2, hlab, _, hq⟩ :=
    round_spec C K T mode slices image sched div0 s hK hT hin h hclr
  have hlabel : ∀ p, p < image.rows * image.cols →
      s2.clustered_img.getD p 0 = nrst_at s image p := by
    intro p hp
    rw [hl2, hlab p hp]
    apply Nat.mod_eq_of_lt
    have := nrst_at_lt s image p (by rw [h.sized.2.2.2.1]; exact hK)
    rw [h.sized.2.2.2.1] at this
    omega
  refine ⟨s1, s2, h1, h2, swap_ready C K T mode slices _ s2 hr2, hclr2, ?_, hm2, hlabel, hq,
    hcen2⟩
  intro c hc ch hch
  have hc' : c < K.toNat := by
    have : (swap_centroids s2).m_nb_centroid = K := hr2.sized.2.2.2.1
    rw [this] at hc
    exact hc
  have hch' : ch < C.toNat := by
    have : (swap_centroids s2).nb_channels = C := hr2.sized.1
    rw [this] at hch
    exact hch
  show cell s2.new_centroids c ch = _
  rw [hq c hc' ch hch']
  have e1 : label_total (swap_centroids s2) image c ch = cluster_sum s image c ch := by
    unfold label_total cluster_sum
    apply congrArg
    apply List.map_congr_left
    intro q hq'
    show (if s2.clustered_img.getD q 0 = c then _ else _) = _
    rw [hlabel q (List.mem_range.1 hq')]
  have e2 : label_size (swap_centroids s2) (image.rows * image.cols) c
      = cluster_count s image c := by
    unfold label_size cluster_count
    apply congrArg
    apply List.map_congr_left
    intro q hq'
    show (if s2.clustered_img.getD q 0 = c then _ else _) = _
    rw [hlabel q (List.mem_range.1 hq')]
  rw [e1, e2]

theorem sum_indicator_pos (l : List Nat) (c : Nat → Prop) [DecidablePred c] (p : Nat)
    (hp : p ∈ l) (hc : c p) : 0 < (l.map (fun q => if c q then 1 else 0)).sum := by
  induction l with
  | nil => cases hp
  | cons a l ih =>
    rw [List.map_cons, List.sum_cons]
    rcases List.mem_cons.1 hp with h | h
    · subst h
      rw [if_pos hc]
      omega
    · have := ih h
      omega

theorem sum_indicator_le (l : List Nat) (c : Nat → Prop) [DecidablePred c] (v : Nat → Nat)
    (b : Nat) (hv : ∀ q, q ∈ l → v q ≤ b) :
    (l.map (fun q => if c q then v q else 0)).sum
      ≤ b * (l.map (fun q => if c q then 1 else 0)).sum := by
  induction l with
  | nil => simp
  | cons a l ih =>
    rw [List.map_cons, List.sum_cons, List.map_cons, List.sum_cons, Nat.mul_add]
    have h1 := ih (fun q hq => hv q (List.mem_cons_of_mem _ hq))
    have h2 := hv a (List.mem_cons_self _ _)
    by_cases hca : c a
    · rw [if_pos hca, if_pos hca]
      omega
    · rw [if_neg hca, if_neg hca]
      omega

/-- The quotient stored for a non-empty cluster of bytes is the truncated mean itself. -/
theorem quotByte_mean (div0 : Nat → Nat) (total size : Nat) (hpos : 0 < size)
    (hle : total ≤ 255 * size) : quotByte div0 total size = total / size := by
  unfold quotByte
  rw [if_neg (by omega)]
  apply Nat.mod_eq_of_lt
  have : total / size ≤ 255 := by
    apply Nat.div_le_of_le_mul
    rw [Nat.mul_comm]
    exact hle
  omega

/-- The main loop run from a seeded engine with cleared accumulators and at most 256 centroids:
it returns after at least one round with every centroid equal to the quotient of the totals of
the pixels that carry its index as label. -/
theorem process_loop_settled (C K M T : Int) (mode : String) (heap : Nat → Nat → Nat)
    (image : Mat) (rnd : Nat → Nat) (sched : Nat → Nat → Nat) (div0 : Nat → Nat)
    (hC : 0 ≤ C) (hK : 1 ≤ K) (hK256 : K ≤ 256) (hM : 1 ≤ M) (hT : 1 ≤ T)
    (hmode : mode = "tbb" ∨ (mode = "omp" ∧ ∀ it p, sched it p < T.toNat) ∨
      (mode ≠ "omp" ∧ T = 1))
    (hheap : mode ≠ "tbb" → ∀ k ch, heap k ch = 0) :
    ∃ l, process_loop image sched div0 M.toNat
        { state := init_centroids image rnd (KMeanAlgo.alloc C K M mode T heap)
          converged := false, iter := 0 } = .ok l ∧
      1 ≤ l.iter ∧
      Ready C K T mode (if mode = "omp" then T.toNat else 1) (image.rows * image.cols)
        l.state ∧
      Settled div0 image l.state := by
  obtain ⟨hready, _, hclr⟩ := init_ready C K M T mode heap image rnd hC hK hT
  have hin : ∀ it, InRange K T mode (if mode = "omp" then T.toNat else 1) (sched it) := by
    intro it
    apply inRange_of_mode K T mode (sched it) (fun _ => hK256)
    rcases hmode with h | h | h
    · exact Or.inl h
    · exact Or.inr (Or.inl ⟨h.1, h.2 it⟩)
    · exact Or.inr (Or.inr h)
  obtain ⟨l, hl, hJ⟩ := process_loop_inv image sched div0
    (fun l => Ready C K T mode (if mode = "omp" then T.toNat else 1)
        (image.rows * image.cols) l.state ∧
      (mode ≠ "tbb" → Cleared l.state) ∧ (1 ≤ l.iter → Settled div0 image l.state))
    (by
      intro l hJ _
      obtain ⟨s1, s2, h1, h2, hr, hc, hs, _⟩ := round_settled C K T mode _ image
        (sched l.iter) div0 l.state hK hK256 hT (hin l.iter) hJ.1 hJ.2.1
      exact ⟨s1, s2, h1, h2, hr, fun _ => hc, fun _ => hs⟩)
    M.toNat
    { state := init_centroids image rnd (KMeanAlgo.alloc C K M mode T heap)
      converged := false, iter := 0 }
    ⟨hready, fun hm => hclr (hheap hm), fun h => absurd h (Nat.not_succ_le_zero 0)⟩
  have hit := process_loop_iter image sched div0 _ _ _ hl
  simp only at hit
  have hpos : 0 < M.toNat := by omega
  have h1 : 1 ≤ l.iter := hit.2.2 trivial hpos
  exact ⟨l, hl, h1, hJ.1, hJ.2.2 h1⟩

/-- When the accumulators are cleared at the start (colour-sum cells that read as zero, or TBB
mode) and there are at most 256 centroids, `process` returns, for a well-formed image of bytes,
with every pixel holding on every channel the truncated mean of the input values of the pixels
that share its final label.  This is the statement of C19 without the first pass over
uninitialised cells. -/
theorem output_pixels_are_label_means (C K M T : Int) (mode : String)
    (heap : Nat → Nat → Nat) (image : Mat) (rnd : Nat → Nat) (sched : Nat → Nat → Nat)
    (div0 : Nat → Nat) (hC : C = 1 ∨ C = 3) (hK : 1 ≤ K) (hK256 : K ≤ 256) (hM : 1 ≤ M)
    (hT : 1 ≤ T) (hdata : image.data.length = image.rows * image.cols)
    (hpix : ∀ p, p < image.rows * image.cols → (image.data.getD p []).length = C.toNat)
    (hbyte : ∀ p, p < image.rows * image.cols → ∀ ch, ch < C.toNat →
      cell image.data p ch < 256)
    (hmode : mode = "tbb" ∨ (mode = "omp" ∧ ∀ it p, sched it p < T.toNat) ∨
      (mode ≠ "omp" ∧ T = 1))
    (hheap : mode ≠ "tbb" → ∀ k ch, heap k ch = 0) :
    ∃ o, run C K M mode T heap image rnd sched div0 = .ok o ∧ 1 ≤ o.iter ∧
      ∀ p, p < image.rows * image.cols → ∀ ch, ch < C.toNat →
        0 < label_size o.state (image.rows * image.cols) (o.state.clustered_img.getD p 0) ∧
        cell o.image.data p ch
          = label_total o.state image (o.state.clustered_img.getD p 0) ch
            / label_size o.state (image.rows * image.cols)
                (o.state.clustered_img.getD p 0) := by
  obtain ⟨l, hl, hiter, hready, hset⟩ := process_loop_settled C K M T mode heap image rnd sched
    div0 (by omega) hK hK256 hM hT hmode hheap
  obtain ⟨s, hcreate, hmax, _⟩ := create_ok C K M T mode heap (by omega) hK hT
  have hs : s = KMeanAlgo.alloc C K M mode T heap := by
    unfold KMeanAlgo.create at hcreate
    by_cases h1 : (if mode = "omp" then K * T else K) < 0
    · rw [if_pos h1] at hcreate
      cases hcreate
    · rw [if_neg h1] at hcreate
      by_cases h2 : 0 < K ∧ C < 0
      · rw [if_pos h2] at hcreate
        cases hcreate
      · rw [if_neg h2] at hcreate
        cases hcreate
        rfl
  subst hs
  obtain ⟨_, hlab, mapped, hmap, _⟩ := loop_remap C K M T mode heap image rnd sched div0
    (by omega) hK hM hT hmode l hl
  have hrun := run_eq C K M T mode heap image rnd sched div0 _ l mapped hcreate
    (by rw [hmax]; exact hl) hmap
  refine ⟨_, hrun, hiter, ?_⟩
  intro p hp ch hch
  show 0 < label_size l.state _ (l.state.clustered_img.getD p 0) ∧
    cell mapped.data p ch = _
  have hk : l.state.m_nb_centroid = K := hready.sized.2.2.2.1
  have hCs : l.state.nb_channels = C := hready.sized.1
  have hpos : 0 < label_size l.state (image.rows * image.cols)
      (l.state.clustered_img.getD p 0) :=
    sum_indicator_pos _ (fun q => l.state.clustered_img.getD q 0
      = l.state.clustered_img.getD p 0) p (List.mem_range.2 hp) rfl
  have hle : label_total l.state image (l.state.clustered_img.getD p 0) ch
      ≤ 255 * label_size l.state (image.rows * image.cols)
          (l.state.clustered_img.getD p 0) :=
    sum_indicator_le _ (fun q => l.state.clustered_img.getD q 0
        = l.state.clustered_img.getD p 0)
      (fun q => (image.data.getD q []).getD ch 0) 255
      (fun q hq => by
        have := hbyte q (List.mem_range.1 hq) ch hch
        unfold cell at this
        show (image.data.getD q []).getD ch 0 ≤ 255
        omega)
  refine ⟨hpos, ?_⟩
  have hrow := map_segmentation_pixel C K l.state image mapped p hCs hready.shaped hlab hmap hp
    hdata (hpix p hp)
  have hcell : cell mapped.data p ch
      = cell l.state.centroids (l.state.clustered_img.getD p 0) ch := by
    unfold cell
    rw [hrow]
  rw [hcell, hset _ (by rw [hk]; exact (hlab p hp).1) ch (by rw [hCs]; exact hch),
    quotByte_mean div0 _ _ hpos hle]

/-- A run whose first round recomputes the active centroids stops after that round and returns
the remap by the engine of that round. -/
theorem run_one_round (C K M T : Int) (mode : String) (heap : Nat → Nat → Nat) (image : Mat)
    (rnd : Nat → Nat) (sched : Nat → Nat → Nat) (div0 : Nat → Nat) (s1 s2 : KMeanAlgo)
    (mapped : Mat) (hC : 0 ≤ C) (hK : 1 ≤ K) (hM : 1 ≤ M) (hT : 1 ≤ T)
    (h1 : segment (sched 0) (init_centroids image rnd (KMeanAlgo.alloc C K M mode T heap))
      image = .ok s1)
    (h2 : compute_centroids div0 s1 = .ok s2) (hconv : centroids_equal s2 = true)
    (hmap : map_segmentation (swap_centroids s2) image = .ok mapped) :
    run C K M mode T heap image rnd sched div0 =
      .ok { image := mapped, iter := 1
            converged := true, state := swap_centroids s2 } := by
  obtain ⟨s, hcreate, hmax, _⟩ := create_ok C K M T mode heap hC hK hT
  have hs : s = KMeanAlgo.alloc C K M mode T heap := by
    unfold KMeanAlgo.create at hcreate
    by_cases h1 : (if mode = "omp" then K * T else K) < 0
    · rw [if_pos h1] at hcreate
      cases hcreate
    · rw [if_neg h1] at hcreate
      by_cases h2 : 0 < K ∧ C < 0
      · rw [if_pos h2] at hcreate
        cases hcreate
      · rw [if_neg h2] at hcreate
        cases hcreate
        rfl
  subst hs
  obtain ⟨m, hm⟩ : ∃ m, M.toNat = m + 1 := ⟨M.toNat - 1, by omega⟩
  have hloop : process_loop image sched div0 (KMeanAlgo.alloc C K M mode T heap).m_maxiter.toNat
      { state := init_centroids image rnd (KMeanAlgo.alloc C K M mode T heap)
        converged := false, iter := 0 }
      = .ok { state := swap_centroids s2, converged := true, iter := 1 } := by
    rw [hmax, hm, process_loop_round image sched div0 m _ s1 s2 rfl h1 h2, hconv]
    exact process_loop_converged image sched div0 m _ rfl
  exact run_eq C K M T mode heap image rnd sched div0 _ _ mapped hcreate hloop hmap

/-- When the accumulators are cleared at the start (colour-sum cells that read as zero, or TBB
mode) and every seeded centroid is already the truncated mean of the non-empty cluster of the
pixels nearest to it, `process` stops after its first iteration with the flag true and the
centroids unchanged.  This is the statement of C13 without the first pass over uninitialised
cells. -/
theorem preconverged_when_cleared (C K M T : Int) (mode : String) (heap : Nat → Nat → Nat)
    (image : Mat) (rnd : Nat → Nat) (sched : Nat → Nat → Nat) (div0 : Nat → Nat)
    (hC : C = 1 ∨ C = 3) (hK : 1 ≤ K) (hM : 1 ≤ M) (hT : 1 ≤ T)
    (hK256 : mode = "tbb" → K ≤ 256)
    (hmode : mode = "tbb" ∨ (mode = "omp" ∧ ∀ it p, sched it p < T.toNat) ∨
      (mode ≠ "omp" ∧ T = 1))
    (hheap : mode ≠ "tbb" → ∀ k ch, heap k ch = 0)
    (hbyte : ∀ c, c < K.toNat → ∀ ch, ch < C.toNat →
      cell (init_centroids image rnd (KMeanAlgo.alloc C K M mode T heap)).centroids c ch < 256)
    (hmean : ∀ c, c < K.toNat →
      0 < cluster_count (init_centroids image rnd (KMeanAlgo.alloc C K M mode T heap)) image c ∧
      ∀ ch, ch < C.toNat →
        cell (init_centroids image rnd (KMeanAlgo.alloc C K M mode T heap)).centroids c ch
          = cluster_sum (init_centroids image rnd (KMeanAlgo.alloc C K M mode T heap)) image
              c ch
            / cluster_count (init_centroids image rnd (KMeanAlgo.alloc C K M mode T heap))
                image c) :
    ∃ o, run C K M mode T heap image rnd sched div0 = .ok o ∧ o.iter = 1 ∧
      o.converged = true ∧ map_segmentation o.state image = .ok o.image ∧
      Shaped C K (image.rows * image.cols) o.state ∧ o.state.nb_channels = C ∧
      (∀ p, p < image.rows * image.cols → o.state.clustered_img.getD p 0
        = nrst_at (init_centroids image rnd (KMeanAlgo.alloc C K M mode T heap)) image p
          % 256) ∧
      ∀ c, c < K.toNat → ∀ ch, ch < C.toNat →
        cell o.state.centroids c ch
          = cell (init_centroids image rnd (KMeanAlgo.alloc C K M mode T heap)).centroids
              c ch := by
  obtain ⟨hready, _, hclr⟩ := init_ready C K M T mode heap image rnd (by omega) hK hT
  obtain ⟨s1, s2, h1, h2, hr2, _, _, hc2, _, hl2, hlab, _, hq⟩ :=
    round_spec C K T mode _ image (sched 0) div0 _ hK hT
      (inRange_of_mode K T mode (sched 0) hK256 (by
        rcases hmode with h | h | h
        · exact Or.inl h
        · exact Or.inr (Or.inl ⟨h.1, h.2 0⟩)
        · exact Or.inr (Or.inr h)))
      hready (fun hm => hclr (hheap hm))
  have hnew : ∀ c, c < K.toNat → ∀ ch, ch < C.toNat →
      cell s2.new_centroids c ch
        = cell (init_centroids image rnd (KMeanAlgo.alloc C K M mode T heap)).centroids
            c ch := by
    intro c hc ch hch
    obtain ⟨hpos, hm⟩ := hmean c hc
    rw [hq c hc ch hch]
    unfold quotByte
    rw [if_neg (by omega), ← hm ch hch]
    exact Nat.mod_eq_of_lt (hbyte c hc ch hch)
  have hconv : centroids_equal s2 = true := by
    rw [centroids_equal_iff, hr2.sized.2.2.2.1, hr2.sized.1]
    intro cent hcent ch hch
    rw [hc2, hnew cent hcent ch hch]
  obtain ⟨_, mapped, hmap, _⟩ := round_remap C K image _ s1 s2 hK hready.sized.2.2.2.1
    hr2.shaped hl2 hlab
  refine ⟨_, run_one_round C K M T mode heap image rnd sched div0 s1 s2 mapped (by omega) hK hM
    hT h1 h2 hconv hmap, rfl, rfl, hmap, swap_shaped C K _ s2 hr2.shaped, hr2.sized.1, ?_, hnew⟩
  intro p hp
  show s2.clustered_img.getD p 0 = _
  rw [hl2]
  exact hlab p hp

/-- C13, positive instance: the image `[[4,8]]` with the centroids 4 and 8 and zeroed cells. -/
theorem preconverged_when_cleared_instance :
    ∃ o, run 1 2 10 "serial" 1 zeroHeap image48 (rndOf [0, 0, 0, 1]) noSched div0Zero = .ok o ∧
      o.iter = 1 ∧ o.converged = true := by
  obtain ⟨o, ho, h1, h2, _⟩ := preconverged_when_cleared 1 2 10 1 "serial" zeroHeap image48
    (rndOf [0, 0, 0, 1]) noSched div0Zero (by decide) (by decide) (by decide) (by decide)
    (fun h => absurd h (by decide)) (Or.inr (Or.inr ⟨by decide, rfl⟩)) (fun _ _ _ => rfl)
    (by
      intro c hc ch hch
      have hc' : c < 2 := hc
      have hch' : ch < 1 := hch
      interval_cases c <;> interval_cases ch <;> decide)
    (by
      intro c hc
      have hc' : c < 2 := hc
      interval_cases c
      · refine ⟨by decide, ?_⟩
        intro ch hch
        have hch' : ch < 1 := hch
        interval_cases ch
        decide
      · refine ⟨by decide, ?_⟩
        intro ch hch
        have hch' : ch < 1 := hch
        interval_cases ch
        decide)
  exact ⟨o, ho, h1, h2⟩

theorem sum_indicator_const (l : List Nat) (c : Nat → Prop) [DecidablePred c] (v : Nat → Nat)
    (b : Nat) (hv : ∀ q, q ∈ l → c q → v q = b) :
    (l.map (fun q => if c q then v q else 0)).sum
      = b * (l.map (fun q => if c q then 1 else 0)).sum := by
  induction l with
  | nil => simp
  | cons a l ih =>
    rw [List.map_cons, List.sum_cons, List.map_cons, List.sum_cons, Nat.mul_add,
      ih (fun q hq => hv q (List.mem_cons_of_mem _ hq))]
    by_cases hca : c a
    · rw [if_pos hca, if_pos hca, hv a (List.mem_cons_self _ _) hca, Nat.mul_one]
    · rw [if_neg hca, if_neg hca, Nat.mul_zero]

/-- When the accumulators are cleared at the start (colour-sum cells that read as zero, or TBB
mode), a single-channel image whose pixels all carry one of the pairwise distinct values of the
`K` seeds is left unchanged by `process`: one iteration, the flag true, every pixel labelled with
the centroid of its own value.  This is the statement of C11 for one channel, without the first
pass over uninitialised cells. -/
theorem idempotence_single_channel (K M T : Int) (mode : String) (heap : Nat → Nat → Nat)
    (image : Mat) (rnd : Nat → Nat) (sched : Nat → Nat → Nat) (div0 : Nat → Nat)
    (hK : 1 ≤ K) (hM : 1 ≤ M) (hT : 1 ≤ T) (himg : 0 < image.rows ∧ 0 < image.cols)
    (hdata : image.data.length = image.rows * image.cols)
    (hpix : ∀ p, p < image.rows * image.cols → (image.data.getD p []).length = 1)
    (hbyte : ∀ p, p < image.rows * image.cols → cell image.data p 0 < 256)
    (hseed : ∀ i j, i < K.toNat → j < K.toNat →
      cell image.data (drawn image rnd i) 0 = cell image.data (drawn image rnd j) 0 → i = j)
    (hcol : ∀ p, p < image.rows * image.cols →
      ∃ i, i < K.toNat ∧ cell image.data p 0 = cell image.data (drawn image rnd i) 0)
    (hmode : mode = "tbb" ∨ (mode = "omp" ∧ ∀ it p, sched it p < T.toNat) ∨
      (mode ≠ "omp" ∧ T = 1))
    (hheap : mode ≠ "tbb" → ∀ k ch, heap k ch = 0) :
    ∃ o, run 1 K M mode T heap image rnd sched div0 = .ok o ∧ o.iter = 1 ∧
      o.converged = true ∧
      (∀ p, p < image.rows * image.cols →
        o.state.clustered_img.getD p 0 < K.toNat ∧
        cell image.data (drawn image rnd (o.state.clustered_img.getD p 0)) 0
          = cell image.data p 0) ∧
      o.image.data = image.data := by
  have hK256 : K ≤ 256 := by
    have := card_le_of_inj_below K.toNat 256 (fun i => cell image.data (drawn image rnd i) 0)
      (fun i _ => hbyte _ (drawn_lt image rnd i himg)) hseed
    omega
  obtain ⟨⟨hs, hsh, _⟩, _, _⟩ := init_ready 1 K M T mode heap image rnd (by decide) hK hT
  have hcen : ∀ i, i < K.toNat →
      cell (init_centroids image rnd (KMeanAlgo.alloc 1 K M mode T heap)).centroids i 0
        = cell image.data (drawn image rnd i) 0 :=
    fun i hi => init_centroids_cells 1 K M T mode heap image rnd i 0 hi (by decide)
  have hone : ∀ ch, ch < (1 : Int).toNat → ch = 0 := by
    intro ch hch
    have : (1 : Int).toNat = 1 := rfl
    omega
  -- every pixel is nearest to the centroid of its own value
  have hnrst : ∀ p, p < image.rows * image.cols →
      nrst_at (init_centroids image rnd (KMeanAlgo.alloc 1 K M mode T heap)) image p < K.toNat ∧
      cell image.data (drawn image rnd
        (nrst_at (init_centroids image rnd (KMeanAlgo.alloc 1 K M mode T heap)) image p)) 0
        = cell image.data p 0 := by
    intro p hp
    have hk : (init_centroids image rnd (KMeanAlgo.alloc 1 K M mode T heap)).m_nb_centroid = K :=
      hs.2.2.2.1
    have hcb : ∀ k, cell (init_centroids image rnd
        (KMeanAlgo.alloc 1 K M mode T heap)).centroids k 0 < 256 := by
      intro k
      by_cases hk' : k < K.toNat
      · rw [hcen k hk']
        exact hbyte _ (drawn_lt image rnd k himg)
      · rw [cell_beyond _ _ _ (by rw [hsh.centroids_length]; omega)]
        decide
    obtain ⟨h1, h2⟩ := nrst_at_gray _ image p hs.1 (by rw [hk]; exact hK) (hbyte p hp) hcb
    rw [hk] at h1 h2
    refine ⟨h1, ?_⟩
    obtain ⟨i, hi, hval⟩ := hcol p hp
    have hmin := h2 i hi
    rw [hcen i hi, ← hval] at hmin
    have hz : absDiff ((image.data.getD p []).getD 0 0) (cell image.data p 0) = 0 :=
      (absDiff_eq_zero _ _).2 rfl
    rw [hz] at hmin
    have heq := (absDiff_eq_zero _ _).1 (Nat.le_zero.1 hmin)
    rw [hcen _ h1] at heq
    exact heq.symm
  have hiff : ∀ c, c < K.toNat → ∀ p, p ∈ List.range (image.rows * image.cols) →
      (nrst_at (init_centroids image rnd (KMeanAlgo.alloc 1 K M mode T heap)) image p = c ↔
        cell image.data p 0 = cell image.data (drawn image rnd c) 0) := by
    intro c hc p hp
    obtain ⟨h1, h2⟩ := hnrst p (List.mem_range.1 hp)
    constructor
    · intro h
      rw [← h, h2]
    · intro h
      exact hseed _ _ h1 hc (by rw [h2, h])
  have hcount : ∀ c, c < K.toNat → 0 < cluster_count
      (init_centroids image rnd (KMeanAlgo.alloc 1 K M mode T heap)) image c := by
    intro c hc
    exact sum_indicator_pos _ (fun p => nrst_at
      (init_centroids image rnd (KMeanAlgo.alloc 1 K M mode T heap)) image p = c)
      (drawn image rnd c) (List.mem_range.2 (drawn_lt image rnd c himg))
      ((hiff c hc _ (List.mem_range.2 (drawn_lt image rnd c himg))).2 rfl)
  have hsum : ∀ c, c < K.toNat → cluster_sum
      (init_centroids image rnd (KMeanAlgo.alloc 1 K M mode T heap)) image c 0
        = cell image.data (drawn image rnd c) 0 * cluster_count
            (init_centroids image rnd (KMeanAlgo.alloc 1 K M mode T heap)) image c := by
    intro c hc
    exact sum_indicator_const _ (fun p => nrst_at
      (init_centroids image rnd (KMeanAlgo.alloc 1 K M mode T heap)) image p = c)
      (fun p => (image.data.getD p []).getD 0 0) _
      (fun p hp hcp => (hiff c hc p hp).1 hcp)
  obtain ⟨o, ho, h1, h2, him, hosh, hoC, hlab, hcent⟩ := preconverged_when_cleared 1 K M T mode
    heap image rnd sched div0 (Or.inl rfl) hK hM hT (fun _ => hK256) hmode hheap
    (by
      intro c hc ch hch
      rw [hone ch hch, hcen c hc]
      exact hbyte _ (drawn_lt image rnd c himg))
    (by
      intro c hc
      refine ⟨hcount c hc, ?_⟩
      intro ch hch
      rw [hone ch hch, hcen c hc, hsum c hc, Nat.mul_div_cancel _ (hcount c hc)])
  have hlabel : ∀ p, p < image.rows * image.cols → o.state.clustered_img.getD p 0
      = nrst_at (init_centroids image rnd (KMeanAlgo.alloc 1 K M mode T heap)) image p := by
    intro p hp
    rw [hlab p hp]
    apply Nat.mod_eq_of_lt
    have := (hnrst p hp).1
    omega
  have hwritten : Labelled K (image.rows * image.cols) o.state :=
    labelled_of_nrst K image _ o.state hK hs.2.2.2.1 hlab
  refine ⟨o, ho, h1, h2, ?_, ?_⟩
  · intro p hp
    rw [hlabel p hp]
    exact hnrst p hp
  · have hlen : o.image.data.length = image.data.length := by
      obtain ⟨mapped, hmap, post⟩ := map_segmentation_ok 1 K o.state image hosh hwritten
      rw [him] at hmap
      cases hmap
      exact post.length
    apply List.ext_getElem hlen
    intro p hp1 hp2
    have hp : p < image.rows * image.cols := by rw [← hdata]; exact hp2
    have hrow := map_segmentation_pixel 1 K o.state image o.image p hoC hosh hwritten him hp
      hdata (hpix p hp)
    have hkp : o.state.clustered_img.getD p 0 < K.toNat := by
      rw [hlabel p hp]
      exact (hnrst p hp).1
    have hrows : o.state.centroids.getD (o.state.clustered_img.getD p 0) []
        = image.data.getD p [] := by
      apply list_eq_of_getD
      · rw [hosh.centroids_rows _ (by rw [hosh.centroids_length]; exact hkp), hpix p hp]
        rfl
      · intro ch hch
        rw [hosh.centroids_rows _ (by rw [hosh.centroids_length]; exact hkp)] at hch
        have hch0 := hone ch hch
        subst hch0
        have := hcent _ hkp 0 (by decide)
        unfold cell at this
        rw [this]
        have h3 := hcen _ hkp
        unfold cell at h3
        rw [h3]
        have h4 := (hnrst p hp).2
        rw [← hlabel p hp] at h4
        exact h4
    rw [hrows, List.getD_eq_getElem _ _ hp1, List.getD_eq_getElem _ _ hp2] at hrow
    exact hrow

/-! ## Lemmas: two modes in step -/

/-- Two vectors of channel arrays of the same shape with the same cells are equal. -/
theorem rows_ext (k c : Nat) (v w : List (List Nat)) (hv : v.length = k) (hw : w.length = k)
    (hvr : RowsOf c v) (hwr : RowsOf c w)
    (h : ∀ q, q < k → ∀ ch, ch < c → cell v q ch = cell w q ch) : v = w := by
  apply List.ext_getElem (by rw [hv, hw])
  intro q h1 h2
  have hq : q < k := by rw [← hv]; exact h1
  have e1 := hvr q h1
  have e2 := hwr q h2
  have := list_eq_of_getD (v.getD q []) (w.getD q []) (by rw [e1, e2])
    (fun ch hch => h q hq ch (by rw [e1] at hch; exact hch))
  rwa [List.getD_eq_getElem _ _ h1, List.getD_eq_getElem _ _ h2] at this

theorem labels_ext (n : Nat) (v w : List Nat) (hv : v.length = n) (hw : w.length = n)
    (h : ∀ p, p < n → v.getD p 0 = w.getD p 0) : v = w := by
  apply List.ext_getElem (by rw [hv, hw])
  intro p h1 h2
  have := h p (by rw [← hv]; exact h1)
  rwa [List.getD_eq_getElem _ _ h1, List.getD_eq_getElem _ _ h2] at this

theorem centroids_equal_congr (a b : KMeanAlgo) (hC : a.nb_channels = b.nb_channels)
    (hK : a.m_nb_centroid = b.m_nb_centroid) (hc : a.centroids = b.centroids)
    (hn : a.new_centroids = b.new_centroids) : centroids_equal a = centroids_equal b := by
  unfold centroids_equal
  rw [hC, hK, hc, hn]

theorem map_segmentation_congr (a b : KMeanAlgo) (image : Mat)
    (hC : a.nb_channels = b.nb_channels) (hc : a.centroids = b.centroids)
    (hl : a.clustered_img = b.clustered_img) :
    map_segmentation a image = map_segmentation b image := by
  have h : map_pixel a = map_pixel b := by
    funext im i j
    simp only [map_pixel, label_slot, hC, hc, hl]
  unfold map_segmentation
  rw [h]

/-- One round in two modes from states in step: both return, and the states are in step
again. -/
theorem round_in_step (C K T1 T2 : Int) (mode1 mode2 : String) (slices1 slices2 : Nat)
    (image : Mat) (sched1 sched2 : Nat → Nat) (div0 : Nat → Nat) (a b : Loop)
    (hK : 1 ≤ K) (hK256 : K ≤ 256) (hT1 : 1 ≤ T1) (hT2 : 1 ≤ T2)
    (hin1 : InRange K T1 mode1 slices1 sched1) (hin2 : InRange K T2 mode2 slices2 sched2)
    (h : InStep C K (image.rows * image.cols) T1 mode1 slices1 T2 mode2 slices2 a b) :
    ∃ a1 a2 b1 b2, segment sched1 a.state image = .ok a1 ∧
      compute_centroids div0 a1 = .ok a2 ∧ segment sched2 b.state image = .ok b1 ∧
      compute_centroids div0 b1 = .ok b2 ∧
      InStep C K (image.rows * image.cols) T1 mode1 slices1 T2 mode2 slices2
        { state := swap_centroids a2, converged := centroids_equal a2, iter := a.iter + 1 }
        { state := swap_centroids b2, converged := centroids_equal b2, iter := b.iter + 1 } := by
  obtain ⟨a1, a2, ha1, ha2, hra, hca, _, _, halab, haq, hacen⟩ :=
    round_settled C K T1 mode1 slices1 image sched1 div0 a.state hK hK256 hT1 hin1 h.ready1
      h.cleared1
  obtain ⟨b1, b2, hb1, hb2, hrb, hcb, _, _, hblab, hbq, hbcen⟩ :=
    round_settled C K T2 mode2 slices2 image sched2 div0 b.state hK hK256 hT2 hin2 h.ready2
      h.cleared2
  have hCab : a.state.nb_channels = b.state.nb_channels := by
    rw [h.ready1.sized.1, h.ready2.sized.1]
  have hKab : a.state.m_nb_centroid = b.state.m_nb_centroid := by
    rw [h.ready1.sized.2.2.2.1, h.ready2.sized.2.2.2.1]
  have hnew : a2.new_centroids = b2.new_centroids := by
    apply rows_ext K.toNat C.toNat
    · exact hra.shaped.centroids_length
    · exact hrb.shaped.centroids_length
    · exact hra.shaped.centroids_rows
    · exact hrb.shaped.centroids_rows
    · intro q hq ch hch
      obtain ⟨e1, e2⟩ := cluster_totals_congr b.state a.state image q hCab hKab h.centroids
      rw [haq q hq ch hch, hbq q hq ch hch, e1, e2 ch]
  have hold : a2.centroids = b2.centroids := by rw [hacen, hbcen, h.centroids]
  have hlab : a2.clustered_img = b2.clustered_img := by
    apply labels_ext (image.rows * image.cols)
    · exact hra.shaped.label_length
    · exact hrb.shaped.label_length
    · intro p hp
      have e1 := halab p hp
      have e2 := hblab p hp
      have e3 : nrst_at a.state image p = nrst_at b.state image p :=
        nrst_centroid_index_congr a.state b.state image _ _ hCab hKab h.centroids
      show (swap_centroids a2).clustered_img.getD p 0 = (swap_centroids b2).clustered_img.getD p 0
      rw [e1, e2, e3]
  have hC2 : a2.nb_channels = b2.nb_channels := by
    have e1 : a2.nb_channels = C := hra.sized.1
    have e2 : b2.nb_channels = C := hrb.sized.1
    rw [e1, e2]
  have hK2 : a2.m_nb_centroid = b2.m_nb_centroid := by
    have e1 : a2.m_nb_centroid = K := hra.sized.2.2.2.1
    have e2 : b2.m_nb_centroid = K := hrb.sized.2.2.2.1
    rw [e1, e2]
  exact ⟨a1, a2, b1, b2, ha1, ha2, hb1, hb2,
    { iter := by rw [h.iter]
      converged := centroids_equal_congr a2 b2 hC2 hK2 hold hnew
      centroids := hnew
      labels := hlab
      ready1 := hra
      ready2 := hrb
      cleared1 := fun _ => hca
      cleared2 := fun _ => hcb }⟩

/-- The main loop in two modes from loop states in step: both return, in step. -/
theorem process_loop_in_step (C K T1 T2 : Int) (mode1 mode2 : String) (slices1 slices2 : Nat)
    (image : Mat) (sched1 sched2 : Nat → Nat → Nat) (div0 : Nat → Nat)
    (hK : 1 ≤ K) (hK256 : K ≤ 256) (hT1 : 1 ≤ T1) (hT2 : 1 ≤ T2)
    (hin1 : ∀ it, InRange K T1 mode1 slices1 (sched1 it))
    (hin2 : ∀ it, InRange K T2 mode2 slices2 (sched2 it)) (n : Nat) (a b : Loop)
    (h : InStep C K (image.rows * image.cols) T1 mode1 slices1 T2 mode2 slices2 a b) :
    ∃ a' b', process_loop image sched1 div0 n a = .ok a' ∧
      process_loop image sched2 div0 n b = .ok b' ∧
      InStep C K (image.rows * image.cols) T1 mode1 slices1 T2 mode2 slices2 a' b' := by
  induction n generalizing a b with
  | zero => exact ⟨a, b, rfl, rfl, h⟩
  | succ n ih =>
    by_cases hc : a.converged = true
    · have hcb : b.converged = true := by rw [← h.converged]; exact hc
      rw [process_loop, if_pos hc, process_loop, if_pos hcb]
      exact ⟨a, b, rfl, rfl, h⟩
    · have hca : a.converged = false := by
        cases hb : a.converged with
        | true => exact absurd hb hc
        | false => rfl
      have hcb : b.converged = false := by rw [← h.converged]; exact hca
      obtain ⟨a1, a2, b1, b2, ha1, ha2, hb1, hb2, hstep⟩ :=
        round_in_step C K T1 T2 mode1 mode2 slices1 slices2 image (sched1 a.iter)
          (sched2 b.iter) div0 a b hK hK256 hT1 hT2 (hin1 a.iter) (hin2 b.iter) h
      rw [process_loop_round image sched1 div0 n a a1 a2 hca ha1 ha2,
        process_loop_round image sched2 div0 n b b1 b2 hcb hb1 hb2]
      exact ih _ _ hstep

/-- Strategy equivalence below 257 centroids.  Two runs on the same image with the same seeding,
the same `K ≤ 256` and the same `max_iterations ≥ 1`, each in a configuration that stays in range (TBB mode, OpenMP mode with
thread numbers below the worker count, no OpenMP and one worker) and with cleared accumulators at
the start (colour-sum cells that read as zero, or TBB mode), return the same image, the same
iteration count and flag, the same labels and the same centroids.  This is the statement of C14
for at most 256 centroids. -/
theorem modes_agree_below_257 (C K M T1 T2 : Int) (mode1 mode2 : String)
    (heap1 heap2 : Nat → Nat → Nat) (image : Mat) (rnd : Nat → Nat)
    (sched1 sched2 : Nat → Nat → Nat) (div0 : Nat → Nat)
    (hC : C = 1 ∨ C = 3) (hK : 1 ≤ K) (hK256 : K ≤ 256) (hM : 1 ≤ M) (hT1 : 1 ≤ T1)
    (hT2 : 1 ≤ T2)
    (hmode1 : mode1 = "tbb" ∨ (mode1 = "omp" ∧ ∀ it p, sched1 it p < T1.toNat) ∨
      (mode1 ≠ "omp" ∧ T1 = 1))
    (hmode2 : mode2 = "tbb" ∨ (mode2 = "omp" ∧ ∀ it p, sched2 it p < T2.toNat) ∨
      (mode2 ≠ "omp" ∧ T2 = 1))
    (hheap1 : mode1 ≠ "tbb" → ∀ k ch, heap1 k ch = 0)
    (hheap2 : mode2 ≠ "tbb" → ∀ k ch, heap2 k ch = 0) :
    ∃ o1 o2, run C K M mode1 T1 heap1 image rnd sched1 div0 = .ok o1 ∧
      run C K M mode2 T2 heap2 image rnd sched2 div0 = .ok o2 ∧
      o1.image = o2.image ∧ o1.iter = o2.iter ∧ o1.converged = o2.converged ∧
      o1.state.clustered_img = o2.state.clustered_img ∧
      o1.state.centroids = o2.state.centroids := by
  have hC0 : 0 ≤ C := by omega
  obtain ⟨hr1, hm1, hc1⟩ := init_ready C K M T1 mode1 heap1 image rnd hC0 hK hT1
  obtain ⟨hr2, hm2, hc2⟩ := init_ready C K M T2 mode2 heap2 image rnd hC0 hK hT2
  have hin : ∀ (T : Int) (mode : String) (sched : Nat → Nat → Nat),
      (mode = "tbb" ∨ (mode = "omp" ∧ ∀ it p, sched it p < T.toNat) ∨
        (mode ≠ "omp" ∧ T = 1)) →
      ∀ it, InRange K T mode (if mode = "omp" then T.toNat else 1) (sched it) := by
    intro T mode sched hmode it
    apply inRange_of_mode K T mode (sched it) (fun _ => hK256)
    rcases hmode with h | h | h
    · exact Or.inl h
    · exact Or.inr (Or.inl ⟨h.1, h.2 it⟩)
    · exact Or.inr (Or.inr h)
  have hstart : InStep C K (image.rows * image.cols) T1 mode1
      (if mode1 = "omp" then T1.toNat else 1) T2 mode2 (if mode2 = "omp" then T2.toNat else 1)
      { state := init_centroids image rnd (KMeanAlgo.alloc C K M mode1 T1 heap1)
        converged := false, iter := 0 }
      { state := init_centroids image rnd (KMeanAlgo.alloc C K M mode2 T2 heap2)
        converged := false, iter := 0 } :=
    { iter := rfl
      converged := rfl
      centroids := by
        apply rows_ext K.toNat C.toNat
        · exact hr1.shaped.centroids_length
        · exact hr2.shaped.centroids_length
        · exact hr1.shaped.centroids_rows
        · exact hr2.shaped.centroids_rows
        · intro q hq ch hch
          show cell (init_centroids image rnd (KMeanAlgo.alloc C K M mode1 T1 heap1)).centroids
            q ch = cell (init_centroids image rnd
              (KMeanAlgo.alloc C K M mode2 T2 heap2)).centroids q ch
          rw [init_centroids_cells C K M T1 mode1 heap1 image rnd q ch hq hch,
            init_centroids_cells C K M T2 mode2 heap2 image rnd q ch hq hch]
      labels := by
        show (init_centroids image rnd (KMeanAlgo.alloc C K M mode1 T1 heap1)).clustered_img
          = (init_centroids image rnd (KMeanAlgo.alloc C K M mode2 T2 heap2)).clustered_img
        rw [(init_centroids_shape image rnd _).2.2.2, (init_centroids_shape image rnd _).2.2.2]
      ready1 := hr1
      ready2 := hr2
      cleared1 := fun hm => hc1 (hheap1 hm)
      cleared2 := fun hm => hc2 (hheap2 hm) }
  obtain ⟨a', b', ha, hb, hfin⟩ := process_loop_in_step C K T1 T2 mode1 mode2 _ _ image sched1
    sched2 div0 hK hK256 hT1 hT2 (hin T1 mode1 sched1 hmode1) (hin T2 mode2 sched2 hmode2)
    M.toNat _ _ hstart
  have hcreate : ∀ (T : Int) (mode : String) (heap : Nat → Nat → Nat), 1 ≤ T →
      KMeanAlgo.create C K M mode T heap = .ok (KMeanAlgo.alloc C K M mode T heap) := by
    intro T mode heap hT
    obtain ⟨s, hcr, _, _⟩ := create_ok C K M T mode heap hC0 hK hT
    have hcopy := hcr
    unfold KMeanAlgo.create at hcr
    by_cases h1 : (if mode = "omp" then K * T else K) < 0
    · rw [if_pos h1] at hcr
      cases hcr
    · rw [if_neg h1] at hcr
      by_cases h2 : 0 < K ∧ C < 0
      · rw [if_pos h2] at hcr
        cases hcr
      · rw [if_neg h2] at hcr
        cases hcr
        exact hcopy
  obtain ⟨_, _, mapped, hmap1, _⟩ := loop_remap C K M T1 mode1 heap1 image rnd sched1 div0 hC0
    hK hM hT1 hmode1 a' ha
  have hmap2 : map_segmentation b'.state image = .ok mapped := by
    rw [← map_segmentation_congr a'.state b'.state image
      (by rw [hfin.ready1.sized.1, hfin.ready2.sized.1]) hfin.centroids hfin.labels]
    exact hmap1
  have hrun1 := run_eq C K M T1 mode1 heap1 image rnd sched1 div0 _ a' mapped
    (hcreate T1 mode1 heap1 hT1) ha hmap1
  have hrun2 := run_eq C K M T2 mode2 heap2 image rnd sched2 div0 _ b' mapped
    (hcreate T2 mode2 heap2 hT2) hb hmap2
  exact ⟨_, _, hrun1, hrun2, rfl, hfin.iter, hfin.converged, hfin.labels, hfin.centroids⟩

end PPTP
